import Mathlib

/-!
# A shallow embedding of `Struct2/heap2.c`

The allocator keeps a singly linked chain of `MemoryBlock` headers inside the
memory obtained from `sbrk`.  The embedding below keeps that picture:

* memory is one flat map from addresses to bytes, shared by headers and
  payloads, so that a write through a payload pointer that runs over a header
  is visible as such; every address can be read and written;
* a header is the 24 bytes of the LP64 layout of `struct MemoryBlock`
  (`size` at offset 0, `next` at offset 8, `free` at offset 16, 4 bytes of
  padding), fields little endian;
* `size_t` arithmetic is arithmetic modulo `2 ^ 64`; addresses are natural
  numbers and pointer arithmetic is addition;
* the program break, and the range in which the environment lets it move,
  are part of the state; `sbrk` takes a signed increment, as in `unistd.h`,
  and fails, leaving the break, when the new break would leave the range;
* the two loops of the source take a fuel argument and return `none` when it
  runs out; the functions that call them pass the fuel on.

The definitions come first: the functions of the source, the predicates on
chains, the reachable states and the states of the scenarios.  The lemmas
follow, and the theorems that settle the claims stand at the end.
-/

namespace Heap2

/-! ## Constants and machine arithmetic -/

/-- `#define ALIGNMENT 16`. -/
def ALIGNMENT : Nat := 16

/-- `#define BLOCK_SIZE sizeof(MemoryBlock)`: 8 + 8 + 4 bytes and 4 of padding on LP64. -/
def BLOCK_SIZE : Nat := 24

/-- Number of values of `size_t`. -/
def SIZE_T : Nat := 2 ^ 64

/-- Addition on `size_t`. -/
def uadd (a b : Nat) : Nat := (a + b) % SIZE_T

/-- Subtraction on `size_t`. -/
def usub (a b : Nat) : Nat := (a % SIZE_T + (SIZE_T - b % SIZE_T)) % SIZE_T

/-- Multiplication on `size_t`. -/
def umul (a b : Nat) : Nat := (a * b) % SIZE_T

/-- Conversion of a `size_t` value to `intptr_t` (two's complement). -/
def toIntptr (v : Nat) : Int :=
  if v % SIZE_T < 2 ^ 63 then ((v % SIZE_T : Nat) : Int) else ((v % SIZE_T : Nat) : Int) - 2 ^ 64

/-- The expression `(size + (ALIGNMENT - 1)) & ~(ALIGNMENT - 1)` of `malloc`;
`~(ALIGNMENT - 1)` is the `int` value `-16`, converted to `size_t`. -/
def alignUp (size : Nat) : Nat :=
  (uadd size (ALIGNMENT - 1)) &&& (SIZE_T - 1 - (ALIGNMENT - 1))

/-! ## Memory -/

/-- Byte addressed memory. -/
abbrev Mem := Nat → Nat

/-- Little endian read of `k` bytes at address `a`. -/
def load (m : Mem) (a : Nat) : Nat → Nat
  | 0 => 0
  | k + 1 => m a % 256 + 256 * load m (a + 1) k

/-- Little endian write of the low `k` bytes of `v` at address `a`. -/
def store (m : Mem) (a k v : Nat) : Mem :=
  fun x => if a ≤ x ∧ x < a + k then (v / 256 ^ (x - a)) % 256 else m x

/-- The C library `memset`. -/
def memset (m : Mem) (dst c n : Nat) : Mem :=
  fun x => if dst ≤ x ∧ x < dst + n then c % 256 else m x

/-- The C library `memcpy` (all source bytes are read before any is written). -/
def memcpy (m : Mem) (dst src n : Nat) : Mem :=
  fun x => if dst ≤ x ∧ x < dst + n then m (src + (x - dst)) else m x

/-- The header fields of `struct MemoryBlock`, as read from memory. -/
structure MemoryBlock where
  size : Nat
  next : Nat
  free : Nat
deriving DecidableEq, Repr

/-- The field `block->size`. -/
def getSize (m : Mem) (block : Nat) : Nat := load m block 8

/-- The field `block->next` (0 is `NULL`). -/
def getNext (m : Mem) (block : Nat) : Nat := load m (block + 8) 8

/-- The field `block->free`. -/
def getFree (m : Mem) (block : Nat) : Nat := load m (block + 16) 4

/-- The assignment `block->size = v`. -/
def setSize (m : Mem) (block v : Nat) : Mem := store m block 8 v

/-- The assignment `block->next = v`. -/
def setNext (m : Mem) (block v : Nat) : Mem := store m (block + 8) 8 v

/-- The assignment `block->free = v`. -/
def setFree (m : Mem) (block v : Nat) : Mem := store m (block + 16) 4 v

/-- The header found at an address. -/
def header (m : Mem) (block : Nat) : MemoryBlock :=
  { size := getSize m block, next := getNext m block, free := getFree m block }

/-! ## Allocator state and the environment -/

/-- The global `free_list`, the memory, and the program break with the range
`[heap_start, heap_limit]` inside which the environment lets it move. -/
structure State where
  free_list : Nat
  mem : Mem
  brk : Nat
  heap_start : Nat
  heap_limit : Nat

/-- The system call `sbrk(increment)`: `none` is the failure value `(void *) -1`,
after which the break is where it was; otherwise the previous break is returned. -/
def sbrk (s : State) (increment : Int) : Option (Nat × State) :=
  if (s.heap_start : Int) ≤ (s.brk : Int) + increment ∧
      (s.brk : Int) + increment ≤ (s.heap_limit : Int) then
    some (s.brk, { s with brk := ((s.brk : Int) + increment).toNat })
  else none

/-! ## The functions of `heap2.c` -/

/-- The function `merge_free_blocks`. -/
def merge_free_blocks : Nat → Mem → Nat → Option Mem
  | 0, _, _ => none
  | fuel + 1, m, block =>
    if getNext m block ≠ 0 ∧ getFree m (getNext m block) ≠ 0 then
      let m1 := setSize m block
        (uadd (getSize m block) (uadd BLOCK_SIZE (getSize m (getNext m block))))
      let m2 := setNext m1 block (getNext m1 (getNext m1 block))
      merge_free_blocks fuel m2 block
    else some m

/-- The loop of `find_free_block`; the result is `(current, *last)`. -/
def find_free_block_loop : Nat → Mem → Nat → Nat → Nat → Option (Nat × Nat)
  | 0, _, _, _, _ => none
  | fuel + 1, m, last, current, size =>
    if current ≠ 0 ∧ ¬ (getFree m current ≠ 0 ∧ getSize m current ≥ size) then
      find_free_block_loop fuel m current (getNext m current) size
    else some (current, last)

/-- The function `find_free_block`; the result is `(current, *last)`. -/
def find_free_block (fuel : Nat) (m : Mem) (last size : Nat) : Option (Nat × Nat) :=
  find_free_block_loop fuel m last last size

/-- The function `request_space`; a result block of 0 is `NULL`. -/
def request_space (s : State) (last size : Nat) : Nat × State :=
  let block := s.brk
  match sbrk s (toIntptr (uadd size BLOCK_SIZE)) with
  | none => (0, s)
  | some (_, s1) =>
    let m1 := if last ≠ 0 then setNext s1.mem last block else s1.mem
    let m2 := setSize m1 block size
    let m3 := setNext m2 block 0
    let m4 := setFree m3 block 0
    (block, { s1 with mem := m4 })

/-- The five assignments that split a block, written twice in the source with
the same text: in `malloc` (with `alignedSize`) and in `realloc` (with `newSize`).
The new header is placed `size` bytes after the payload start of `block`. -/
def split_block (m : Mem) (block size : Nat) : Mem :=
  let newBlock := block + BLOCK_SIZE + size
  let m1 := setSize m newBlock (usub (usub (getSize m block) size) BLOCK_SIZE)
  let m2 := setFree m1 newBlock 1
  let m3 := setNext m2 newBlock (getNext m2 block)
  let m4 := setSize m3 block size
  setNext m4 block newBlock

/-- The function `malloc`; a result pointer of 0 is `NULL`. -/
def malloc (fuel : Nat) (s : State) (size : Nat) : Option (Nat × State) :=
  if size = 0 then some (0, s)
  else
    let alignedSize := alignUp size
    if s.free_list = 0 then
      let r := request_space s 0 alignedSize
      if r.1 = 0 then some (0, r.2)
      else some (r.1 + BLOCK_SIZE, { r.2 with free_list := r.1 })
    else
      match find_free_block fuel s.mem s.free_list alignedSize with
      | none => none
      | some (block, last) =>
        if block = 0 then
          let r := request_space s last alignedSize
          if r.1 = 0 then some (0, r.2)
          else some (r.1 + BLOCK_SIZE, r.2)
        else
          let m5 :=
            if getSize s.mem block > uadd alignedSize BLOCK_SIZE then
              split_block s.mem block alignedSize
            else s.mem
          some (block + BLOCK_SIZE, { s with mem := setFree m5 block 0 })

/-- The function `free`. -/
def free (fuel : Nat) (s : State) (ptr : Nat) : Option State :=
  if ptr = 0 then some s
  else
    let block := ptr - BLOCK_SIZE
    match merge_free_blocks fuel (setFree s.mem block 1) block with
    | none => none
    | some m => some { s with mem := m }

/-- The function `calloc`. -/
def calloc (fuel : Nat) (s : State) (num size : Nat) : Option (Nat × State) :=
  let totalSize := umul num size
  match malloc fuel s totalSize with
  | none => none
  | some (ptr, s1) =>
    if ptr ≠ 0 then some (ptr, { s1 with mem := memset s1.mem ptr 0 totalSize })
    else some (ptr, s1)

/-- The function `realloc`. -/
def realloc (fuel : Nat) (s : State) (ptr newSize : Nat) : Option (Nat × State) :=
  if ptr = 0 then malloc fuel s newSize
  else
    let block := ptr - BLOCK_SIZE
    if getSize s.mem block ≥ newSize then
      if getSize s.mem block ≥ uadd (uadd newSize BLOCK_SIZE) ALIGNMENT then
        let newBlock := block + BLOCK_SIZE + newSize
        match merge_free_blocks fuel (split_block s.mem block newSize) newBlock with
        | none => none
        | some m6 => some (ptr, { s with mem := m6 })
      else some (ptr, s)
    else
      match malloc fuel s newSize with
      | none => none
      | some (newPtr, s1) =>
        if newPtr ≠ 0 then
          match free fuel { s1 with mem := memcpy s1.mem newPtr ptr (getSize s1.mem block) } ptr with
          | none => none
          | some s2 => some (newPtr, s2)
        else some (newPtr, s1)

/-- The chain of header addresses that `print_memory_map` walks from `a`. -/
def chain : Nat → Mem → Nat → Option (List Nat)
  | 0, _, _ => none
  | fuel + 1, m, a =>
    if a = 0 then some []
    else match chain fuel m (getNext m a) with
      | none => none
      | some l => some (a :: l)

/-! ## Chains of headers -/

/-- `Seg m a l b`: following `next` from `a` visits the headers `l`, in this
order, and arrives at `b`. -/
def Seg (m : Mem) : Nat → List Nat → Nat → Prop
  | a, [], b => a = b
  | a, x :: l, b => a = x ∧ x ≠ 0 ∧ Seg m (getNext m x) l b

instance decSeg (m : Mem) : (a : Nat) → (l : List Nat) → (b : Nat) → Decidable (Seg m a l b)
  | a, [], b => inferInstanceAs (Decidable (a = b))
  | a, x :: l, b =>
    have := decSeg m (getNext m x) l b
    inferInstanceAs (Decidable (a = x ∧ x ≠ 0 ∧ Seg m (getNext m x) l b))

/-- `Chain m a l`: the chain that starts at `a` is finite and consists of the
headers `l`. -/
def Chain (m : Mem) (a : Nat) (l : List Nat) : Prop := Seg m a l 0

instance decChain (m : Mem) (a : Nat) (l : List Nat) : Decidable (Chain m a l) :=
  decSeg m a l 0

/-- `Contig m a l e`: the blocks `l` lie one behind the other from address `a`
to address `e`, each header followed by exactly `size` payload bytes. -/
def Contig (m : Mem) : Nat → List Nat → Nat → Prop
  | a, [], e => a = e
  | a, x :: l, e => a = x ∧ Contig m (x + BLOCK_SIZE + getSize m x) l e

instance decContig (m : Mem) : (a : Nat) → (l : List Nat) → (e : Nat) → Decidable (Contig m a l e)
  | a, [], e => inferInstanceAs (Decidable (a = e))
  | a, x :: l, e =>
    have := decContig m (x + BLOCK_SIZE + getSize m x) l e
    inferInstanceAs (Decidable (a = x ∧ Contig m (x + BLOCK_SIZE + getSize m x) l e))

/-- Headers of a list lie at least one header length apart, in increasing order. -/
def Spaced (l : List Nat) : Prop := l.Pairwise (fun x y => x + BLOCK_SIZE ≤ y)

/-- The block that `find_free_block` looks for: free and at least `size` bytes. -/
def Fits (m : Mem) (size x : Nat) : Prop := getFree m x ≠ 0 ∧ getSize m x ≥ size

instance decFits (m : Mem) (size x : Nat) : Decidable (Fits m size x) := by
  unfold Fits; infer_instance

/-- A well-formed state with chain `l`: the chain from `free_list` is `l`, its
blocks tile the memory from the first header to the break, and the break lies
in the range of the environment, below `2 ^ 64` and above the null address. -/
def WF (s : State) (l : List Nat) : Prop :=
  Chain s.mem s.free_list l ∧ (l ≠ [] → Contig s.mem s.free_list l s.brk) ∧
    0 < s.heap_start ∧ s.heap_start ≤ s.brk ∧ s.brk ≤ s.heap_limit ∧ s.heap_limit < SIZE_T

instance decWF (s : State) (l : List Nat) : Decidable (WF s l) := by
  unfold WF; infer_instance

/-- A live pointer of a state with chain `l`: the payload address of a block
of the chain whose `free` flag is 0. -/
def Live (s : State) (l : List Nat) (p : Nat) : Prop :=
  BLOCK_SIZE ≤ p ∧ (p - BLOCK_SIZE) ∈ l ∧ getFree s.mem (p - BLOCK_SIZE) = 0

instance decLive (s : State) (l : List Nat) (p : Nat) : Decidable (Live s l p) := by
  unfold Live; infer_instance

/-- The pointer `p` designates a live block of the chain: it points one header
length behind a header that is reached from `free_list` and is not free. -/
def Designates (s : State) (p : Nat) : Prop :=
  ∃ b path, p = b + BLOCK_SIZE ∧ b ≠ 0 ∧ Seg s.mem s.free_list path b ∧ getFree s.mem b = 0

/-! ## Reachable states -/

/-- The empty chain on a fresh heap of zero bytes whose break is at `b`. -/
def emptyState (b limit : Nat) : State :=
  { free_list := 0, mem := fun _ => 0, brk := b, heap_start := b, heap_limit := limit }

/-- States reachable from an empty chain by calls of the four public
functions, `free` and `realloc` being called on `NULL` or on live pointers. -/
inductive Reachable : State → Prop
  | empty (b limit : Nat) : 0 < b → b ≤ limit → limit < SIZE_T → Reachable (emptyState b limit)
  | by_malloc {s s1 : State} (fuel size p : Nat) :
      Reachable s → malloc fuel s size = some (p, s1) → Reachable s1
  | by_calloc {s s1 : State} (fuel num size p : Nat) :
      Reachable s → calloc fuel s num size = some (p, s1) → Reachable s1
  | by_realloc {s s1 : State} (fuel : Nat) (l : List Nat) (ptr newSize p : Nat) :
      Reachable s → Chain s.mem s.free_list l → (ptr = 0 ∨ Live s l ptr) →
      realloc fuel s ptr newSize = some (p, s1) → Reachable s1
  | by_free {s s1 : State} (fuel : Nat) (l : List Nat) (ptr : Nat) :
      Reachable s → Chain s.mem s.free_list l → (ptr = 0 ∨ Live s l ptr) →
      free fuel s ptr = some s1 → Reachable s1

/-- States reachable from an empty chain by calls whose byte counts are at
most `2 ^ 63 - 40` (the growth request `alignedSize + 24` then stays below
`2 ^ 63`): `malloc` and `calloc` calls, `free` calls on `NULL` or on live
pointers, `realloc` calls on `NULL` or on live pointers when `resize` is true,
and the client writing bytes into live payloads. -/
inductive ReachableInRange (resize : Bool) : State → Prop
  | empty (b limit : Nat) :
      0 < b → b ≤ limit → limit < SIZE_T → ReachableInRange resize (emptyState b limit)
  | by_malloc {s s1 : State} (fuel size p : Nat) :
      ReachableInRange resize s → size ≤ 2 ^ 63 - 40 → malloc fuel s size = some (p, s1) →
      ReachableInRange resize s1
  | by_calloc {s s1 : State} (fuel num size p : Nat) :
      ReachableInRange resize s → num * size ≤ 2 ^ 63 - 40 →
      calloc fuel s num size = some (p, s1) → ReachableInRange resize s1
  | by_realloc {s s1 : State} (fuel : Nat) (l : List Nat) (ptr newSize p : Nat) :
      resize = true → ReachableInRange resize s → Chain s.mem s.free_list l →
      (ptr = 0 ∨ Live s l ptr) → newSize ≤ 2 ^ 63 - 40 →
      realloc fuel s ptr newSize = some (p, s1) → ReachableInRange resize s1
  | by_free {s s1 : State} (fuel : Nat) (l : List Nat) (ptr : Nat) :
      ReachableInRange resize s → Chain s.mem s.free_list l → (ptr = 0 ∨ Live s l ptr) →
      free fuel s ptr = some s1 → ReachableInRange resize s1
  | by_write {s : State} (l : List Nat) (p i v : Nat) :
      ReachableInRange resize s → Chain s.mem s.free_list l → Live s l p →
      i < getSize s.mem (p - BLOCK_SIZE) →
      ReachableInRange resize { s with mem := store s.mem (p + i) 1 v }

/-! ## The memory written on the paths of the functions -/

/-- One round of the loop of `merge_free_blocks`: the two assignments of its body. -/
def mergeStep (m : Mem) (block : Nat) : Mem :=
  let m1 := setSize m block
    (uadd (getSize m block) (uadd BLOCK_SIZE (getSize m (getNext m block))))
  setNext m1 block (getNext m1 (getNext m1 block))

/-- The memory that `request_space` leaves when `sbrk` grants the request. -/
def growMem (m : Mem) (last block a : Nat) : Mem :=
  setFree (setNext (setSize (if last ≠ 0 then setNext m last block else m) block a) block 0) block 0

/-- The state that `malloc` leaves when the chain `l` has no fit and `sbrk`
grants `a + 24` bytes. -/
def growState (s : State) (l : List Nat) (a : Nat) : State :=
  { free_list := if l = [] then s.brk else s.free_list,
    mem := growMem s.mem (l.getLastD 0) s.brk a,
    brk := s.brk + a + BLOCK_SIZE,
    heap_start := s.heap_start,
    heap_limit := s.heap_limit }

/-- The memory that `malloc` leaves when it takes the free block `b` for the
rounded size `a`. -/
def reuseMem (m : Mem) (b a : Nat) : Mem :=
  setFree (if getSize m b > uadd a BLOCK_SIZE then split_block m b a else m) b 0

/-- The chain after `malloc` took the block `b` of the chain `pre ++ b :: post`. -/
def reuseList (m : Mem) (pre : List Nat) (b : Nat) (post : List Nat) (a : Nat) : List Nat :=
  if getSize m b > uadd a BLOCK_SIZE then pre ++ b :: (b + BLOCK_SIZE + a) :: post
  else pre ++ b :: post

/-! ## Scenarios -/

/-- The state in which a scenario ends. -/
def after (o : Option State) : State := o.getD (emptyState 0 0)

/-- The client stores `n` bytes `P 0`, `P 1`, ... at address `p`. -/
def writeBytes (s : State) (p n : Nat) (P : Nat → Nat) : State :=
  { s with mem := fun x => if p ≤ x ∧ x < p + n then P (x - p) % 256 else s.mem x }

/-- Two blocks of 16 bytes obtained on a fresh heap, the first one released. -/
def twoBlocksFirstFree : Option State :=
  (malloc 1 (emptyState 4096 8192) 16).bind fun r1 =>
  (malloc 2 r1.2 16).bind fun r2 => free 2 r2.2 r1.1

/-- Two blocks of 16 bytes, both released, the first one first. -/
def twoBlocksBothFree : Option State :=
  twoBlocksFirstFree.bind fun s => free 2 s 4160

/-- State after `malloc(100)` and `free` of its result on a fresh heap. -/
def oneFreeBlock : Option State :=
  (malloc 1 (emptyState 4096 8192) 100).bind fun r1 => free 2 r1.2 r1.1

/-- State after `malloc(100)`, `free`, `malloc(50)`. -/
def reusedWithSplit : Option State :=
  oneFreeBlock.bind fun s => (malloc 2 s 50).map fun r => r.2

/-- State after `malloc(320)` on a fresh heap. -/
def oneBlock320 : Option State :=
  (malloc 1 (emptyState 4096 8192) 320).map fun r => r.2

/-- State after `malloc(320)` and `realloc` of the block to 80 bytes. -/
def shrunkTo80 : Option State :=
  oneBlock320.bind fun s => (realloc 2 s 4120 80).map fun r => r.2

/-- State after `malloc(16)` in `twoBlocksFirstFree`. -/
def firstBlockTakenAgain : Option State :=
  (malloc 3 (after twoBlocksFirstFree) 16).map fun r => r.2

/-- State after `calloc(2, 8)` in `twoBlocksFirstFree`. -/
def firstBlockZeroed : Option State :=
  (calloc 3 (after twoBlocksFirstFree) 2 8).map fun r => r.2

/-- State after `realloc(4160, 64)` in `twoBlocksFirstFree`. -/
def secondBlockMoved : Option State :=
  (realloc 3 (after twoBlocksFirstFree) 4160 64).map fun r => r.2

/-- State after `malloc(2 ^ 64 - 16)` on a fresh heap. -/
def hugeBlock : Option State :=
  (malloc 1 (emptyState 4096 8192) (2 ^ 64 - 16)).map fun r => r.2

/-- State after `malloc(2 ^ 64 - 16)` and `malloc(16)` on a fresh heap. -/
def hugeThenSmall : Option State :=
  hugeBlock.bind fun s => (malloc 2 s 16).map fun r => r.2

/-- A block of 16 bytes, released, followed by a live block of 32 bytes. -/
def freeThenLive32 : Option State :=
  (malloc 1 (emptyState 4096 8192) 16).bind fun r1 =>
  (malloc 2 r1.2 32).bind fun r2 => free 2 r2.2 r1.1

/-- A pattern of 32 bytes: byte 16 is 1, bytes 24 and 25 spell the address 4160. -/
def pattern32 (i : Nat) : Nat :=
  if i = 16 then 1 else if i = 24 then 64 else if i = 25 then 16 else 0

/-- The live block of `freeThenLive32`, at 4160, filled with `pattern32`. -/
def patternInLive32 : State := writeBytes (after freeThenLive32) 4160 32 pattern32

/-- State after `realloc(4160, 2 ^ 64 - 1)` in `patternInLive32`. -/
def movedPattern : Option State :=
  (realloc 3 patternInLive32 4160 (2 ^ 64 - 1)).map fun r => r.2

/-- The first call of `main`: `malloc(40 * sizeof(int))`. -/
def mainAfterMalloc : Option State :=
  (malloc 1 (emptyState 4096 8192) 160).map fun r => r.2

/-- The second call of `main`: `calloc(25, sizeof(int))`. -/
def mainAfterCalloc : Option State :=
  (calloc 2 (after mainAfterMalloc) 25 4).map fun r => r.2

/-- The third call of `main`: `realloc(array, 20 * sizeof(int))`. -/
def mainAfterRealloc : Option State :=
  (realloc 3 (after mainAfterCalloc) 4120 80).map fun r => r.2

/-- The fourth call of `main`: `free(array)`. -/
def mainAfterFree : Option State :=
  free 3 (after mainAfterRealloc) 4120

/-- The last call of `main`: `free(array_calloc)`. -/
def mainEnd : Option State :=
  free 3 (after mainAfterFree) 4304

/-- Three live blocks of 16 bytes on a fresh heap, at 4096, 4136 and 4176. -/
def threeBlocks : Option State :=
  (malloc 1 (emptyState 4096 8192) 16).bind fun r1 =>
  (malloc 2 r1.2 16).bind fun r2 => (malloc 3 r2.2 16).map fun r3 => r3.2

/-- The third and then the first of `threeBlocks` released: free, live, free. -/
def freeLiveFree : Option State :=
  threeBlocks.bind fun s => (free 4 s 4200).bind fun s1 => free 4 s1 4120

/-- State after `free(4160)` in `freeLiveFree`. -/
def middleReleased : Option State :=
  free 4 (after freeLiveFree) 4160

/-- The second and then the third of `threeBlocks` released: live, free, free. -/
def liveFreeFree : Option State :=
  threeBlocks.bind fun s => (free 4 s 4160).bind fun s1 => free 4 s1 4200

/-- State after `free(4120)` in `liveFreeFree`. -/
def firstReleased : Option State :=
  free 4 (after liveFreeFree) 4120

/-- State after `malloc(48)` on a fresh heap. -/
def oneBlock48 : Option State :=
  (malloc 1 (emptyState 4096 8192) 48).map fun r => r.2

/-- State after `malloc(48)` and `realloc` of the block to 8 bytes. -/
def shrunk48To8 : Option State :=
  (realloc 2 (after oneBlock48) 4120 8).map fun r => r.2

/-- State after `malloc(16)` on a fresh heap. -/
def oneBlock16 : Option State :=
  (malloc 1 (emptyState 4096 8192) 16).map fun r => r.2

/-- State after `malloc(16)` and `malloc(2 ^ 64 - 32)` on a fresh heap. -/
def breakLowered : Option State :=
  (malloc 2 (after oneBlock16) (2 ^ 64 - 32)).map fun r => r.2

/-- State after `calloc(1, 2 ^ 64 - 1)` in `twoBlocksFirstFree`. -/
def zeroedPastBlock : Option State :=
  (calloc 3 (after twoBlocksFirstFree) 1 (2 ^ 64 - 1)).map fun r => r.2

/-- State after `malloc(2 ^ 64 - 1)` in `twoBlocksFirstFree`. -/
def tookFirstForHuge : Option State :=
  (malloc 3 (after twoBlocksFirstFree) (2 ^ 64 - 1)).map fun r => r.2

/-- State after `malloc(48)` and `realloc` of the block to 0 bytes. -/
def shrunk48To0 : Option State :=
  (realloc 2 (after oneBlock48) 4120 0).map fun r => r.2

/-- State after `malloc(48)` and `realloc` of the block to 1 byte. -/
def shrunk48To1 : Option State :=
  (realloc 2 (after oneBlock48) 4120 1).map fun r => r.2

/-- State after `malloc(2 ^ 64 - 16)` and `free` of its result on a fresh heap. -/
def hugeFreed : Option State :=
  free 2 (after hugeBlock) 4120

theorem land_mask (x : Nat) (h : x < 2 ^ 64) : x &&& (2 ^ 64 - 1 - 15) = x / 16 * 16 := by
  apply Nat.eq_of_testBit_eq
  intro i
  have hM : (2 ^ 64 - 1 - 15 : Nat) = 2 ^ 4 * (2 ^ 60 - 1) := by norm_num
  have hR : x / 16 * 16 = 2 ^ 4 * (x >>> 4) := by
    rw [Nat.shiftRight_eq_div_pow]; norm_num [Nat.mul_comm]
  rw [Nat.testBit_land, hM, hR, Nat.testBit_mul_pow_two, Nat.testBit_mul_pow_two,
    Nat.testBit_two_pow_sub_one, Nat.testBit_shiftRight]
  by_cases h4 : 4 ≤ i
  · have e : 4 + (i - 4) = i := by omega
    rw [e]
    by_cases h64 : i < 64
    · have : i - 4 < 60 := by omega
      simp [h4, this]
    · have hx : x.testBit i = false := by
        apply Nat.testBit_lt_two_pow
        calc x < 2 ^ 64 := h
          _ ≤ 2 ^ i := Nat.pow_le_pow_right (by norm_num) (by omega)
      simp [hx]
  · simp [h4]

/-- The round-up of `malloc` is division and multiplication by 16 of the
wrapped sum. -/
theorem alignUp_eq (n : Nat) : alignUp n = (n + 15) % 2 ^ 64 / 16 * 16 := by
  unfold alignUp uadd SIZE_T ALIGNMENT
  exact land_mask _ (Nat.mod_lt _ (by norm_num))

theorem alignUp_lt (n : Nat) : alignUp n < 2 ^ 64 := by
  rw [alignUp_eq]
  have : (n + 15) % 2 ^ 64 < 2 ^ 64 := Nat.mod_lt _ (by norm_num)
  omega

theorem alignUp_mod (n : Nat) : alignUp n % 16 = 0 := by
  rw [alignUp_eq]; omega

/-- Without wrap-around the round-up is the least multiple of 16 that is at
least `n`. -/
theorem alignUp_spec (n : Nat) (h : n ≤ 2 ^ 64 - 16) :
    n ≤ alignUp n ∧ alignUp n < n + 16 ∧ alignUp n % 16 = 0 ∧ alignUp n ≤ 2 ^ 64 - 16 := by
  rw [alignUp_eq]
  have e : (n + 15) % 2 ^ 64 = n + 15 := Nat.mod_eq_of_lt (by omega)
  rw [e]
  omega

theorem alignUp_small (n : Nat) (h : n ≤ 2 ^ 63 - 40) :
    alignUp n + BLOCK_SIZE < 2 ^ 63 ∧ n ≤ alignUp n ∧ alignUp n % 16 = 0 := by
  obtain ⟨a1, a2, a3, _⟩ := alignUp_spec n (by omega)
  unfold BLOCK_SIZE
  omega

theorem usub_eq (a b : Nat) (ha : a < 2 ^ 64) (hb : b ≤ a) : usub a b = a - b := by
  unfold usub SIZE_T
  rw [Nat.mod_eq_of_lt ha, Nat.mod_eq_of_lt (by omega : b < 2 ^ 64)]
  have : a + (2 ^ 64 - b) = (a - b) + 2 ^ 64 := by omega
  rw [this, Nat.add_mod_right, Nat.mod_eq_of_lt (by omega)]

theorem uadd_eq (a b : Nat) (h : a + b < 2 ^ 64) : uadd a b = a + b := by
  unfold uadd SIZE_T
  exact Nat.mod_eq_of_lt h

/-! ## Bytes -/

theorem load_lt (m : Mem) (a k : Nat) : load m a k < 256 ^ k := by
  induction k generalizing a with
  | zero => simp [load]
  | succ k ih =>
    have := ih (a + 1)
    have hb : m a % 256 < 256 := Nat.mod_lt _ (by norm_num)
    simp only [load, pow_succ]
    omega

theorem load_congr {m m1 : Mem} {a k : Nat} (h : ∀ i, i < k → m1 (a + i) = m (a + i)) :
    load m1 a k = load m a k := by
  induction k generalizing a with
  | zero => rfl
  | succ k ih =>
    have h0 := h 0 (by omega)
    simp only [Nat.add_zero] at h0
    have := ih (a := a + 1)
      (fun i hi => by have := h (i + 1) (by omega); rwa [Nat.add_assoc, Nat.add_comm 1 i])
    simp only [load, h0, this]

theorem store_outside (m : Mem) (a k v x : Nat) (h : x < a ∨ a + k ≤ x) :
    store m a k v x = m x := by
  unfold store
  rw [if_neg]; omega

theorem load_store_disj (m : Mem) (a k v b j : Nat) (h : b + j ≤ a ∨ a + k ≤ b) :
    load (store m a k v) b j = load m b j :=
  load_congr (fun i _ => store_outside m a k v (b + i) (by omega))

theorem load_store_same (m : Mem) (a k v : Nat) :
    load (store m a k v) a k = v % 256 ^ k := by
  induction k generalizing a v m with
  | zero => simp [load, Nat.mod_one]
  | succ k ih =>
    have h1 : load (store m a (k + 1) v) (a + 1) k
        = load (store m (a + 1) k (v / 256)) (a + 1) k := by
      apply load_congr
      intro i hi
      unfold store
      rw [if_pos (by omega), if_pos (by omega)]
      have e1 : a + 1 + i - a = i + 1 := by omega
      have e2 : a + 1 + i - (a + 1) = i := by omega
      rw [e1, e2, pow_succ, Nat.mul_comm, Nat.div_div_eq_div_mul]
    have h0 : store m a (k + 1) v a = v % 256 := by
      unfold store
      rw [if_pos (by omega)]; simp
    show store m a (k + 1) v a % 256 + 256 * load (store m a (k + 1) v) (a + 1) k = _
    rw [h1, ih, h0, Nat.mod_mod, pow_succ, Nat.mul_comm (256 ^ k) 256, Nat.mod_mul]

/-! ## Failure of `malloc` -/

theorem request_space_null (s : State) (last a : Nat) (hb : s.brk ≠ 0)
    (h : (request_space s last a).1 = 0) : (request_space s last a).2 = s := by
  revert h
  unfold request_space
  cases sbrk s (toIntptr (uadd a BLOCK_SIZE)) with
  | none => intro _; rfl
  | some r => intro h0; exact absurd h0 hb

theorem malloc_null_unchanged (fuel : Nat) (s : State) (n : Nat) (s1 : State)
    (hb : s.brk ≠ 0) (h : malloc fuel s n = some (0, s1)) : s1 = s := by
  unfold malloc at h
  split at h
  · injection h with h; injection h with _ h; exact h.symm
  · simp only at h
    split at h
    · split at h
      · rename_i h0
        injection h with h; injection h with _ h; rw [← h]
        exact request_space_null _ _ _ hb h0
      · injection h with h; injection h with h _; simp [BLOCK_SIZE] at h
    · split at h
      · exact absurd h (by simp)
      · split at h
        · split at h
          · rename_i h0
            injection h with h; injection h with _ h; rw [← h]
            exact request_space_null _ _ _ hb h0
          · injection h with h; injection h with h _; simp [BLOCK_SIZE] at h
        · injection h with h; injection h with h _; simp [BLOCK_SIZE] at h

/-! ## Header fields -/

section Lemmas

attribute [local irreducible] load

theorem getSize_lt (m : Mem) (b : Nat) : getSize m b < 2 ^ 64 := load_lt m b 8

theorem getNext_lt (m : Mem) (b : Nat) : getNext m b < 2 ^ 64 := load_lt m (b + 8) 8

theorem getFree_lt (m : Mem) (b : Nat) : getFree m b < 2 ^ 32 := load_lt m (b + 16) 4

theorem getSize_store (m : Mem) (a k v b : Nat) (h : b + 8 ≤ a ∨ a + k ≤ b) :
    getSize (store m a k v) b = getSize m b := load_store_disj m a k v b 8 h

theorem getNext_store (m : Mem) (a k v b : Nat) (h : b + 16 ≤ a ∨ a + k ≤ b + 8) :
    getNext (store m a k v) b = getNext m b := load_store_disj m a k v (b + 8) 8 (by omega)

theorem getFree_store (m : Mem) (a k v b : Nat) (h : b + 20 ≤ a ∨ a + k ≤ b + 16) :
    getFree (store m a k v) b = getFree m b := load_store_disj m a k v (b + 16) 4 (by omega)

theorem getSize_setSize (m : Mem) (b v : Nat) : getSize (setSize m b v) b = v % 2 ^ 64 :=
  load_store_same m b 8 v

theorem getNext_setNext (m : Mem) (b v : Nat) : getNext (setNext m b v) b = v % 2 ^ 64 :=
  load_store_same m (b + 8) 8 v

theorem getFree_setFree (m : Mem) (b v : Nat) : getFree (setFree m b v) b = v % 2 ^ 32 :=
  load_store_same m (b + 16) 4 v

theorem getSize_store_same (m : Mem) (b v : Nat) : getSize (store m b 8 v) b = v % 2 ^ 64 :=
  load_store_same m b 8 v

theorem getNext_store_same (m : Mem) (b v : Nat) : getNext (store m (b + 8) 8 v) b = v % 2 ^ 64 :=
  load_store_same m (b + 8) 8 v

theorem getFree_store_same (m : Mem) (b v : Nat) : getFree (store m (b + 16) 4 v) b = v % 2 ^ 32 :=
  load_store_same m (b + 16) 4 v

/-- Two memories that agree on the 24 bytes of a header give the same fields. -/
theorem header_agree {m m1 : Mem} {b : Nat} (h : ∀ x, b ≤ x → x < b + 24 → m1 x = m x) :
    getSize m1 b = getSize m b ∧ getNext m1 b = getNext m b ∧ getFree m1 b = getFree m b :=
  ⟨load_congr (fun i hi => h _ (by omega) (by omega)),
   load_congr (fun i hi => h _ (by omega) (by omega)),
   load_congr (fun i hi => h _ (by omega) (by omega))⟩

/-! ## Segments and chains -/

theorem Seg_congr {m m1 : Mem} {l : List Nat} {a b : Nat}
    (h : ∀ x ∈ l, getNext m1 x = getNext m x) (hs : Seg m a l b) : Seg m1 a l b := by
  induction l generalizing a with
  | nil => exact hs
  | cons x l ih =>
    obtain ⟨h1, h2, h3⟩ := hs
    refine ⟨h1, h2, ?_⟩
    rw [h x (List.mem_cons_self _ _)]
    exact ih (fun y hy => h y (List.mem_cons_of_mem _ hy)) h3

theorem Seg_agree {m m1 : Mem} {l : List Nat} {a b : Nat}
    (h : ∀ x ∈ l, ∀ y, x ≤ y → y < x + 24 → m1 y = m y) (hs : Seg m a l b) : Seg m1 a l b :=
  Seg_congr (fun x hx => (header_agree (h x hx)).2.1) hs

theorem Seg_append {m : Mem} {l1 l2 : List Nat} {a c : Nat} :
    Seg m a (l1 ++ l2) c ↔ ∃ b, Seg m a l1 b ∧ Seg m b l2 c := by
  induction l1 generalizing a with
  | nil =>
    constructor
    · intro h; exact ⟨a, rfl, h⟩
    · rintro ⟨b, h1, h2⟩; cases h1; exact h2
  | cons x l ih =>
    constructor
    · rintro ⟨h1, h2, h3⟩
      obtain ⟨b, h4, h5⟩ := ih.mp h3
      exact ⟨b, ⟨h1, h2, h4⟩, h5⟩
    · rintro ⟨b, ⟨h1, h2, h4⟩, h5⟩
      exact ⟨h1, h2, ih.mpr ⟨b, h4, h5⟩⟩

theorem Seg_ne_zero {m : Mem} {l : List Nat} {a b : Nat} (hs : Seg m a l b) :
    ∀ x ∈ l, x ≠ 0 := by
  induction l generalizing a with
  | nil => intro x hx; cases hx
  | cons y l ih =>
    obtain ⟨_, h2, h3⟩ := hs
    intro x hx
    rcases List.mem_cons.mp hx with rfl | hx
    · exact h2
    · exact ih h3 x hx

theorem Chain_head_ne_zero {m : Mem} {h x : Nat} {l : List Nat} (hc : Chain m h (x :: l)) :
    h ≠ 0 := by
  obtain ⟨h1, h2, _⟩ := hc
  rw [h1]; exact h2

theorem Chain_unique {m : Mem} {l l1 : List Nat} {a : Nat} (h : Chain m a l)
    (h1 : Chain m a l1) : l = l1 := by
  induction l generalizing a l1 with
  | nil =>
    cases l1 with
    | nil => rfl
    | cons y t =>
      have e : a = 0 := h
      exact absurd e (Chain_head_ne_zero h1)
  | cons x t ih =>
    cases l1 with
    | nil =>
      have e : a = 0 := h1
      exact absurd e (Chain_head_ne_zero h)
    | cons y t1 =>
      obtain ⟨e1, _, k1⟩ := h
      obtain ⟨e2, _, k2⟩ := h1
      have exy : x = y := e1.symm.trans e2
      subst exy
      rw [ih k1 k2]

theorem Contig_congr {m m1 : Mem} {l : List Nat} {a e : Nat}
    (h : ∀ x ∈ l, getSize m1 x = getSize m x) (hc : Contig m a l e) : Contig m1 a l e := by
  induction l generalizing a with
  | nil => exact hc
  | cons x l ih =>
    obtain ⟨h1, h2⟩ := hc
    refine ⟨h1, ?_⟩
    rw [h x (List.mem_cons_self _ _)]
    exact ih (fun y hy => h y (List.mem_cons_of_mem _ hy)) h2

theorem Contig_append {m : Mem} {l1 l2 : List Nat} {a e : Nat} :
    Contig m a (l1 ++ l2) e ↔ ∃ b, Contig m a l1 b ∧ Contig m b l2 e := by
  induction l1 generalizing a with
  | nil =>
    constructor
    · intro h; exact ⟨a, rfl, h⟩
    · rintro ⟨b, h1, h2⟩; cases h1; exact h2
  | cons x l ih =>
    constructor
    · rintro ⟨h1, h3⟩
      obtain ⟨b, h4, h5⟩ := ih.mp h3
      exact ⟨b, ⟨h1, h4⟩, h5⟩
    · rintro ⟨b, ⟨h1, h4⟩, h5⟩
      exact ⟨h1, ih.mpr ⟨b, h4, h5⟩⟩

/-- In a contiguous layout every block lies between the start and the end. -/
theorem Contig_bounds {m : Mem} {l : List Nat} {a e : Nat} (hc : Contig m a l e) :
    a ≤ e ∧ ∀ x ∈ l, a ≤ x ∧ x + BLOCK_SIZE + getSize m x ≤ e := by
  induction l generalizing a with
  | nil => exact ⟨le_of_eq hc, fun x hx => by cases hx⟩
  | cons y l ih =>
    obtain ⟨h1, h2⟩ := hc
    obtain ⟨h3, h4⟩ := ih h2
    subst h1
    refine ⟨by omega, ?_⟩
    intro x hx
    rcases List.mem_cons.mp hx with rfl | hx
    · exact ⟨le_refl _, h3⟩
    · have := h4 x hx
      omega

theorem Contig_split {m : Mem} {pre post : List Nat} {a b e : Nat}
    (hc : Contig m a (pre ++ b :: post) e) :
    Contig m a pre b ∧ Contig m (b + BLOCK_SIZE + getSize m b) post e := by
  obtain ⟨c, h1, h2, h3⟩ := Contig_append.mp hc
  subst h2
  exact ⟨h1, h3⟩

/-- Facts about the block `b` of a contiguous layout that ends below `2 ^ 64`. -/
theorem Contig_block_bounds {m : Mem} {pre post : List Nat} {h b e : Nat}
    (hc : Contig m h (pre ++ b :: post) e) :
    b + BLOCK_SIZE + getSize m b ≤ e ∧ (∀ x ∈ pre, x + BLOCK_SIZE + getSize m x ≤ b) ∧
    (∀ y ∈ post, b + BLOCK_SIZE + getSize m b ≤ y) := by
  obtain ⟨h1, h2⟩ := Contig_split hc
  exact ⟨(Contig_bounds h2).1, fun x hx => ((Contig_bounds h1).2 x hx).2,
    fun y hy => ((Contig_bounds h2).2 y hy).1⟩

theorem Contig_spaced {m : Mem} {l : List Nat} {a e : Nat} (hc : Contig m a l e) : Spaced l := by
  induction l generalizing a with
  | nil => exact List.Pairwise.nil
  | cons x l ih =>
    obtain ⟨h1, h2⟩ := hc
    refine List.Pairwise.cons ?_ (ih h2)
    intro y hy
    have := (Contig_bounds h2).2 y hy
    omega

theorem Spaced_split {pre post : List Nat} {b : Nat} (h : Spaced (pre ++ b :: post)) :
    (∀ x ∈ pre, x + BLOCK_SIZE ≤ b) ∧ (∀ y ∈ post, b + BLOCK_SIZE ≤ y) ∧
    (∀ x ∈ pre, ∀ y ∈ post, x + BLOCK_SIZE ≤ y) := by
  obtain ⟨_, h2, h3⟩ := List.pairwise_append.mp h
  obtain ⟨h4, _⟩ := List.pairwise_cons.mp h2
  exact ⟨fun x hx => h3 x hx b (List.mem_cons_self _ _), h4,
    fun x hx y hy => h3 x hx y (List.mem_cons_of_mem _ hy)⟩

/-- Memories that agree below the end of the header of `b` have the same
paths to `b` through lower headers, and the same `free` flag of `b`. -/
theorem path_agree {m m1 : Mem} {l : List Nat} {a b : Nat}
    (h : ∀ y, y < b + 24 → m1 y = m y) (hl : ∀ x ∈ l, x + BLOCK_SIZE ≤ b)
    (hs : Seg m a l b) : Seg m1 a l b ∧ getFree m1 b = getFree m b := by
  constructor
  · refine Seg_agree ?_ hs
    intro x hx y _ hy
    have := hl x hx
    unfold BLOCK_SIZE at this
    exact h y (by omega)
  · exact (header_agree (fun y _ hy => h y hy)).2.2

theorem first_fit_cases (P : Nat → Prop) [DecidablePred P] (l : List Nat) :
    (∀ x ∈ l, ¬ P x) ∨ ∃ pre b post, l = pre ++ b :: post ∧ (∀ x ∈ pre, ¬ P x) ∧ P b := by
  induction l with
  | nil => exact Or.inl (fun x hx => by cases hx)
  | cons y l ih =>
    by_cases hy : P y
    · exact Or.inr ⟨[], y, l, rfl, (fun x hx => by cases hx), hy⟩
    · rcases ih with h | ⟨pre, b, post, h1, h2, h3⟩
      · left
        intro x hx
        rcases List.mem_cons.mp hx with rfl | hx
        · exact hy
        · exact h x hx
      · right
        refine ⟨y :: pre, b, post, by rw [h1]; rfl, ?_, h3⟩
        intro x hx
        rcases List.mem_cons.mp hx with rfl | hx
        · exact hy
        · exact h2 x hx

/-! ## Fuel -/

theorem find_free_block_loop_mono (m : Mem) (size : Nat) :
    ∀ (fuel fuel1 last cur : Nat) (r : Nat × Nat), fuel ≤ fuel1 →
      find_free_block_loop fuel m last cur size = some r →
      find_free_block_loop fuel1 m last cur size = some r := by
  intro fuel
  induction fuel with
  | zero => intro fuel1 last cur r _ h; simp [find_free_block_loop] at h
  | succ f ih =>
    intro fuel1 last cur r hle h
    obtain ⟨f1, rfl⟩ : ∃ f1, fuel1 = f1 + 1 := ⟨fuel1 - 1, by omega⟩
    unfold find_free_block_loop at h ⊢
    split
    · rename_i hc
      rw [if_pos hc] at h
      exact ih f1 _ _ r (by omega) h
    · rename_i hc
      rw [if_neg hc] at h
      exact h

theorem merge_free_blocks_mono :
    ∀ (fuel fuel1 : Nat) (m : Mem) (b : Nat) (r : Mem), fuel ≤ fuel1 →
      merge_free_blocks fuel m b = some r → merge_free_blocks fuel1 m b = some r := by
  intro fuel
  induction fuel with
  | zero => intro fuel1 m b r _ h; simp [merge_free_blocks] at h
  | succ f ih =>
    intro fuel1 m b r hle h
    obtain ⟨f1, rfl⟩ : ∃ f1, fuel1 = f1 + 1 := ⟨fuel1 - 1, by omega⟩
    by_cases hc : getNext m b ≠ 0 ∧ getFree m (getNext m b) ≠ 0
    · rw [merge_free_blocks, if_pos hc] at h ⊢
      exact ih f1 _ _ r (by omega) h
    · rw [merge_free_blocks, if_neg hc] at h ⊢
      exact h

theorem malloc_mono (fuel fuel1 : Nat) (s : State) (n : Nat) (r : Nat × State)
    (hle : fuel ≤ fuel1) (h : malloc fuel s n = some r) : malloc fuel1 s n = some r := by
  by_cases h0 : n = 0
  · rw [malloc, if_pos h0] at h ⊢; exact h
  · by_cases h1 : s.free_list = 0
    · rw [malloc, if_neg h0] at h ⊢
      simp only [if_pos h1] at h ⊢; exact h
    · rw [malloc, if_neg h0] at h ⊢
      simp only [if_neg h1] at h ⊢
      cases hf : find_free_block fuel s.mem s.free_list (alignUp n) with
      | none => rw [hf] at h; simp at h
      | some q =>
        have := find_free_block_loop_mono s.mem (alignUp n) fuel fuel1 _ _ q hle hf
        unfold find_free_block
        rw [this]
        rw [hf] at h
        exact h

theorem free_mono (fuel fuel1 : Nat) (s : State) (p : Nat) (r : State)
    (hle : fuel ≤ fuel1) (h : free fuel s p = some r) : free fuel1 s p = some r := by
  unfold free at h ⊢
  split
  · rename_i h0; rw [if_pos h0] at h; exact h
  · rename_i h0; rw [if_neg h0] at h
    simp only at h ⊢
    cases hm : merge_free_blocks fuel (setFree s.mem (p - BLOCK_SIZE) 1) (p - BLOCK_SIZE) with
    | none => rw [hm] at h; simp at h
    | some q =>
      rw [merge_free_blocks_mono fuel fuel1 _ _ q hle hm]
      rw [hm] at h
      exact h

/-! ## The search of `find_free_block` -/

/-- With fuel for the blocks before it, the loop stops at the first block `b`
that is null or free and large enough, and `*last` is the block before it. -/
theorem find_free_block_loop_stops (m : Mem) (size : Nat) :
    ∀ (pre : List Nat) (cur last fuel b : Nat), Seg m cur pre b →
      (∀ x ∈ pre, ¬ (getFree m x ≠ 0 ∧ getSize m x ≥ size)) →
      (b = 0 ∨ (getFree m b ≠ 0 ∧ getSize m b ≥ size)) → pre.length < fuel →
      find_free_block_loop fuel m last cur size = some (b, pre.getLastD last) := by
  intro pre
  induction pre with
  | nil =>
    intro cur last fuel b hs _ hb hf
    cases hs
    obtain ⟨f, rfl⟩ : ∃ f, fuel = f + 1 := ⟨fuel - 1, by simp at hf; omega⟩
    unfold find_free_block_loop
    rw [if_neg]
    · rfl
    · rintro ⟨h1, h2⟩
      rcases hb with hb | hb
      · exact h1 hb
      · exact h2 hb
  | cons x pre ih =>
    intro cur last fuel b hs hpre hb hf
    obtain ⟨h1, h2, h3⟩ := hs
    subst h1
    obtain ⟨f, rfl⟩ : ∃ f, fuel = f + 1 := ⟨fuel - 1, by simp at hf; omega⟩
    unfold find_free_block_loop
    rw [if_pos ⟨h2, hpre cur (List.mem_cons_self _ _)⟩]
    rw [ih (getNext m cur) cur f b h3 (fun y hy => hpre y (List.mem_cons_of_mem _ hy)) hb
      (by simp at hf; omega)]
    cases pre with
    | nil => rfl
    | cons y l => rfl

/-! ## Splitting a block -/

/-- The fields of the two headers after a split that fits into the block. -/
theorem split_block_fields (m : Mem) (b a : Nat) (hfit : a + BLOCK_SIZE ≤ getSize m b)
    (hb : b + BLOCK_SIZE + a < 2 ^ 64) :
    getSize (split_block m b a) b = a ∧
    getNext (split_block m b a) b = b + BLOCK_SIZE + a ∧
    getFree (split_block m b a) b = getFree m b ∧
    getSize (split_block m b a) (b + BLOCK_SIZE + a) = getSize m b - a - BLOCK_SIZE ∧
    getNext (split_block m b a) (b + BLOCK_SIZE + a) = getNext m b ∧
    getFree (split_block m b a) (b + BLOCK_SIZE + a) = 1 := by
  have hs := getSize_lt m b
  have hn := getNext_lt m b
  unfold BLOCK_SIZE at *
  have e1 : usub (usub (getSize m b) a) 24 = getSize m b - a - 24 := by
    rw [usub_eq _ _ hs (by omega), usub_eq _ _ (by omega) (by omega)]
  simp (disch := omega) only [split_block, BLOCK_SIZE, setSize, setNext, setFree, getSize_store_same,
    getNext_store_same, getFree_store_same, getSize_store, getNext_store, getFree_store, e1]
  refine ⟨?_, ?_, trivial, ?_, ?_, ?_⟩
  all_goals (apply Nat.mod_eq_of_lt; omega)

/-- A split writes the first 16 bytes of the block header and the first 20
bytes of the new header, and nothing else. -/
theorem split_block_frame (m : Mem) (b a x : Nat)
    (h1 : x < b ∨ b + 16 ≤ x) (h2 : x < b + BLOCK_SIZE + a ∨ b + BLOCK_SIZE + a + 20 ≤ x) :
    split_block m b a x = m x := by
  unfold BLOCK_SIZE at *
  simp (disch := omega) only [split_block, BLOCK_SIZE, setSize, setNext, setFree, store_outside]

/-- A split of the block `B` of a contiguous chain at `a` bytes, with room for
the new header, puts the new header behind `B` in the chain and keeps the
chain contiguous. -/
theorem split_wf (m : Mem) (head : Nat) (pre : List Nat) (B : Nat) (post : List Nat)
    (a e : Nat) (hch : Chain m head (pre ++ B :: post))
    (hco : Contig m head (pre ++ B :: post) e) (he : e < 2 ^ 64)
    (hfit : a + BLOCK_SIZE ≤ getSize m B) :
    Chain (split_block m B a) head (pre ++ B :: (B + BLOCK_SIZE + a) :: post) ∧
    Contig (split_block m B a) head (pre ++ B :: (B + BLOCK_SIZE + a) :: post) e ∧
    (∀ x ∈ pre ++ post, getSize (split_block m B a) x = getSize m x ∧
      getNext (split_block m B a) x = getNext m x ∧
      getFree (split_block m B a) x = getFree m x) := by
  obtain ⟨hbb, hpre, hpost⟩ := Contig_block_bounds hco
  obtain ⟨hco1, hco2⟩ := Contig_split hco
  obtain ⟨c, hs1, hcb, hb0, hs2⟩ := Seg_append.mp hch
  subst hcb
  obtain ⟨f1, f2, _, f4, f5, _⟩ := split_block_fields m c a hfit
    (by unfold BLOCK_SIZE at *; omega)
  have hoth : ∀ x ∈ pre ++ post, getSize (split_block m c a) x = getSize m x ∧
      getNext (split_block m c a) x = getNext m x ∧
      getFree (split_block m c a) x = getFree m x := by
    intro x hx
    apply header_agree
    intro y hy1 hy2
    apply split_block_frame
    · rcases List.mem_append.mp hx with h1 | h1
      · have := hpre x h1; unfold BLOCK_SIZE at *; omega
      · have := hpost x h1; unfold BLOCK_SIZE at *; omega
    · rcases List.mem_append.mp hx with h1 | h1
      · have := hpre x h1; unfold BLOCK_SIZE at *; omega
      · have := hpost x h1; unfold BLOCK_SIZE at *; omega
  refine ⟨?_, ?_, hoth⟩
  · refine Seg_append.mpr ⟨c, ?_, rfl, hb0, ?_⟩
    · exact Seg_congr (fun x hx => (hoth x (List.mem_append_left _ hx)).2.1) hs1
    · rw [f2]
      refine ⟨rfl, by unfold BLOCK_SIZE; omega, ?_⟩
      rw [f5]
      exact Seg_congr (fun x hx => (hoth x (List.mem_append_right _ hx)).2.1) hs2
  · refine Contig_append.mpr ⟨c, ?_, rfl, ?_⟩
    · exact Contig_congr (fun x hx => (hoth x (List.mem_append_left _ hx)).1) hco1
    · rw [f1]
      refine ⟨rfl, ?_⟩
      rw [f4]
      have e1 : c + BLOCK_SIZE + a + BLOCK_SIZE + (getSize m c - a - BLOCK_SIZE)
          = c + BLOCK_SIZE + getSize m c := by omega
      rw [e1]
      exact Contig_congr (fun x hx => (hoth x (List.mem_append_right _ hx)).1) hco2

/-! ## The loop of `merge_free_blocks` -/

/-- When the loop returns, the successor of the block is null or not free. -/
theorem merge_free_blocks_post :
    ∀ (fuel : Nat) (m : Mem) (b : Nat) (r : Mem), merge_free_blocks fuel m b = some r →
      getNext r b = 0 ∨ getFree r (getNext r b) = 0 := by
  intro fuel
  induction fuel with
  | zero => intro m b r h; simp [merge_free_blocks] at h
  | succ f ih =>
    intro m b r h
    by_cases hc : getNext m b ≠ 0 ∧ getFree m (getNext m b) ≠ 0
    · rw [merge_free_blocks, if_pos hc] at h
      exact ih _ _ r h
    · rw [merge_free_blocks, if_neg hc] at h
      injection h with h
      subst h
      by_cases h0 : getNext m b = 0
      · exact Or.inl h0
      · right
        by_contra h1
        exact hc ⟨h0, h1⟩

/-- The loop writes the `size` and `next` fields of the block and nothing else. -/
theorem merge_free_blocks_frame :
    ∀ (fuel : Nat) (m : Mem) (b : Nat) (r : Mem), merge_free_blocks fuel m b = some r →
      ∀ x, x < b ∨ b + 16 ≤ x → r x = m x := by
  intro fuel
  induction fuel with
  | zero => intro m b r h; simp [merge_free_blocks] at h
  | succ f ih =>
    intro m b r h x hx
    by_cases hc : getNext m b ≠ 0 ∧ getFree m (getNext m b) ≠ 0
    · rw [merge_free_blocks, if_pos hc] at h
      rw [ih _ _ r h x hx]
      simp (disch := omega) only [setSize, setNext, store_outside]
    · rw [merge_free_blocks, if_neg hc] at h
      injection h with h
      subst h
      rfl

theorem merge_free_blocks_free (fuel : Nat) (m : Mem) (b : Nat) (r : Mem)
    (h : merge_free_blocks fuel m b = some r) : getFree r b = getFree m b :=
  load_congr (fun i _ => merge_free_blocks_frame fuel m b r h (b + 16 + i) (by omega))

theorem merge_free_blocks_succ (fuel : Nat) (m : Mem) (B : Nat) :
    merge_free_blocks (fuel + 1) m B =
      if getNext m B ≠ 0 ∧ getFree m (getNext m B) ≠ 0 then
        merge_free_blocks fuel (mergeStep m B) B
      else some m := by
  rw [merge_free_blocks]
  rfl

/-- One round of the loop at the block `B` of a contiguous chain removes the
successor `n` of `B` from the chain and adds `24 + size n` to the size of `B`. -/
theorem mergeStep_wf (m : Mem) (head : Nat) (pre : List Nat) (B n : Nat) (rest : List Nat)
    (e : Nat) (hch : Chain m head (pre ++ B :: n :: rest))
    (hco : Contig m head (pre ++ B :: n :: rest) e) (he : e < 2 ^ 64) :
    getNext m B = n ∧ Chain (mergeStep m B) head (pre ++ B :: rest) ∧
    Contig (mergeStep m B) head (pre ++ B :: rest) e ∧
    getSize (mergeStep m B) B = getSize m B + BLOCK_SIZE + getSize m n ∧
    (∀ y, y < B ∨ B + 16 ≤ y → mergeStep m B y = m y) ∧
    (∀ x ∈ rest, B + BLOCK_SIZE ≤ x) := by
  obtain ⟨c, k1, k2, k3, k4⟩ := Seg_append.mp hch
  subst k2
  obtain ⟨en, hn0, hrest⟩ := k4
  obtain ⟨hco1, hco2⟩ := Contig_split hco
  obtain ⟨hcn, hco3⟩ := hco2
  obtain ⟨hbb, hpre, hpost⟩ := Contig_block_bounds hco
  have hne := (Contig_bounds hco3).1
  have hrest_ge := (Contig_bounds hco3).2
  have hsn := getSize_lt m n
  have hnn := getNext_lt m n
  unfold BLOCK_SIZE at hcn hbb hpre hpost hne hrest_ge
  have hsum : uadd (getSize m c) (uadd BLOCK_SIZE (getSize m (getNext m c)))
      = getSize m c + 24 + getSize m n := by
    rw [en]
    unfold BLOCK_SIZE
    rw [uadd_eq 24 _ (by omega), uadd_eq _ _ (by omega)]
    omega
  have e1 : getNext (setSize m c (getSize m c + 24 + getSize m n)) c = n := by
    rw [← en]
    simp (disch := omega) only [setSize, getNext_store]
  have e2 : getNext (setSize m c (getSize m c + 24 + getSize m n)) n = getNext m n := by
    simp (disch := omega) only [setSize, getNext_store]
  have hm2 : mergeStep m c
      = setNext (setSize m c (getSize m c + 24 + getSize m n)) c (getNext m n) := by
    simp only [mergeStep, hsum, e1, e2]
  have hfr : ∀ y, y < c ∨ c + 16 ≤ y → mergeStep m c y = m y := by
    intro y hy
    rw [hm2]
    simp (disch := omega) only [setSize, setNext, store_outside]
  have hsz : getSize (mergeStep m c) c = getSize m c + 24 + getSize m n := by
    rw [hm2]
    simp (disch := omega) only [setSize, setNext, getSize_store, getSize_store_same]
    exact Nat.mod_eq_of_lt (by omega)
  have hnx : getNext (mergeStep m c) c = getNext m n := by
    rw [hm2]
    simp only [setNext, getNext_store_same]
    exact Nat.mod_eq_of_lt hnn
  have hpre_agree : ∀ x ∈ pre, ∀ y, x ≤ y → y < x + 24 → mergeStep m c y = m y := by
    intro x hx y hy1 hy2
    have := hpre x hx
    exact hfr y (by omega)
  have hrest_agree : ∀ x ∈ rest, ∀ y, x ≤ y → y < x + 24 → mergeStep m c y = m y := by
    intro x hx y hy1 hy2
    have := (hrest_ge x hx).1
    exact hfr y (by omega)
  refine ⟨en, ?_, ?_, hsz, hfr, ?_⟩
  · refine Seg_append.mpr ⟨c, Seg_agree hpre_agree k1, rfl, k3, ?_⟩
    rw [hnx]
    exact Seg_agree hrest_agree hrest
  · refine Contig_append.mpr ⟨c, ?_, rfl, ?_⟩
    · exact Contig_congr (fun x hx => (header_agree (hpre_agree x hx)).1) hco1
    · rw [hsz]
      have e3 : c + BLOCK_SIZE + (getSize m c + 24 + getSize m n)
          = n + BLOCK_SIZE + getSize m n := by
        unfold BLOCK_SIZE; omega
      rw [e3]
      exact Contig_congr (fun x hx => (header_agree (hrest_agree x hx)).1) hco3
  · intro x hx
    have := (hrest_ge x hx).1
    unfold BLOCK_SIZE
    omega

/-- The loop of `merge_free_blocks` at the block `B` of a contiguous chain
`pre ++ B :: post` absorbs free blocks from the front of `post`: the chain
stays contiguous, the removed blocks were free, and the size of `B` is built
from the sizes of `B` and `post` by `a + 24 + b`. -/
theorem merge_wf :
    ∀ (fuel : Nat) (m : Mem) (head : Nat) (pre : List Nat) (B : Nat) (post : List Nat)
      (e : Nat) (r : Mem), merge_free_blocks fuel m B = some r →
      Chain m head (pre ++ B :: post) → Contig m head (pre ++ B :: post) e → e < 2 ^ 64 →
      ∃ post1, post1 <:+ post ∧ Chain r head (pre ++ B :: post1) ∧
        Contig r head (pre ++ B :: post1) e ∧
        (∀ x ∈ post, x ∉ post1 → getFree m x ≠ 0) ∧
        (∀ P : Nat → Prop, (∀ a b, P a → P b → P (a + BLOCK_SIZE + b)) →
          (∀ x ∈ B :: post, P (getSize m x)) → P (getSize r B)) := by
  intro fuel
  induction fuel with
  | zero => intro m head pre B post e r h; simp [merge_free_blocks] at h
  | succ f ih =>
    intro m head pre B post e r h hch hco he
    rw [merge_free_blocks_succ] at h
    by_cases hc : getNext m B ≠ 0 ∧ getFree m (getNext m B) ≠ 0
    · rw [if_pos hc] at h
      cases post with
      | nil =>
        obtain ⟨c, _, k2, _, k4⟩ := Seg_append.mp hch
        subst k2
        exact absurd k4 hc.1
      | cons n rest =>
        obtain ⟨en, hch2, hco2, hsz, hfr, hge⟩ := mergeStep_wf m head pre B n rest e hch hco he
        obtain ⟨post1, g1, g2, g3, g4, g5⟩ := ih _ head pre B rest e r h hch2 hco2 he
        have hrest_agree : ∀ x ∈ rest, ∀ y, x ≤ y → y < x + 24 → mergeStep m B y = m y := by
          intro x hx y hy1 hy2
          have := hge x hx
          unfold BLOCK_SIZE at this
          exact hfr y (by omega)
        refine ⟨post1, g1.trans (List.suffix_cons n rest), g2, g3, ?_, ?_⟩
        · intro x hx hx1
          rcases List.mem_cons.mp hx with h0 | h0
          · rw [h0, ← en]; exact hc.2
          · have := g4 x h0 hx1
            rwa [(header_agree (hrest_agree x h0)).2.2] at this
        · intro P hP hall
          refine g5 P hP ?_
          intro x hx
          rcases List.mem_cons.mp hx with h0 | h0
          · rw [h0, hsz]
            exact hP _ _ (hall B (by simp)) (hall n (by simp))
          · rw [(header_agree (hrest_agree x h0)).1]
            exact hall x (by simp [h0])
    · rw [if_neg hc] at h
      injection h with h
      subst h
      exact ⟨post, List.suffix_refl _, hch, hco, fun x hx hx1 => absurd hx hx1,
        fun P _ hall => hall B (by simp)⟩

/-- The loop of `merge_free_blocks` at a block of a contiguous chain returns
when it has fuel for the blocks behind it. -/
theorem merge_free_blocks_total :
    ∀ (fuel : Nat) (m : Mem) (head : Nat) (pre : List Nat) (B : Nat) (post : List Nat)
      (e : Nat), Chain m head (pre ++ B :: post) → Contig m head (pre ++ B :: post) e →
      e < 2 ^ 64 → post.length < fuel → ∃ r, merge_free_blocks fuel m B = some r := by
  intro fuel
  induction fuel with
  | zero => intro m head pre B post e _ _ _ h; exact absurd h (Nat.not_lt_zero _)
  | succ f ih =>
    intro m head pre B post e hch hco he hf
    rw [merge_free_blocks_succ]
    by_cases hc : getNext m B ≠ 0 ∧ getFree m (getNext m B) ≠ 0
    · rw [if_pos hc]
      cases post with
      | nil =>
        obtain ⟨c, _, k2, _, k4⟩ := Seg_append.mp hch
        subst k2
        exact absurd k4 hc.1
      | cons n rest =>
        obtain ⟨_, hch2, hco2, _, _, _⟩ := mergeStep_wf m head pre B n rest e hch hco he
        exact ih _ head pre B rest e hch2 hco2 he (by simp at hf; omega)
    · rw [if_neg hc]
      exact ⟨m, rfl⟩

/-- The loop of `merge_free_blocks` at `B` keeps a path from the successor of
`B` to a block `t` that is not free, when the blocks on it lie behind `B`. -/
theorem merge_keeps_path :
    ∀ (fuel : Nat) (m : Mem) (B : Nat) (p2 : List Nat) (t : Nat) (r : Mem),
      merge_free_blocks fuel m B = some r → Seg m (getNext m B) p2 t → getFree m t = 0 →
      (∀ x ∈ p2, B + BLOCK_SIZE ≤ x) → B + BLOCK_SIZE ≤ t →
      ∃ q2, Seg r (getNext r B) q2 t := by
  intro fuel
  induction fuel with
  | zero => intro m B p2 t r h; simp [merge_free_blocks] at h
  | succ f ih =>
    intro m B p2 t r h hs hft hp2 ht
    by_cases hc : getNext m B ≠ 0 ∧ getFree m (getNext m B) ≠ 0
    · rw [merge_free_blocks, if_pos hc] at h
      cases p2 with
      | nil =>
        have e : getNext m B = t := hs
        rw [e] at hc
        exact absurd hft hc.2
      | cons n rest =>
        obtain ⟨e, hn0, hrest⟩ := hs
        have hnB : B + BLOCK_SIZE ≤ n := hp2 n (List.mem_cons_self _ _)
        unfold BLOCK_SIZE at hnB ht hp2
        have hlt := getNext_lt m n
        have e1 : getNext (setSize m B (uadd (getSize m B)
            (uadd BLOCK_SIZE (getSize m (getNext m B))))) B = n := by
          rw [← e]
          simp (disch := omega) only [setSize, getNext_store]
        have e2 : getNext (setSize m B (uadd (getSize m B)
            (uadd BLOCK_SIZE (getSize m (getNext m B))))) n = getNext m n := by
          simp (disch := omega) only [setSize, getNext_store]
        simp only [e1, e2] at h
        refine ih _ B rest t r h ?_ ?_ (fun x hx => hp2 x (List.mem_cons_of_mem _ hx)) ht
        · have e3 : getNext (setNext (setSize m B (uadd (getSize m B)
              (uadd BLOCK_SIZE (getSize m (getNext m B))))) B (getNext m n)) B = getNext m n := by
            simp only [setNext, getNext_store_same]
            exact Nat.mod_eq_of_lt hlt
          rw [e3]
          refine Seg_agree ?_ hrest
          intro x hx y hy1 hy2
          have := hp2 x (List.mem_cons_of_mem _ hx)
          simp (disch := omega) only [setSize, setNext, store_outside]
        · rw [← hft]
          refine (header_agree ?_).2.2
          intro y hy1 hy2
          simp (disch := omega) only [setSize, setNext, store_outside]
    · rw [merge_free_blocks, if_neg hc] at h
      injection h with h
      subst h
      exact ⟨p2, hs⟩

/-! ## Arena growth -/

theorem request_space_success (s : State) (last a : Nat)
    (hr : (request_space s last a).1 ≠ 0) :
    (request_space s last a).1 = s.brk ∧
    (request_space s last a).2.free_list = s.free_list ∧
    (request_space s last a).2.heap_start = s.heap_start ∧
    (request_space s last a).2.heap_limit = s.heap_limit ∧
    ((request_space s last a).2.brk : Int) = (s.brk : Int) + toIntptr (uadd a BLOCK_SIZE) ∧
    s.heap_start ≤ (request_space s last a).2.brk ∧
    (request_space s last a).2.brk ≤ s.heap_limit ∧
    (request_space s last a).2.mem = growMem s.mem last s.brk a := by
  by_cases hc : (s.heap_start : Int) ≤ (s.brk : Int) + toIntptr (uadd a BLOCK_SIZE) ∧
      (s.brk : Int) + toIntptr (uadd a BLOCK_SIZE) ≤ (s.heap_limit : Int)
  · simp only [request_space, sbrk, if_pos hc, growMem]
    refine ⟨trivial, trivial, trivial, trivial, ?_, ?_, ?_, trivial⟩ <;> omega
  · simp only [request_space, sbrk, if_neg hc] at hr
    exact absurd rfl hr

theorem request_space_granted (s : State) (last a : Nat) (ha : a + BLOCK_SIZE < 2 ^ 63)
    (hs : s.heap_start ≤ s.brk) (hl : s.brk + a + BLOCK_SIZE ≤ s.heap_limit) :
    request_space s last a =
      (s.brk, { s with brk := s.brk + a + BLOCK_SIZE, mem := growMem s.mem last s.brk a }) := by
  have e : toIntptr (uadd a BLOCK_SIZE) = ((a + BLOCK_SIZE : Nat) : Int) := by
    unfold toIntptr uadd SIZE_T
    rw [Nat.mod_mod, Nat.mod_eq_of_lt (by omega), if_pos ha]
  unfold request_space sbrk
  rw [e, if_pos (by omega)]
  have e2 : ((s.brk : Int) + ((a + BLOCK_SIZE : Nat) : Int)).toNat = s.brk + a + BLOCK_SIZE := by
    omega
  simp only [growMem, e2]

theorem request_space_refused (s : State) (last a : Nat) (ha : a + BLOCK_SIZE < 2 ^ 63)
    (hl : ¬ s.brk + a + BLOCK_SIZE ≤ s.heap_limit) : request_space s last a = (0, s) := by
  have e : toIntptr (uadd a BLOCK_SIZE) = ((a + BLOCK_SIZE : Nat) : Int) := by
    unfold toIntptr uadd SIZE_T
    rw [Nat.mod_mod, Nat.mod_eq_of_lt (by omega), if_pos ha]
  unfold request_space sbrk
  rw [e, if_neg (by omega)]

theorem growMem_fields (m : Mem) (last block a : Nat) (ha : a < 2 ^ 64)
    (hl : last ≠ 0 → last + BLOCK_SIZE ≤ block) :
    getSize (growMem m last block a) block = a ∧
    getNext (growMem m last block a) block = 0 ∧
    getFree (growMem m last block a) block = 0 := by
  unfold BLOCK_SIZE at hl
  unfold growMem
  split
  · rename_i h0
    have := hl h0
    simp (disch := omega) only [setSize, setNext, setFree, getSize_store_same,
      getNext_store_same, getFree_store_same, getSize_store, getNext_store, getFree_store]
    exact ⟨Nat.mod_eq_of_lt ha, rfl, rfl⟩
  · simp (disch := omega) only [setSize, setNext, setFree, getSize_store_same,
      getNext_store_same, getFree_store_same, getSize_store, getNext_store, getFree_store]
    exact ⟨Nat.mod_eq_of_lt ha, rfl, rfl⟩

theorem growMem_frame (m : Mem) (last block a x : Nat)
    (h1 : x < block ∨ block + 20 ≤ x) (h2 : last ≠ 0 → x < last + 8 ∨ last + 16 ≤ x) :
    growMem m last block a x = m x := by
  unfold growMem
  split
  · rename_i h0
    have := h2 h0
    simp (disch := omega) only [setSize, setNext, setFree, store_outside]
  · simp (disch := omega) only [setSize, setNext, setFree, store_outside]

theorem growMem_next_last (m : Mem) (last block a : Nat) (h0 : last ≠ 0)
    (hl : last + BLOCK_SIZE ≤ block) (hb : block < 2 ^ 64) :
    getNext (growMem m last block a) last = block := by
  unfold BLOCK_SIZE at hl
  unfold growMem
  rw [if_pos h0]
  simp (disch := omega) only [setSize, setNext, setFree, getNext_store_same, getNext_store]
  exact Nat.mod_eq_of_lt hb

/-- After a granted growth the chain is the old chain followed by the new block. -/
theorem growMem_chain (m : Mem) (head : Nat) (l : List Nat) (block a : Nat)
    (hc : Chain m head l) (hsp : Spaced l) (hlt : ∀ x ∈ l, x + BLOCK_SIZE ≤ block)
    (hb0 : block ≠ 0) (hb : block < 2 ^ 64) (ha : a < 2 ^ 64) :
    Chain (growMem m (l.getLastD 0) block a) (if l = [] then block else head) (l ++ [block]) := by
  rcases List.eq_nil_or_concat l with rfl | ⟨init, t, rfl⟩
  · have hf := growMem_fields m 0 block a ha (fun h => absurd rfl h)
    simp only [List.getLastD, if_true, List.nil_append]
    exact ⟨rfl, hb0, hf.2.1⟩
  · rw [List.concat_eq_append] at hc hsp hlt ⊢
    have hne : init ++ [t] ≠ [] := by simp
    rw [if_neg hne, List.getLastD_concat]
    obtain ⟨c, h1, h2, h3, h4⟩ := Seg_append.mp hc
    subst h2
    have htb : c + BLOCK_SIZE ≤ block := hlt c (by simp)
    have hf := growMem_fields m c block a ha (fun _ => htb)
    have hsp2 := List.pairwise_append.mp hsp
    unfold BLOCK_SIZE at htb hlt
    refine Seg_append.mpr ⟨block, Seg_append.mpr ⟨c, ?_, rfl, h3, ?_⟩, ?_⟩
    · refine Seg_congr ?_ h1
      intro x hx
      have hxt : x + BLOCK_SIZE ≤ c := hsp2.2.2 x hx c (by simp)
      have hxb := hlt x (by simp [hx])
      unfold BLOCK_SIZE at hxt
      exact load_congr (fun i hi => growMem_frame m c block a _ (by omega) (fun _ => by omega))
    · exact growMem_next_last m c block a h3 (by unfold BLOCK_SIZE; omega) hb
    · exact ⟨rfl, hb0, hf.2.1⟩

/-- A granted growth leaves the `size` and `free` fields of the old blocks. -/
theorem growMem_old (m : Mem) (l : List Nat) (block a x : Nat) (hsp : Spaced l)
    (hlt : ∀ y ∈ l, y + BLOCK_SIZE ≤ block) (hx : x ∈ l) :
    getSize (growMem m (l.getLastD 0) block a) x = getSize m x ∧
    getFree (growMem m (l.getLastD 0) block a) x = getFree m x := by
  have hxb := hlt x hx
  unfold BLOCK_SIZE at hxb
  constructor
  · refine load_congr (fun i hi => growMem_frame m _ block a _ (by omega) ?_)
    intro _
    rcases List.eq_nil_or_concat l with rfl | ⟨init, t, rfl⟩
    · cases hx
    · rw [List.concat_eq_append] at hsp hx ⊢
      rw [List.getLastD_concat]
      have hsp2 := List.pairwise_append.mp hsp
      rcases List.mem_append.mp hx with h | h
      · have := hsp2.2.2 x h t (by simp)
        unfold BLOCK_SIZE at this
        omega
      · simp at h; subst h; omega
  · refine load_congr (fun i hi => growMem_frame m _ block a _ (by omega) ?_)
    intro _
    rcases List.eq_nil_or_concat l with rfl | ⟨init, t, rfl⟩
    · cases hx
    · rw [List.concat_eq_append] at hsp hx ⊢
      rw [List.getLastD_concat]
      have hsp2 := List.pairwise_append.mp hsp
      rcases List.mem_append.mp hx with h | h
      · have := hsp2.2.2 x h t (by simp)
        unfold BLOCK_SIZE at this
        omega
      · simp at h; subst h; omega

/-- A granted growth without wrap-around keeps the state well formed. -/
theorem grow_wf (s : State) (l : List Nat) (a : Nat) (hwf : WF s l)
    (ha : a + BLOCK_SIZE < 2 ^ 63) (hl : s.brk + a + BLOCK_SIZE ≤ s.heap_limit) :
    WF (growState s l a) (l ++ [s.brk]) := by
  obtain ⟨hch, hco, h1, h2, h3, h4⟩ := hwf
  have hbrk : s.brk < 2 ^ 64 := by unfold SIZE_T at h4; omega
  have ha2 : a < 2 ^ 64 := by omega
  have hsp : Spaced l := by
    cases l with
    | nil => exact List.Pairwise.nil
    | cons x t => exact Contig_spaced (hco (by simp))
  have hlt : ∀ x ∈ l, x + BLOCK_SIZE ≤ s.brk := by
    intro x hx
    have hne : l ≠ [] := by intro h0; rw [h0] at hx; cases hx
    have := (Contig_bounds (hco hne)).2 x hx
    omega
  have hlast : l.getLastD 0 ≠ 0 → l.getLastD 0 + BLOCK_SIZE ≤ s.brk := by
    intro _
    rcases List.eq_nil_or_concat l with rfl | ⟨init, t, rfl⟩
    · simp [List.getLastD] at *
    · rw [List.concat_eq_append, List.getLastD_concat]
      exact hlt t (by simp)
  have hf := growMem_fields s.mem (l.getLastD 0) s.brk a ha2 hlast
  refine ⟨growMem_chain s.mem s.free_list l s.brk a hch hsp hlt (by omega) hbrk ha2, ?_,
    h1, ?_, hl, h4⟩
  · intro _
    show Contig (growMem s.mem (l.getLastD 0) s.brk a) (if l = [] then s.brk else s.free_list)
      (l ++ [s.brk]) (s.brk + a + BLOCK_SIZE)
    have hnew : Contig (growMem s.mem (l.getLastD 0) s.brk a) s.brk [s.brk]
        (s.brk + a + BLOCK_SIZE) := by
      refine ⟨rfl, ?_⟩
      rw [hf.1]
      show s.brk + BLOCK_SIZE + a = s.brk + a + BLOCK_SIZE
      omega
    by_cases hnil : l = []
    · subst hnil
      rw [if_pos rfl]
      exact hnew
    · rw [if_neg hnil]
      refine Contig_append.mpr ⟨s.brk, ?_, hnew⟩
      exact Contig_congr (fun x hx => (growMem_old s.mem l s.brk a x hsp hlt hx).1) (hco hnil)
  · show s.heap_start ≤ s.brk + a + BLOCK_SIZE
    omega

/-! ## Reuse of a free block -/

theorem reuseMem_frame (m : Mem) (b a x : Nat) (h1 : x < b ∨ b + 20 ≤ x)
    (h2 : getSize m b > uadd a BLOCK_SIZE →
      x < b + BLOCK_SIZE + a ∨ b + BLOCK_SIZE + a + 20 ≤ x) :
    reuseMem m b a x = m x := by
  unfold reuseMem
  split
  · rename_i hc
    have := h2 hc
    rw [setFree, store_outside _ _ _ _ _ (by omega)]
    exact split_block_frame m b a x (by omega) this
  · rw [setFree, store_outside _ _ _ _ _ (by omega)]

theorem reuseMem_fields (m : Mem) (b a e : Nat) (hfit : a ≤ getSize m b)
    (hbe : b + BLOCK_SIZE + getSize m b ≤ e) (he : e < 2 ^ 64) :
    getFree (reuseMem m b a) b = 0 ∧
    (getSize m b > uadd a BLOCK_SIZE →
      getSize m b > a + BLOCK_SIZE ∧
      getSize (reuseMem m b a) b = a ∧ getNext (reuseMem m b a) b = b + BLOCK_SIZE + a ∧
      getSize (reuseMem m b a) (b + BLOCK_SIZE + a) = getSize m b - a - BLOCK_SIZE ∧
      getNext (reuseMem m b a) (b + BLOCK_SIZE + a) = getNext m b ∧
      getFree (reuseMem m b a) (b + BLOCK_SIZE + a) = 1) ∧
    (¬ getSize m b > uadd a BLOCK_SIZE →
      getSize m b ≤ a + BLOCK_SIZE ∧
      getSize (reuseMem m b a) b = getSize m b ∧ getNext (reuseMem m b a) b = getNext m b) := by
  have hu : uadd a BLOCK_SIZE = a + BLOCK_SIZE := uadd_eq _ _ (by unfold BLOCK_SIZE at *; omega)
  refine ⟨?_, ?_, ?_⟩
  · unfold reuseMem
    rw [getFree_setFree]; rfl
  · intro hc
    have hc2 := hc
    rw [hu] at hc2
    obtain ⟨f1, f2, f3, f4, f5, f6⟩ := split_block_fields m b a (by omega)
      (by unfold BLOCK_SIZE at *; omega)
    unfold reuseMem
    rw [if_pos hc]
    unfold BLOCK_SIZE at *
    simp (disch := omega) only [setFree, getSize_store, getNext_store, getFree_store]
    exact ⟨hc2, f1, f2, f4, f5, f6⟩
  · intro hc
    have hc2 := hc
    rw [hu] at hc2
    unfold reuseMem
    rw [if_neg hc]
    unfold BLOCK_SIZE at *
    simp (disch := omega) only [setFree, getSize_store, getNext_store, getFree_store]
    exact ⟨by omega, trivial, trivial⟩

/-- Taking the free block `b` leaves the headers of all other blocks. -/
theorem reuseMem_others (m : Mem) (h : Nat) (pre : List Nat) (b : Nat) (post : List Nat)
    (a e : Nat) (hc : Contig m h (pre ++ b :: post) e) (he : e < 2 ^ 64)
    (hfit : a ≤ getSize m b) :
    ∀ x ∈ pre ++ post, getSize (reuseMem m b a) x = getSize m x ∧
      getNext (reuseMem m b a) x = getNext m x ∧ getFree (reuseMem m b a) x = getFree m x := by
  obtain ⟨hb, hpre, hpost⟩ := Contig_block_bounds hc
  have hu : uadd a BLOCK_SIZE = a + BLOCK_SIZE := uadd_eq _ _ (by unfold BLOCK_SIZE at *; omega)
  intro x hx
  apply header_agree
  intro y hy1 hy2
  apply reuseMem_frame
  · rcases List.mem_append.mp hx with h1 | h1
    · have := hpre x h1; unfold BLOCK_SIZE at *; omega
    · have := hpost x h1; unfold BLOCK_SIZE at *; omega
  · intro hs
    rw [hu] at hs
    rcases List.mem_append.mp hx with h1 | h1
    · have := hpre x h1; unfold BLOCK_SIZE at *; omega
    · have := hpost x h1; unfold BLOCK_SIZE at *; omega

/-- Taking a free block that fits keeps the state well formed, with the chain
`reuseList`. -/
theorem reuse_wf (s : State) (pre : List Nat) (b : Nat) (post : List Nat) (a : Nat)
    (hwf : WF s (pre ++ b :: post)) (hfit : a ≤ getSize s.mem b) :
    WF { s with mem := reuseMem s.mem b a } (reuseList s.mem pre b post a) := by
  obtain ⟨hch, hco, h1, h2, h3, h4⟩ := hwf
  have hco := hco (by simp)
  have he : s.brk < 2 ^ 64 := by unfold SIZE_T at h4; omega
  obtain ⟨hb, hpre, hpost⟩ := Contig_block_bounds hco
  obtain ⟨hco1, hco2⟩ := Contig_split hco
  obtain ⟨c, hs1, hcb, hb0, hs2⟩ := Seg_append.mp hch
  subst hcb
  have hoth := reuseMem_others s.mem s.free_list pre c post a s.brk hco he hfit
  obtain ⟨f0, fs, fn⟩ := reuseMem_fields s.mem c a s.brk hfit hb he
  have hs1' : Seg (reuseMem s.mem c a) s.free_list pre c :=
    Seg_congr (fun x hx => (hoth x (List.mem_append_left _ hx)).2.1) hs1
  have hs2' : Seg (reuseMem s.mem c a) (getNext s.mem c) post 0 :=
    Seg_congr (fun x hx => (hoth x (List.mem_append_right _ hx)).2.1) hs2
  have hco1' : Contig (reuseMem s.mem c a) s.free_list pre c :=
    Contig_congr (fun x hx => (hoth x (List.mem_append_left _ hx)).1) hco1
  have hco2' : Contig (reuseMem s.mem c a) (c + BLOCK_SIZE + getSize s.mem c) post s.brk :=
    Contig_congr (fun x hx => (hoth x (List.mem_append_right _ hx)).1) hco2
  refine ⟨?_, ?_, h1, h2, h3, h4⟩
  · by_cases hsp : getSize s.mem c > uadd a BLOCK_SIZE
    · rw [reuseList, if_pos hsp]
      obtain ⟨_, g1, g2, g3, g4, g5⟩ := fs hsp
      refine Seg_append.mpr ⟨c, hs1', rfl, hb0, ?_⟩
      rw [g2]
      refine ⟨rfl, by unfold BLOCK_SIZE; omega, ?_⟩
      rw [g4]
      exact hs2'
    · rw [reuseList, if_neg hsp]
      obtain ⟨_, g1, g2⟩ := fn hsp
      refine Seg_append.mpr ⟨c, hs1', rfl, hb0, ?_⟩
      rw [g2]
      exact hs2'
  · intro _
    by_cases hsp : getSize s.mem c > uadd a BLOCK_SIZE
    · rw [reuseList, if_pos hsp]
      obtain ⟨g0, g1, g2, g3, g4, g5⟩ := fs hsp
      refine Contig_append.mpr ⟨c, hco1', rfl, ?_⟩
      rw [g1]
      refine ⟨rfl, ?_⟩
      rw [g3]
      have e : c + BLOCK_SIZE + a + BLOCK_SIZE + (getSize s.mem c - a - BLOCK_SIZE)
          = c + BLOCK_SIZE + getSize s.mem c := by omega
      rw [e]
      exact hco2'
    · rw [reuseList, if_neg hsp]
      obtain ⟨_, g1, g2⟩ := fn hsp
      refine Contig_append.mpr ⟨c, hco1', rfl, ?_⟩
      rw [g1]
      exact hco2'

/-! ## The two paths of `malloc` -/

/-- With fuel for the blocks before the first fit `b`, `malloc` takes `b`. -/
theorem malloc_reuse_eq (fuel : Nat) (s : State) (n : Nat) (pre : List Nat) (b : Nat)
    (post : List Nat) (hn : n ≠ 0) (hc : Chain s.mem s.free_list (pre ++ b :: post))
    (hpre : ∀ x ∈ pre, ¬ Fits s.mem (alignUp n) x) (hb : Fits s.mem (alignUp n) b)
    (hfuel : pre.length < fuel) :
    malloc fuel s n = some (b + BLOCK_SIZE, { s with mem := reuseMem s.mem b (alignUp n) }) := by
  obtain ⟨c, hs1, hs2⟩ := Seg_append.mp hc
  obtain ⟨hcb, hb0, _⟩ := hs2
  subst hcb
  have hhead : s.free_list ≠ 0 := by
    cases pre with
    | nil => exact Chain_head_ne_zero hc
    | cons x l => exact Chain_head_ne_zero hc
  have hfind := find_free_block_loop_stops s.mem (alignUp n) pre s.free_list s.free_list fuel c hs1
    hpre (Or.inr hb) hfuel
  rw [malloc, if_neg hn]
  simp only [if_neg hhead, find_free_block, hfind, if_neg hb0, reuseMem]

/-- With fuel for the whole chain and no fit in it, `malloc` asks for space
behind the last block. -/
theorem malloc_grow_eq (fuel : Nat) (s : State) (n : Nat) (l : List Nat) (hn : n ≠ 0)
    (hc : Chain s.mem s.free_list l) (hall : ∀ x ∈ l, ¬ Fits s.mem (alignUp n) x)
    (hfuel : l.length < fuel) :
    malloc fuel s n =
      if (request_space s (l.getLastD 0) (alignUp n)).1 = 0 then
        some (0, (request_space s (l.getLastD 0) (alignUp n)).2)
      else some ((request_space s (l.getLastD 0) (alignUp n)).1 + BLOCK_SIZE,
        if l = [] then { (request_space s (l.getLastD 0) (alignUp n)).2 with
          free_list := (request_space s (l.getLastD 0) (alignUp n)).1 }
        else (request_space s (l.getLastD 0) (alignUp n)).2) := by
  cases l with
  | nil =>
    have h0 : s.free_list = 0 := hc
    rw [malloc, if_neg hn]
    simp only [if_pos h0, List.getLastD, if_true]
  | cons x t =>
    have hhead : s.free_list ≠ 0 := Chain_head_ne_zero hc
    have hfind := find_free_block_loop_stops s.mem (alignUp n) (x :: t) s.free_list s.free_list
      fuel 0 hc hall (Or.inl rfl) hfuel
    have e : (x :: t).getLastD s.free_list = (x :: t).getLastD 0 := by
      simp [List.getLastD]
    rw [e] at hfind
    rw [malloc, if_neg hn]
    simp only [if_neg hhead, find_free_block, hfind, if_true, if_false, reduceCtorEq]

/-- `malloc` returns when it has fuel for the blocks of the chain. -/
theorem malloc_total (fuel : Nat) (s : State) (n : Nat) (l : List Nat)
    (hc : Chain s.mem s.free_list l) (hf : l.length < fuel) : ∃ r, malloc fuel s n = some r := by
  by_cases hn : n = 0
  · rw [malloc, if_pos hn]; exact ⟨_, rfl⟩
  · rcases first_fit_cases (Fits s.mem (alignUp n)) l with hall | ⟨pre, b, post, rfl, hpre, hb⟩
    · rw [malloc_grow_eq fuel s n l hn hc hall hf]
      split
      · exact ⟨_, rfl⟩
      · exact ⟨_, rfl⟩
    · have hlen : (pre ++ b :: post).length = pre.length + (post.length + 1) := by simp
      rw [malloc_reuse_eq fuel s n pre b post hn hc hpre hb (by omega)]
      exact ⟨_, rfl⟩

/-- What a successful `malloc` leaves of a well-formed state: the returned
pointer is the payload of a block `b` of the new chain, which is not free; the
new chain is spaced and contains the old one; `b` is new or was free; the
other blocks keep their size and flag. -/
theorem malloc_post (fuel : Nat) (s : State) (n : Nat) (l : List Nat) (p : Nat) (s1 : State)
    (hwf : WF s l) (h : malloc fuel s n = some (p, s1)) (hp : p ≠ 0) :
    ∃ b l1, p = b + BLOCK_SIZE ∧ b ≠ 0 ∧ Chain s1.mem s1.free_list l1 ∧ Spaced l1 ∧ b ∈ l1 ∧
      getFree s1.mem b = 0 ∧ (∀ x ∈ l, x ∈ l1) ∧ (b ∈ l → getFree s.mem b ≠ 0) ∧
      (∀ x ∈ l, x ≠ b → getSize s1.mem x = getSize s.mem x ∧
        getFree s1.mem x = getFree s.mem x) := by
  have hn : n ≠ 0 := by
    intro h0
    rw [malloc, if_pos h0] at h
    injection h with h; injection h with h _; exact hp h.symm
  have h := malloc_mono fuel (max fuel (l.length + 1)) s n _ (le_max_left _ _) h
  have hfuel : l.length < max fuel (l.length + 1) := by
    have := le_max_right fuel (l.length + 1); omega
  obtain ⟨hch, hco, h1, h2, h3, h4⟩ := hwf
  have hbrk : s.brk < 2 ^ 64 := by unfold SIZE_T at h4; omega
  rcases first_fit_cases (Fits s.mem (alignUp n)) l with hall | ⟨pre, b, post, rfl, hpre, hb⟩
  · rw [malloc_grow_eq _ s n l hn hch hall hfuel] at h
    by_cases hr : (request_space s (l.getLastD 0) (alignUp n)).1 = 0
    · rw [if_pos hr] at h
      injection h with h; injection h with h _; exact absurd h.symm hp
    · rw [if_neg hr] at h
      injection h with h; injection h with hp1 hs1
      obtain ⟨r1, r2, r3, r4, r5, r6, r7, r8⟩ := request_space_success s _ _ hr
      have hsp : Spaced l := by
        cases l with
        | nil => exact List.Pairwise.nil
        | cons x t => exact Contig_spaced (hco (by simp))
      have hlt : ∀ x ∈ l, x + BLOCK_SIZE ≤ s.brk := by
        intro x hx
        have hne : l ≠ [] := by intro h0; rw [h0] at hx; cases hx
        have := (Contig_bounds (hco hne)).2 x hx
        omega
      have hchain := growMem_chain s.mem s.free_list l s.brk (alignUp n) hch hsp hlt
        (by omega) hbrk (alignUp_lt n)
      have hlast : l.getLastD 0 ≠ 0 → l.getLastD 0 + BLOCK_SIZE ≤ s.brk := by
        intro _
        rcases List.eq_nil_or_concat l with rfl | ⟨init, t, rfl⟩
        · simp [List.getLastD] at *
        · rw [List.concat_eq_append, List.getLastD_concat]
          exact hlt t (by simp)
      have hf := growMem_fields s.mem (l.getLastD 0) s.brk (alignUp n) (alignUp_lt n) hlast
      have hmem : s1.mem = growMem s.mem (l.getLastD 0) s.brk (alignUp n) := by
        rw [← hs1, ← r8]; split <;> rfl
      have hhead : s1.free_list = if l = [] then s.brk else s.free_list := by
        rw [← hs1]
        split
        · exact r1
        · exact r2
      refine ⟨s.brk, l ++ [s.brk], by rw [← hp1, r1], by omega, ?_, ?_, by simp, ?_,
        fun x hx => List.mem_append_left _ hx, ?_, ?_⟩
      · rw [hmem, hhead]; exact hchain
      · exact List.pairwise_append.mpr ⟨hsp, List.pairwise_singleton _ _,
          fun x hx y hy => by simp at hy; subst hy; exact hlt x hx⟩
      · rw [hmem]; exact hf.2.2
      · intro hb
        have := hlt _ hb
        unfold BLOCK_SIZE at this
        omega
      · intro x hx _
        rw [hmem]
        exact growMem_old s.mem l s.brk (alignUp n) x hsp hlt hx
  · have hlen : (pre ++ b :: post).length = pre.length + (post.length + 1) := by simp
    rw [malloc_reuse_eq _ s n pre b post hn hch hpre hb (by omega)] at h
    injection h with h; injection h with hp1 hs1
    have hco := hco (by simp)
    have hwf1 := reuse_wf s pre b post (alignUp n) ⟨hch, fun _ => hco, h1, h2, h3, h4⟩ hb.2
    have hoth := reuseMem_others s.mem s.free_list pre b post (alignUp n) s.brk hco hbrk hb.2
    obtain ⟨hbb, _, _⟩ := Contig_block_bounds hco
    obtain ⟨f0, _, _⟩ := reuseMem_fields s.mem b (alignUp n) s.brk hb.2 hbb hbrk
    have hb0 : b ≠ 0 := Seg_ne_zero hch b (by simp)
    obtain ⟨hch1, hco1, _⟩ := hwf1
    have hsub : ∀ x ∈ pre ++ b :: post, x ∈ reuseList s.mem pre b post (alignUp n) := by
      intro x hx
      by_cases hsp : getSize s.mem b > uadd (alignUp n) BLOCK_SIZE
      · rw [reuseList, if_pos hsp]
        simp only [List.mem_append, List.mem_cons] at hx ⊢
        rcases hx with h | h | h
        · exact Or.inl h
        · exact Or.inr (Or.inl h)
        · exact Or.inr (Or.inr (Or.inr h))
      · rw [reuseList, if_neg hsp]
        exact hx
    have hne : reuseList s.mem pre b post (alignUp n) ≠ [] := by
      intro h0
      have := hsub b (by simp)
      rw [h0] at this
      cases this
    subst hs1
    refine ⟨b, reuseList s.mem pre b post (alignUp n), hp1.symm, hb0, hch1,
      Contig_spaced (hco1 hne), hsub b (by simp), f0, hsub, fun _ => hb.1, ?_⟩
    intro x hx hxb
    have hx2 : x ∈ pre ++ post := by
      simp only [List.mem_append, List.mem_cons] at hx ⊢
      rcases hx with h | h | h
      · exact Or.inl h
      · exact absurd h hxb
      · exact Or.inr h
    exact ⟨(hoth x hx2).1, (hoth x hx2).2.2⟩

/-- What `malloc` leaves of a well-formed state when the growth request
`alignedSize + 24` does not wrap: on `NULL` the state itself; otherwise a
well-formed state in which the returned block `b` is live and large enough,
the old blocks are kept, bytes outside the headers are kept, and every size
is an old size, the rounded size `a`, or an old size minus `a + 24`. -/
theorem malloc_wf (fuel : Nat) (s : State) (n : Nat) (l : List Nat) (p : Nat) (s1 : State)
    (hwf : WF s l) (ha : alignUp n + BLOCK_SIZE < 2 ^ 63)
    (h : malloc fuel s n = some (p, s1)) :
    (p = 0 ∧ s1 = s) ∨
    ∃ b l1, p = b + BLOCK_SIZE ∧ WF s1 l1 ∧ b ∈ l1 ∧ getFree s1.mem b = 0 ∧
      alignUp n ≤ getSize s1.mem b ∧ (∀ x ∈ l, x ∈ l1) ∧ (b ∈ l → getFree s.mem b ≠ 0) ∧
      (∀ x ∈ l, x ≠ b → getSize s1.mem x = getSize s.mem x ∧
        getFree s1.mem x = getFree s.mem x) ∧
      (∀ y, (∀ x ∈ l1, y < x ∨ x + 24 ≤ y) → s1.mem y = s.mem y) ∧
      (∀ P : Nat → Prop, P (alignUp n) →
        (∀ t, P t → alignUp n + BLOCK_SIZE < t → P (t - alignUp n - BLOCK_SIZE)) →
        (∀ x ∈ l, P (getSize s.mem x)) → ∀ x ∈ l1, P (getSize s1.mem x)) := by
  by_cases hp : p = 0
  · left
    subst hp
    exact ⟨rfl, malloc_null_unchanged fuel s n s1 (by have := hwf.2.2.1; have := hwf.2.2.2.1; omega) h⟩
  right
  have hn : n ≠ 0 := by
    intro h0
    rw [malloc, if_pos h0] at h
    injection h with h; injection h with h _; exact hp h.symm
  have h := malloc_mono fuel (max fuel (l.length + 1)) s n _ (le_max_left _ _) h
  have hfuel : l.length < max fuel (l.length + 1) := by
    have := le_max_right fuel (l.length + 1); omega
  have hwf0 := hwf
  obtain ⟨hch, hco, h1, h2, h3, h4⟩ := hwf
  have hbrk : s.brk < 2 ^ 64 := by unfold SIZE_T at h4; omega
  rcases first_fit_cases (Fits s.mem (alignUp n)) l with hall | ⟨pre, b, post, rfl, hpre, hb⟩
  · rw [malloc_grow_eq _ s n l hn hch hall hfuel] at h
    by_cases hl : s.brk + alignUp n + BLOCK_SIZE ≤ s.heap_limit
    · rw [request_space_granted s _ _ ha h2 hl] at h
      simp only at h
      rw [if_neg (by omega)] at h
      injection h with h; injection h with hp1 hs1
      have hwf1 := grow_wf s l (alignUp n) hwf0 ha hl
      have hsp : Spaced l := by
        cases l with
        | nil => exact List.Pairwise.nil
        | cons x t => exact Contig_spaced (hco (by simp))
      have hlt : ∀ x ∈ l, x + BLOCK_SIZE ≤ s.brk := by
        intro x hx
        have hne : l ≠ [] := by intro h0; rw [h0] at hx; cases hx
        have := (Contig_bounds (hco hne)).2 x hx
        omega
      have hlast : l.getLastD 0 ≠ 0 → l.getLastD 0 + BLOCK_SIZE ≤ s.brk ∧ l.getLastD 0 ∈ l := by
        intro _
        rcases List.eq_nil_or_concat l with rfl | ⟨init, t, rfl⟩
        · simp [List.getLastD] at *
        · rw [List.concat_eq_append, List.getLastD_concat]
          exact ⟨hlt t (by simp), by simp⟩
      have hf := growMem_fields s.mem (l.getLastD 0) s.brk (alignUp n) (alignUp_lt n)
        (fun h0 => (hlast h0).1)
      have hs1' : s1 = growState s l (alignUp n) := by
        rw [← hs1]
        by_cases hnil : l = []
        · simp only [growState, if_pos hnil]
        · simp only [growState, if_neg hnil]
      subst hs1'
      refine ⟨s.brk, l ++ [s.brk], hp1.symm, hwf1, by simp, hf.2.2, le_of_eq hf.1.symm,
        fun x hx => List.mem_append_left _ hx, ?_, ?_, ?_, ?_⟩
      · intro hb
        have := hlt _ hb
        unfold BLOCK_SIZE at this
        omega
      · intro x hx _
        exact growMem_old s.mem l s.brk (alignUp n) x hsp hlt hx
      · intro y hy
        refine growMem_frame s.mem _ s.brk (alignUp n) y ?_ ?_
        · have := hy s.brk (by simp); omega
        · intro h0
          have := hy _ (List.mem_append_left _ (hlast h0).2); omega
      · intro P hPa _ hPl x hx
        rcases List.mem_append.mp hx with hx | hx
        · show P (getSize (growMem s.mem (l.getLastD 0) s.brk (alignUp n)) x)
          rw [(growMem_old s.mem l s.brk (alignUp n) x hsp hlt hx).1]
          exact hPl x hx
        · simp at hx
          subst hx
          show P (getSize (growMem s.mem (l.getLastD 0) s.brk (alignUp n)) s.brk)
          rw [hf.1]
          exact hPa
    · rw [request_space_refused s _ _ ha hl] at h
      simp only [if_true] at h
      injection h with h; injection h with h _
      exact absurd h.symm hp
  · have hlen : (pre ++ b :: post).length = pre.length + (post.length + 1) := by simp
    rw [malloc_reuse_eq _ s n pre b post hn hch hpre hb (by omega)] at h
    injection h with h; injection h with hp1 hs1
    have hco := hco (by simp)
    have hwf1 := reuse_wf s pre b post (alignUp n) hwf0 hb.2
    have hoth := reuseMem_others s.mem s.free_list pre b post (alignUp n) s.brk hco hbrk hb.2
    obtain ⟨hbb, _, _⟩ := Contig_block_bounds hco
    obtain ⟨f0, fs, fn⟩ := reuseMem_fields s.mem b (alignUp n) s.brk hb.2 hbb hbrk
    have hmem : ∀ x, x ∈ reuseList s.mem pre b post (alignUp n) ↔
        (x ∈ pre ++ post ∨ x = b ∨
          (getSize s.mem b > uadd (alignUp n) BLOCK_SIZE ∧ x = b + BLOCK_SIZE + alignUp n)) := by
      intro x
      by_cases hsp : getSize s.mem b > uadd (alignUp n) BLOCK_SIZE
      · rw [reuseList, if_pos hsp]
        simp only [List.mem_append, List.mem_cons, hsp, true_and]
        constructor
        · rintro (h | h | h | h)
          · exact Or.inl (Or.inl h)
          · exact Or.inr (Or.inl h)
          · exact Or.inr (Or.inr h)
          · exact Or.inl (Or.inr h)
        · rintro ((h | h) | h | h)
          · exact Or.inl h
          · exact Or.inr (Or.inr (Or.inr h))
          · exact Or.inr (Or.inl h)
          · exact Or.inr (Or.inr (Or.inl h))
      · rw [reuseList, if_neg hsp]
        simp only [List.mem_append, List.mem_cons, hsp, false_and, or_false]
        constructor
        · rintro (h | h | h)
          · exact Or.inl (Or.inl h)
          · exact Or.inr h
          · exact Or.inl (Or.inr h)
        · rintro ((h | h) | h)
          · exact Or.inl h
          · exact Or.inr (Or.inr h)
          · exact Or.inr (Or.inl h)
    subst hs1
    refine ⟨b, reuseList s.mem pre b post (alignUp n), hp1.symm, hwf1,
      (hmem b).mpr (Or.inr (Or.inl rfl)), f0, ?_, ?_, fun _ => hb.1, ?_, ?_, ?_⟩
    · show alignUp n ≤ getSize (reuseMem s.mem b (alignUp n)) b
      by_cases hsp : getSize s.mem b > uadd (alignUp n) BLOCK_SIZE
      · rw [(fs hsp).2.1]
      · rw [(fn hsp).2.1]; exact hb.2
    · intro x hx
      refine (hmem x).mpr ?_
      simp only [List.mem_append, List.mem_cons] at hx ⊢
      rcases hx with h | h | h
      · exact Or.inl (Or.inl h)
      · exact Or.inr (Or.inl h)
      · exact Or.inl (Or.inr h)
    · intro x hx hxb
      have hx2 : x ∈ pre ++ post := by
        simp only [List.mem_append, List.mem_cons] at hx ⊢
        rcases hx with h | h | h
        · exact Or.inl h
        · exact absurd h hxb
        · exact Or.inr h
      exact ⟨(hoth x hx2).1, (hoth x hx2).2.2⟩
    · intro y hy
      refine reuseMem_frame s.mem b (alignUp n) y ?_ ?_
      · have := hy b ((hmem b).mpr (Or.inr (Or.inl rfl))); omega
      · intro hsp
        have := hy _ ((hmem _).mpr (Or.inr (Or.inr ⟨hsp, rfl⟩))); omega
    · intro P hPa hPs hPl x hx
      show P (getSize (reuseMem s.mem b (alignUp n)) x)
      rcases (hmem x).mp hx with h | h | ⟨hsp, h⟩
      · rw [(hoth x h).1]
        exact hPl x (by
          simp only [List.mem_append, List.mem_cons] at h ⊢
          rcases h with h | h
          · exact Or.inl h
          · exact Or.inr (Or.inr h))
      · subst h
        by_cases hsp : getSize s.mem x > uadd (alignUp n) BLOCK_SIZE
        · rw [(fs hsp).2.1]; exact hPa
        · rw [(fn hsp).2.1]; exact hPl x (by simp)
      · subst h
        rw [(fs hsp).2.2.2.1]
        exact hPs _ (hPl b (by simp)) (fs hsp).1

/-! ## Release -/

/-- Setting the `free` flag of a block of a contiguous chain changes neither
the chain nor the layout. -/
theorem setFree_wf (m : Mem) (head : Nat) (pre : List Nat) (B : Nat) (post : List Nat)
    (e v : Nat) (hch : Chain m head (pre ++ B :: post))
    (hco : Contig m head (pre ++ B :: post) e) :
    Chain (setFree m B v) head (pre ++ B :: post) ∧
    Contig (setFree m B v) head (pre ++ B :: post) e := by
  have hsp := Contig_spaced hco
  obtain ⟨hpre, hpost, _⟩ := Spaced_split hsp
  unfold BLOCK_SIZE at hpre hpost
  have hfl : ∀ y, y < B + 16 ∨ B + 20 ≤ y → setFree m B v y = m y := by
    intro y hy
    rw [setFree, store_outside _ _ _ _ _ (by omega)]
  have hall : ∀ x ∈ pre ++ B :: post, getSize (setFree m B v) x = getSize m x ∧
      getNext (setFree m B v) x = getNext m x := by
    intro x hx
    have hx2 : x + 24 ≤ B ∨ x = B ∨ B + 24 ≤ x := by
      simp only [List.mem_append, List.mem_cons] at hx
      rcases hx with h0 | h0 | h0
      · exact Or.inl (hpre x h0)
      · exact Or.inr (Or.inl h0)
      · exact Or.inr (Or.inr (hpost x h0))
    exact ⟨load_congr (fun i hi => hfl _ (by omega)),
      load_congr (fun i hi => hfl _ (by omega))⟩
  exact ⟨Seg_congr (fun x hx => (hall x hx).2) hch, Contig_congr (fun x hx => (hall x hx).1) hco⟩

/-- What `free` of a live pointer leaves of a well-formed state: the chain
loses free blocks that directly followed the released block `B`, the state is
well formed, only the first 20 bytes of the header of `B` are written, and the
size of `B` is built from old sizes by `a + 24 + b`. -/
theorem free_wf (fuel : Nat) (s : State) (l : List Nat) (ptr : Nat) (s1 : State)
    (hwf : WF s l) (hlive : Live s l ptr) (h : free fuel s ptr = some s1) :
    ∃ pre post post1, l = pre ++ (ptr - BLOCK_SIZE) :: post ∧ post1 <:+ post ∧
      WF s1 (pre ++ (ptr - BLOCK_SIZE) :: post1) ∧
      getFree s1.mem (ptr - BLOCK_SIZE) ≠ 0 ∧
      (∀ x ∈ post, x ∉ post1 → getFree s.mem x ≠ 0) ∧
      (∀ y, y < ptr - BLOCK_SIZE ∨ ptr - BLOCK_SIZE + 20 ≤ y → s1.mem y = s.mem y) ∧
      (∀ P : Nat → Prop, (∀ a b, P a → P b → P (a + BLOCK_SIZE + b)) →
        (∀ x ∈ l, P (getSize s.mem x)) →
        ∀ x ∈ pre ++ (ptr - BLOCK_SIZE) :: post1, P (getSize s1.mem x)) := by
  obtain ⟨hp24, hBl, hBf⟩ := hlive
  have hptr : ptr ≠ 0 := by unfold BLOCK_SIZE at hp24; omega
  rw [free, if_neg hptr] at h
  simp only at h
  cases hmg : merge_free_blocks fuel (setFree s.mem (ptr - BLOCK_SIZE) 1) (ptr - BLOCK_SIZE) with
  | none => rw [hmg] at h; simp at h
  | some r =>
    rw [hmg] at h
    injection h with h
    subst h
    generalize ptr - BLOCK_SIZE = B at *
    obtain ⟨pre, post, rfl⟩ := List.append_of_mem hBl
    obtain ⟨hch, hco, h1, h2, h3, h4⟩ := hwf
    have hco := hco (by simp)
    have hbrk : s.brk < 2 ^ 64 := by unfold SIZE_T at h4; omega
    have hsp := Contig_spaced hco
    obtain ⟨hpre, hpost, _⟩ := Spaced_split hsp
    unfold BLOCK_SIZE at hpre hpost
    -- setting the flag changes neither sizes nor links
    have hfl : ∀ y, y < B + 16 ∨ B + 20 ≤ y → setFree s.mem B 1 y = s.mem y := by
      intro y hy
      rw [setFree, store_outside _ _ _ _ _ (by omega)]
    have hall : ∀ x ∈ pre ++ B :: post, getSize (setFree s.mem B 1) x = getSize s.mem x ∧
        getNext (setFree s.mem B 1) x = getNext s.mem x := by
      intro x hx
      have hx2 : x + 24 ≤ B ∨ x = B ∨ B + 24 ≤ x := by
        simp only [List.mem_append, List.mem_cons] at hx
        rcases hx with h0 | h0 | h0
        · exact Or.inl (hpre x h0)
        · exact Or.inr (Or.inl h0)
        · exact Or.inr (Or.inr (hpost x h0))
      exact ⟨load_congr (fun i hi => hfl _ (by omega)),
        load_congr (fun i hi => hfl _ (by omega))⟩
    have hch0 : Chain (setFree s.mem B 1) s.free_list (pre ++ B :: post) :=
      Seg_congr (fun x hx => (hall x hx).2) hch
    have hco0 : Contig (setFree s.mem B 1) s.free_list (pre ++ B :: post) s.brk :=
      Contig_congr (fun x hx => (hall x hx).1) hco
    obtain ⟨post1, g1, g2, g3, g4, g5⟩ :=
      merge_wf fuel _ s.free_list pre B post s.brk r hmg hch0 hco0 hbrk
    have hfr := merge_free_blocks_frame fuel _ B r hmg
    have hframe : ∀ y, y < B ∨ B + 20 ≤ y → r y = s.mem y := by
      intro y hy
      rw [hfr y (by omega)]
      exact hfl y (by omega)
    refine ⟨pre, post, post1, rfl, g1, ⟨g2, fun _ => g3, h1, h2, h3, h4⟩, ?_, ?_, hframe, ?_⟩
    · show getFree r B ≠ 0
      rw [merge_free_blocks_free fuel _ B r hmg, getFree_setFree]
      decide
    · intro x hx hx1
      have := g4 x hx hx1
      have hxB := hpost x hx
      rwa [show getFree (setFree s.mem B 1) x = getFree s.mem x from
        load_congr (fun i hi => hfl _ (by omega))] at this
    · intro P hP hPl x hx
      show P (getSize r x)
      have hcase : x ∈ pre ∨ x = B ∨ x ∈ post1 := by
        simp only [List.mem_append, List.mem_cons] at hx
        exact hx
      rcases hcase with h0 | h0 | h0
      · have := hpre x h0
        rw [show getSize r x = getSize s.mem x from
          load_congr (fun i hi => hframe _ (by omega))]
        exact hPl x (by simp [h0])
      · subst h0
        refine g5 P hP ?_
        intro y hy
        rw [(hall y (by
          simp only [List.mem_append, List.mem_cons] at hy ⊢
          rcases hy with h0 | h0
          · exact Or.inr (Or.inl h0)
          · exact Or.inr (Or.inr h0))).1]
        exact hPl y (by
          simp only [List.mem_append, List.mem_cons] at hy ⊢
          rcases hy with h0 | h0
          · exact Or.inr (Or.inl h0)
          · exact Or.inr (Or.inr h0))
      · have hx0 : x ∈ post := g1.subset h0
        have := hpost x hx0
        rw [show getSize r x = getSize s.mem x from
          load_congr (fun i hi => hframe _ (by omega))]
        exact hPl x (by simp [hx0])

/-- `free` on `NULL` or on a live pointer of a well-formed state returns when
it has fuel for the blocks of the chain. -/
theorem free_total (fuel : Nat) (s : State) (l : List Nat) (ptr : Nat) (hwf : WF s l)
    (hpre : ptr = 0 ∨ Live s l ptr) (hf : l.length < fuel) : ∃ s1, free fuel s ptr = some s1 := by
  rcases hpre with h0 | ⟨hp24, hBl, _⟩
  · rw [free, if_pos h0]; exact ⟨_, rfl⟩
  · have hptr : ptr ≠ 0 := by unfold BLOCK_SIZE at hp24; omega
    rw [free, if_neg hptr]
    generalize ptr - BLOCK_SIZE = B at *
    obtain ⟨pre, post, rfl⟩ := List.append_of_mem hBl
    obtain ⟨hch, hco, _, _, _, h4⟩ := hwf
    have hbrk : s.brk < 2 ^ 64 := by unfold SIZE_T at h4; omega
    obtain ⟨k1, k2⟩ := setFree_wf s.mem s.free_list pre B post s.brk 1 hch (hco (by simp))
    have hlen : (pre ++ B :: post).length = pre.length + (post.length + 1) := by simp
    obtain ⟨r, hr⟩ := merge_free_blocks_total fuel _ s.free_list pre B post s.brk k1 k2 hbrk
      (by omega)
    simp only [hr]
    exact ⟨_, rfl⟩

/-- `free` on `NULL` or a live pointer keeps a well-formed state well formed,
and every size is built from old sizes by `a + 24 + b`. -/
theorem free_step_wf (fuel : Nat) (s : State) (l : List Nat) (ptr : Nat) (s1 : State)
    (hwf : WF s l) (hpre : ptr = 0 ∨ Live s l ptr) (h : free fuel s ptr = some s1) :
    ∃ l1, WF s1 l1 ∧
      (∀ P : Nat → Prop, (∀ a b, P a → P b → P (a + BLOCK_SIZE + b)) →
        (∀ x ∈ l, P (getSize s.mem x)) → ∀ x ∈ l1, P (getSize s1.mem x)) := by
  rcases hpre with h0 | hlive
  · rw [free, if_pos h0] at h
    injection h with h
    subst h
    exact ⟨l, hwf, fun P _ hl => hl⟩
  · obtain ⟨pre, post, post1, _, _, hwf1, _, _, _, hP⟩ := free_wf fuel s l ptr s1 hwf hlive h
    exact ⟨_, hwf1, hP⟩

/-! ## Writes into payloads -/

/-- Writing inside the payload of a block of a well-formed chain changes no
header and keeps the state well formed. -/
theorem wf_payload_write (s : State) (l : List Nat) (b : Nat) (m1 : Mem) (hwf : WF s l)
    (hb : b ∈ l)
    (hfr : ∀ y, y < b + BLOCK_SIZE ∨ b + BLOCK_SIZE + getSize s.mem b ≤ y → m1 y = s.mem y) :
    WF { s with mem := m1 } l ∧
    ∀ x ∈ l, getSize m1 x = getSize s.mem x ∧ getNext m1 x = getNext s.mem x ∧
      getFree m1 x = getFree s.mem x := by
  obtain ⟨hch, hco, h1, h2, h3, h4⟩ := hwf
  obtain ⟨pre, post, rfl⟩ := List.append_of_mem hb
  have hco := hco (by simp)
  obtain ⟨_, hpre, hpost⟩ := Contig_block_bounds hco
  unfold BLOCK_SIZE at hpre hpost hfr
  have hall : ∀ x ∈ pre ++ b :: post, getSize m1 x = getSize s.mem x ∧
      getNext m1 x = getNext s.mem x ∧ getFree m1 x = getFree s.mem x := by
    intro x hx
    apply header_agree
    intro y hy1 hy2
    apply hfr
    simp only [List.mem_append, List.mem_cons] at hx
    rcases hx with h0 | h0 | h0
    · have := hpre x h0; omega
    · subst h0; omega
    · have := hpost x h0; omega
  exact ⟨⟨Seg_congr (fun x hx => (hall x hx).2.1) hch,
    fun _ => Contig_congr (fun x hx => (hall x hx).1) hco, h1, h2, h3, h4⟩, hall⟩

/-- Distinct blocks of a well-formed chain do not overlap. -/
theorem wf_disjoint {s : State} {l : List Nat} {B : Nat} (hwf : WF s l) (hB : B ∈ l) :
    ∀ x ∈ l, x ≠ B → x + BLOCK_SIZE + getSize s.mem x ≤ B ∨
      B + BLOCK_SIZE + getSize s.mem B ≤ x := by
  obtain ⟨pre, post, rfl⟩ := List.append_of_mem hB
  obtain ⟨_, hpre, hpost⟩ := Contig_block_bounds (hwf.2.1 (by simp))
  intro x hx hxB
  simp only [List.mem_append, List.mem_cons] at hx
  rcases hx with h0 | h0 | h0
  · exact Or.inl (hpre x h0)
  · exact absurd h0 hxB
  · exact Or.inr (hpost x h0)

/-- A client write into a live payload changes no header. -/
theorem write_step_wf (s : State) (l : List Nat) (p i v : Nat) (hwf : WF s l)
    (hlive : Live s l p) (hi : i < getSize s.mem (p - BLOCK_SIZE)) :
    WF { s with mem := store s.mem (p + i) 1 v } l ∧
    ∀ x ∈ l, getSize (store s.mem (p + i) 1 v) x = getSize s.mem x := by
  obtain ⟨hp24, hBl, _⟩ := hlive
  obtain ⟨hwf2, hsame⟩ := wf_payload_write s l (p - BLOCK_SIZE) (store s.mem (p + i) 1 v)
    hwf hBl (by
      intro y hy
      rw [store_outside _ _ _ _ _ (by omega)])
  exact ⟨hwf2, fun x hx => (hsame x hx).1⟩

/-! ## Zero-allocation and resizing -/

/-- `calloc` for at most `2 ^ 63 - 40` bytes keeps a well-formed state well
formed, and every size is an old size, the rounded size `a`, or an old size
minus `a + 24`. -/
theorem calloc_wf (fuel : Nat) (s : State) (num size : Nat) (l : List Nat) (p : Nat)
    (s1 : State) (hwf : WF s l) (hsz : num * size ≤ 2 ^ 63 - 40)
    (h : calloc fuel s num size = some (p, s1)) :
    ∃ l1, WF s1 l1 ∧
      (∀ P : Nat → Prop, P (alignUp (num * size)) →
        (∀ t, P t → alignUp (num * size) + BLOCK_SIZE < t →
          P (t - alignUp (num * size) - BLOCK_SIZE)) →
        (∀ x ∈ l, P (getSize s.mem x)) → ∀ x ∈ l1, P (getSize s1.mem x)) := by
  obtain ⟨a1, a2, a3⟩ := alignUp_small (num * size) hsz
  have hu : umul num size = num * size := by
    unfold umul SIZE_T; exact Nat.mod_eq_of_lt (by omega)
  cases hmm : malloc fuel s (umul num size) with
  | none => simp only [calloc, hmm] at h; simp at h
  | some r =>
    obtain ⟨q, sA⟩ := r
    simp only [calloc, hmm] at h
    rw [hu] at hmm
    rcases malloc_wf fuel s _ l q sA hwf a1 hmm with
      ⟨hq, e⟩ | ⟨b, l1, hq, hwf1, hb, _, hge, _, _, _, _, hP⟩
    · rw [if_neg (by simpa using hq)] at h
      injection h with h; injection h with _ e2
      subst e e2
      exact ⟨l, hwf, fun P _ _ hl => hl⟩
    · have hq0 : q ≠ 0 := by unfold BLOCK_SIZE at hq; omega
      rw [if_pos hq0] at h
      injection h with h; injection h with _ e2
      subst e2
      obtain ⟨hwf2, hsame⟩ := wf_payload_write sA l1 b (memset sA.mem q 0 (umul num size))
        hwf1 hb (by
          intro y hy
          unfold memset
          rw [if_neg]
          rw [hu]
          omega)
      refine ⟨l1, hwf2, ?_⟩
      intro P h1 h2 h3 x hx
      show P (getSize (memset sA.mem q 0 (umul num size)) x)
      rw [(hsame x hx).1]
      exact hP P h1 h2 h3 x hx

/-- `realloc` to at most `2 ^ 63 - 40` bytes, called on `NULL` or on a live
pointer, keeps a well-formed state well formed. -/
theorem realloc_wf (fuel : Nat) (s : State) (ptr newSize : Nat) (l : List Nat) (p : Nat)
    (s1 : State) (hwf : WF s l) (hpre : ptr = 0 ∨ Live s l ptr)
    (hsz : newSize ≤ 2 ^ 63 - 40) (h : realloc fuel s ptr newSize = some (p, s1)) :
    ∃ l1, WF s1 l1 := by
  obtain ⟨a1, a2, a3⟩ := alignUp_small newSize hsz
  rcases hpre with h0 | hlive
  · rw [realloc, if_pos h0] at h
    rcases malloc_wf fuel s newSize l p s1 hwf a1 h with ⟨_, e⟩ | ⟨b, l1, _, hwf1, _⟩
    · subst e; exact ⟨l, hwf⟩
    · exact ⟨l1, hwf1⟩
  · have hlive0 := hlive
    obtain ⟨hp24, hBl, hBf⟩ := hlive
    have hptr : ptr ≠ 0 := by unfold BLOCK_SIZE at hp24; omega
    rw [realloc, if_neg hptr] at h
    by_cases hge : getSize s.mem (ptr - BLOCK_SIZE) ≥ newSize
    · simp only [if_pos hge] at h
      by_cases hsp : getSize s.mem (ptr - BLOCK_SIZE) ≥ uadd (uadd newSize BLOCK_SIZE) ALIGNMENT
      · rw [if_pos hsp] at h
        cases hmg : merge_free_blocks fuel (split_block s.mem (ptr - BLOCK_SIZE) newSize)
            (ptr - BLOCK_SIZE + BLOCK_SIZE + newSize) with
        | none => rw [hmg] at h; simp at h
        | some r =>
          rw [hmg] at h
          injection h with h; injection h with _ h2
          subst h2
          generalize ptr - BLOCK_SIZE = B at *
          obtain ⟨pre, post, rfl⟩ := List.append_of_mem hBl
          obtain ⟨hch, hco, h1, h2, h3, h4⟩ := hwf
          have hco := hco (by simp)
          have hbrk : s.brk < 2 ^ 64 := by unfold SIZE_T at h4; omega
          have hu : uadd (uadd newSize BLOCK_SIZE) ALIGNMENT = newSize + 40 := by
            unfold BLOCK_SIZE ALIGNMENT
            rw [uadd_eq newSize 24 (by omega), uadd_eq _ 16 (by omega)]
          rw [hu] at hsp
          obtain ⟨k1, k2, _⟩ := split_wf s.mem s.free_list pre B post newSize s.brk hch hco
            hbrk (by unfold BLOCK_SIZE; omega)
          have el : pre ++ B :: (B + BLOCK_SIZE + newSize) :: post
              = (pre ++ [B]) ++ (B + BLOCK_SIZE + newSize) :: post := by simp
          rw [el] at k1 k2
          obtain ⟨post1, _, g2, g3, _, _⟩ := merge_wf fuel _ s.free_list (pre ++ [B])
            (B + BLOCK_SIZE + newSize) post s.brk r hmg k1 k2 hbrk
          exact ⟨_, ⟨g2, fun _ => g3, h1, h2, h3, h4⟩⟩
      · rw [if_neg hsp] at h
        injection h with h; injection h with _ h2
        subst h2
        exact ⟨l, hwf⟩
    · simp only [if_neg hge] at h
      cases hm : malloc fuel s newSize with
      | none => rw [hm] at h; simp at h
      | some r0 =>
        obtain ⟨q, sA⟩ := r0
        rw [hm] at h
        simp only at h
        rcases malloc_wf fuel s newSize l q sA hwf a1 hm with
          ⟨hq, e⟩ | ⟨b, l1, hq, hwf1, hb, _, hbge, hsub, hnew, hsame, _, _⟩
        · rw [if_neg (by simpa using hq)] at h
          injection h with h; injection h with _ h2
          subst e h2
          exact ⟨l, hwf⟩
        · have hq0 : q ≠ 0 := by unfold BLOCK_SIZE at hq; omega
          rw [if_pos hq0] at h
          cases hf : free fuel
              { sA with mem := memcpy sA.mem q ptr (getSize sA.mem (ptr - BLOCK_SIZE)) } ptr with
          | none => rw [hf] at h; simp at h
          | some s2 =>
            rw [hf] at h
            injection h with h; injection h with _ h2
            subst h2
            have hBb : ptr - BLOCK_SIZE ≠ b := by
              intro h0
              exact hnew (h0 ▸ hBl) (h0 ▸ hBf)
            obtain ⟨hsB, hfB⟩ := hsame _ hBl hBb
            obtain ⟨hwf2, hsame2⟩ := wf_payload_write sA l1 b
              (memcpy sA.mem q ptr (getSize sA.mem (ptr - BLOCK_SIZE))) hwf1 hb (by
                intro y hy
                unfold memcpy
                rw [if_neg]
                rw [hsB]
                omega)
            have hlive2 : Live
                { sA with mem := memcpy sA.mem q ptr (getSize sA.mem (ptr - BLOCK_SIZE)) }
                l1 ptr := by
              refine ⟨hp24, hsub _ hBl, ?_⟩
              show getFree (memcpy sA.mem q ptr (getSize sA.mem (ptr - BLOCK_SIZE)))
                (ptr - BLOCK_SIZE) = 0
              rw [(hsame2 _ (hsub _ hBl)).2.2, hfB]
              exact hBf
            obtain ⟨pre, post, post1, _, _, hwf3, _⟩ := free_wf fuel _ l1 ptr s2 hwf2 hlive2 hf
            exact ⟨_, hwf3⟩

/-- An in-place `realloc` that splits, on a live pointer of a well-formed
state, returns the pointer it was given when it has fuel for the blocks of the
chain. -/
theorem realloc_split_total (fuel : Nat) (s : State) (l : List Nat) (ptr newSize : Nat)
    (hwf : WF s l) (hlive : Live s l ptr) (hsz : newSize ≤ 2 ^ 63 - 40)
    (hge : getSize s.mem (ptr - BLOCK_SIZE) ≥ newSize)
    (hsp : getSize s.mem (ptr - BLOCK_SIZE) ≥ uadd (uadd newSize BLOCK_SIZE) ALIGNMENT)
    (hf : l.length < fuel) : ∃ s1, realloc fuel s ptr newSize = some (ptr, s1) := by
  obtain ⟨hp24, hBl, _⟩ := hlive
  have hptr : ptr ≠ 0 := by unfold BLOCK_SIZE at hp24; omega
  rw [realloc, if_neg hptr]
  simp only [if_pos hge, if_pos hsp]
  generalize ptr - BLOCK_SIZE = B at *
  obtain ⟨pre, post, rfl⟩ := List.append_of_mem hBl
  obtain ⟨hch, hco, _, _, _, h4⟩ := hwf
  have hbrk : s.brk < 2 ^ 64 := by unfold SIZE_T at h4; omega
  have hu : uadd (uadd newSize BLOCK_SIZE) ALIGNMENT = newSize + 40 := by
    unfold BLOCK_SIZE ALIGNMENT
    rw [uadd_eq newSize 24 (by omega), uadd_eq _ 16 (by omega)]
  rw [hu] at hsp
  obtain ⟨k1, k2, _⟩ := split_wf s.mem s.free_list pre B post newSize s.brk hch (hco (by simp))
    hbrk (by unfold BLOCK_SIZE; omega)
  have el : pre ++ B :: (B + BLOCK_SIZE + newSize) :: post
      = (pre ++ [B]) ++ (B + BLOCK_SIZE + newSize) :: post := by simp
  rw [el] at k1 k2
  have hlen : (pre ++ B :: post).length = pre.length + (post.length + 1) := by simp
  obtain ⟨r, hr⟩ := merge_free_blocks_total fuel _ s.free_list (pre ++ [B])
    (B + BLOCK_SIZE + newSize) post s.brk k1 k2 hbrk (by omega)
  rw [hr]
  exact ⟨_, rfl⟩

/-- For requests of at most `2 ^ 63 - 40` bytes `realloc` preserves the data:
the first `min S newSize` bytes behind the returned pointer are the bytes that
the old payload held. -/
theorem realloc_preserves_data (fuel : Nat) (s : State) (l : List Nat)
    (ptr newSize S q : Nat) (s1 : State) (hwf : WF s l) (hlive : Live s l ptr)
    (hS : S ≤ getSize s.mem (ptr - BLOCK_SIZE)) (hsz : newSize ≤ 2 ^ 63 - 40)
    (h : realloc fuel s ptr newSize = some (q, s1)) (hq : q ≠ 0) :
    ∀ i, i < min S newSize → s1.mem (q + i) = s.mem (ptr + i) := by
  obtain ⟨a1, a2, a3⟩ := alignUp_small newSize hsz
  obtain ⟨hp24, hBl, hBf⟩ := hlive
  have hptr : ptr ≠ 0 := by unfold BLOCK_SIZE at hp24; omega
  intro i hi
  rw [realloc, if_neg hptr] at h
  by_cases hge : getSize s.mem (ptr - BLOCK_SIZE) ≥ newSize
  · simp only [if_pos hge] at h
    by_cases hsp : getSize s.mem (ptr - BLOCK_SIZE) ≥ uadd (uadd newSize BLOCK_SIZE) ALIGNMENT
    · rw [if_pos hsp] at h
      cases hmg : merge_free_blocks fuel (split_block s.mem (ptr - BLOCK_SIZE) newSize)
          (ptr - BLOCK_SIZE + BLOCK_SIZE + newSize) with
      | none => rw [hmg] at h; simp at h
      | some r =>
        rw [hmg] at h
        injection h with h; injection h with h1 h2
        subst h1 h2
        have hfr := merge_free_blocks_frame fuel _ _ r hmg
        show r (ptr + i) = s.mem (ptr + i)
        unfold BLOCK_SIZE at hfr hp24
        rw [hfr _ (by omega)]
        exact split_block_frame s.mem _ newSize _ (by omega)
          (by unfold BLOCK_SIZE; omega)
    · rw [if_neg hsp] at h
      injection h with h; injection h with h1 h2
      subst h1 h2
      rfl
  · simp only [if_neg hge] at h
    cases hm : malloc fuel s newSize with
    | none => rw [hm] at h; simp at h
    | some r0 =>
      obtain ⟨q0, sA⟩ := r0
      rw [hm] at h
      simp only at h
      rcases malloc_wf fuel s newSize l q0 sA hwf a1 hm with
        ⟨hq0, e⟩ | ⟨b, l1, hqb, hwf1, hb, _, hbge, hsub, hnew, hsame, hframe, _⟩
      · rw [if_neg (by simpa using hq0)] at h
        injection h with h; injection h with h1 _
        exact absurd (h1 ▸ hq0) hq
      · have hq00 : q0 ≠ 0 := by unfold BLOCK_SIZE at hqb; omega
        rw [if_pos hq00] at h
        cases hf : free fuel
            { sA with mem := memcpy sA.mem q0 ptr (getSize sA.mem (ptr - BLOCK_SIZE)) } ptr with
        | none => rw [hf] at h; simp at h
        | some s2 =>
          rw [hf] at h
          injection h with h; injection h with h1 h2
          subst h1 h2
          have hBb : ptr - BLOCK_SIZE ≠ b := by
            intro h0
            exact hnew (h0 ▸ hBl) (h0 ▸ hBf)
          obtain ⟨hsB, hfB⟩ := hsame _ hBl hBb
          have hBl1 := hsub _ hBl
          have hdis := wf_disjoint hwf1 hBl1 b hb (fun h0 => hBb h0.symm)
          obtain ⟨hwf2, hsame2⟩ := wf_payload_write sA l1 b
            (memcpy sA.mem q0 ptr (getSize sA.mem (ptr - BLOCK_SIZE))) hwf1 hb (by
              intro y hy
              unfold memcpy
              rw [if_neg]
              rw [hsB]
              omega)
          have hlive2 : Live
              { sA with mem := memcpy sA.mem q0 ptr (getSize sA.mem (ptr - BLOCK_SIZE)) }
              l1 ptr := by
            refine ⟨hp24, hBl1, ?_⟩
            show getFree (memcpy sA.mem q0 ptr (getSize sA.mem (ptr - BLOCK_SIZE)))
              (ptr - BLOCK_SIZE) = 0
            rw [(hsame2 _ hBl1).2.2, hfB]
            exact hBf
          obtain ⟨pre, post, post1, _, _, _, _, _, hfr, _⟩ :=
            free_wf fuel _ l1 ptr s2 hwf2 hlive2 hf
          have hfr2 : s2.mem (q0 + i)
              = memcpy sA.mem q0 ptr (getSize sA.mem (ptr - BLOCK_SIZE)) (q0 + i) := by
            apply hfr
            unfold BLOCK_SIZE at *
            omega
          rw [hfr2]
          unfold memcpy
          rw [if_pos (by rw [hsB]; omega)]
          have e : ptr + (q0 + i - q0) = ptr + i := by omega
          rw [e]
          apply hframe
          intro x hx
          by_cases hxB : x = ptr - BLOCK_SIZE
          · subst hxB
            unfold BLOCK_SIZE at *
            omega
          · have := wf_disjoint hwf1 hBl1 x hx hxB
            rw [hsB] at this
            unfold BLOCK_SIZE at *
            omega

/-! ## Pointers to live blocks -/

theorem designates_of_mem {s : State} {l : List Nat} {b : Nat}
    (hc : Chain s.mem s.free_list l) (hb : b ∈ l) (hf : getFree s.mem b = 0) :
    Designates s (b + BLOCK_SIZE) := by
  obtain ⟨pre, post, rfl⟩ := List.append_of_mem hb
  obtain ⟨c, h1, h2, h3, _⟩ := Seg_append.mp hc
  subst h2
  exact ⟨c, pre, rfl, h3, h1, hf⟩

theorem malloc_designates (fuel : Nat) (s : State) (l : List Nat) (n p : Nat) (s1 : State)
    (hwf : WF s l) (h : malloc fuel s n = some (p, s1)) (hp : p ≠ 0) : Designates s1 p := by
  obtain ⟨b, l1, e, _, hc, _, hb, hf, _⟩ := malloc_post fuel s n l p s1 hwf h hp
  rw [e]
  exact designates_of_mem hc hb hf

theorem calloc_designates (fuel : Nat) (s : State) (l : List Nat) (num size p : Nat)
    (s1 : State) (hwf : WF s l) (h : calloc fuel s num size = some (p, s1)) (hp : p ≠ 0) :
    Designates s1 p := by
  cases hm : malloc fuel s (umul num size) with
  | none => simp only [calloc, hm] at h; simp at h
  | some r =>
    obtain ⟨q, sA⟩ := r
    simp only [calloc, hm] at h
    by_cases hq : q = 0
    · rw [if_neg (by simpa using hq)] at h
      injection h with h; injection h with h _
      exact absurd (h ▸ hq) hp
    · rw [if_pos hq] at h
      injection h with h; injection h with h1 h2
      subst h1 h2
      obtain ⟨b, l1, e, hb0, hc, hsp, hb, hf, _⟩ := malloc_post fuel s _ l q sA hwf hm hq
      obtain ⟨pre, post, rfl⟩ := List.append_of_mem hb
      obtain ⟨c, h1, h2, h3, _⟩ := Seg_append.mp hc
      subst h2
      obtain ⟨hpre, _, _⟩ := Spaced_split hsp
      have hagree : ∀ y, y < c + 24 → memset sA.mem q 0 (umul num size) y = sA.mem y := by
        intro y hy
        unfold memset
        rw [if_neg]
        unfold BLOCK_SIZE at e
        omega
      obtain ⟨g1, g2⟩ := path_agree hagree hpre h1
      exact ⟨c, pre, e, hb0, g1, by rw [g2]; exact hf⟩

theorem realloc_move_designates (fuel : Nat) (s : State) (l : List Nat) (ptr newSize p : Nat)
    (s1 : State) (hwf : WF s l) (hlive : Live s l ptr)
    (hlt : getSize s.mem (ptr - BLOCK_SIZE) < newSize)
    (h : realloc fuel s ptr newSize = some (p, s1)) (hp : p ≠ 0) : Designates s1 p := by
  obtain ⟨hp24, hBl, hBf⟩ := hlive
  have hptr : ptr ≠ 0 := by unfold BLOCK_SIZE at hp24; omega
  rw [realloc, if_neg hptr] at h
  simp only [if_neg (Nat.not_le.mpr hlt)] at h
  cases hm : malloc fuel s newSize with
  | none => rw [hm] at h; simp at h
  | some r0 =>
    obtain ⟨q, sA⟩ := r0
    rw [hm] at h
    simp only at h
    by_cases hq : q = 0
    · rw [if_neg (by simpa using hq)] at h
      injection h with h; injection h with h _
      exact absurd (h ▸ hq) hp
    · rw [if_pos hq] at h
      rw [free, if_neg hptr] at h
      simp only at h
      cases hmg : merge_free_blocks fuel
          (setFree (memcpy sA.mem q ptr (getSize sA.mem (ptr - BLOCK_SIZE))) (ptr - BLOCK_SIZE) 1)
          (ptr - BLOCK_SIZE) with
      | none => rw [hmg] at h; simp at h
      | some r =>
        rw [hmg] at h
        injection h with h; injection h with h1 h2
        subst h1 h2
        obtain ⟨b, l1, e, hb0, hc, hsp, hb, hf, hsub, hnew, _⟩ :=
          malloc_post fuel s _ l q sA hwf hm hq
        have hBb : ptr - BLOCK_SIZE ≠ b := by
          intro h0
          exact hnew (h0 ▸ hBl) (h0 ▸ hBf)
        have hBl1 := hsub _ hBl
        generalize ptr - BLOCK_SIZE = B at *
        generalize getSize sA.mem B = sz at *
        obtain ⟨pre, post, rfl⟩ := List.append_of_mem hb
        obtain ⟨c, h1, h2, h3, _⟩ := Seg_append.mp hc
        subst h2
        obtain ⟨hpre, hpost, hpp⟩ := Spaced_split hsp
        unfold BLOCK_SIZE at e hpre hpost hpp
        have hfr := merge_free_blocks_frame fuel _ B r hmg
        have hcopy : ∀ y, y < c + 24 → memcpy sA.mem q ptr sz y = sA.mem y := by
          intro y hy
          unfold memcpy
          rw [if_neg]
          omega
        rcases List.mem_append.mp hBl1 with hin | hin
        · -- the old block lies before the new one
          obtain ⟨p1, p2, rfl⟩ := List.append_of_mem hin
          obtain ⟨B1, k1, k2, k3, k4⟩ := Seg_append.mp h1
          subst k2
          have hsp1 : Spaced (p1 ++ B1 :: p2) := (List.pairwise_append.mp hsp).1
          obtain ⟨hp1, hp2, _⟩ := Spaced_split hsp1
          unfold BLOCK_SIZE at hp1 hp2
          have hBc : B1 + 24 ≤ c := hpre B1 (by simp)
          have hm3 : ∀ y, y < c + 24 → (y < B1 + 16 ∨ B1 + 20 ≤ y) →
              setFree (memcpy sA.mem q ptr sz) B1 1 y = sA.mem y := by
            intro y hy1 hy2
            rw [setFree, store_outside _ _ _ _ _ (by omega)]
            exact hcopy y hy1
          have hnextB : getNext (setFree (memcpy sA.mem q ptr sz) B1 1) B1 = getNext sA.mem B1 :=
            load_congr (fun i hi => hm3 _ (by omega) (by omega))
          have hseg2 : Seg (setFree (memcpy sA.mem q ptr sz) B1 1)
              (getNext (setFree (memcpy sA.mem q ptr sz) B1 1) B1) p2 c := by
            rw [hnextB]
            refine Seg_agree ?_ k4
            intro x hx y hy1 hy2
            have := hp2 x hx
            have := hpre x (by simp [hx])
            exact hm3 y (by omega) (by omega)
          have hfc : getFree (setFree (memcpy sA.mem q ptr sz) B1 1) c = 0 := by
            rw [← hf]
            exact load_congr (fun i hi => hm3 _ (by omega) (by omega))
          obtain ⟨q2, hq2⟩ := merge_keeps_path fuel _ B1 p2 c r hmg hseg2 hfc
            (fun x hx => by have := hp2 x hx; unfold BLOCK_SIZE; omega)
            (by unfold BLOCK_SIZE; omega)
          have hseg1 : Seg r sA.free_list p1 B1 := by
            refine Seg_agree ?_ k1
            intro x hx y hy1 hy2
            have := hp1 x hx
            rw [hfr y (by omega)]
            exact hm3 y (by omega) (by omega)
          have hfc2 : getFree r c = 0 := by
            rw [← hfc]
            exact load_congr (fun i hi => hfr _ (by omega))
          exact ⟨c, p1 ++ B1 :: q2, e, hb0, Seg_append.mpr ⟨B1, hseg1, rfl, k3, hq2⟩, hfc2⟩
        · -- the old block lies behind the new one
          have hin2 : B ∈ post := by
            rcases List.mem_cons.mp hin with h0 | h0
            · exact absurd h0 hBb
            · exact h0
          have hcB := hpost B hin2
          have hagree : ∀ y, y < c + 24 → r y = sA.mem y := by
            intro y hy
            rw [hfr y (by omega), setFree, store_outside _ _ _ _ _ (by omega)]
            exact hcopy y hy
          obtain ⟨g1, g2⟩ := path_agree hagree (fun x hx => by
            have := hpre x hx; unfold BLOCK_SIZE; omega) h1
          exact ⟨c, pre, e, hb0, g1, by rw [g2]; exact hf⟩

theorem realloc_in_place_designates (fuel : Nat) (s : State) (l : List Nat)
    (ptr newSize p : Nat) (s1 : State) (hwf : WF s l) (hlive : Live s l ptr)
    (hge : getSize s.mem (ptr - BLOCK_SIZE) ≥ newSize)
    (h : realloc fuel s ptr newSize = some (p, s1)) : Designates s1 p := by
  obtain ⟨hp24, hBl, hBf⟩ := hlive
  have hptr : ptr ≠ 0 := by unfold BLOCK_SIZE at hp24; omega
  have hpe : ptr = ptr - BLOCK_SIZE + BLOCK_SIZE := by omega
  rw [realloc, if_neg hptr] at h
  simp only [if_pos hge] at h
  by_cases hsp : getSize s.mem (ptr - BLOCK_SIZE) ≥ uadd (uadd newSize BLOCK_SIZE) ALIGNMENT
  · rw [if_pos hsp] at h
    cases hmg : merge_free_blocks fuel (split_block s.mem (ptr - BLOCK_SIZE) newSize)
        (ptr - BLOCK_SIZE + BLOCK_SIZE + newSize) with
    | none => rw [hmg] at h; simp at h
    | some r =>
      rw [hmg] at h
      injection h with h; injection h with h1 h2
      subst h1 h2
      have hfr := merge_free_blocks_frame fuel _ _ r hmg
      generalize ptr - BLOCK_SIZE = B at *
      obtain ⟨pre, post, rfl⟩ := List.append_of_mem hBl
      obtain ⟨c, k1, k2, k3, _⟩ := Seg_append.mp hwf.1
      subst k2
      have hsp := Contig_spaced (hwf.2.1 (by simp))
      obtain ⟨hpre, _, _⟩ := Spaced_split hsp
      unfold BLOCK_SIZE at hpre hfr
      have hagree : ∀ y, y < c + 24 → (y < c ∨ c + 16 ≤ y) → r y = s.mem y := by
        intro y hy1 hy2
        rw [hfr y (by omega)]
        exact split_block_frame s.mem c newSize y hy2 (by unfold BLOCK_SIZE; omega)
      have hseg : Seg r s.free_list pre c := by
        refine Seg_agree ?_ k1
        intro x hx y hy1 hy2
        have := hpre x hx
        exact hagree y (by omega) (by omega)
      have hfree : getFree r c = 0 := by
        rw [← hBf]
        exact load_congr (fun i hi => hagree _ (by omega) (by omega))
      exact ⟨c, pre, hpe, k3, hseg, hfree⟩
  · rw [if_neg hsp] at h
    injection h with h; injection h with h1 h2
    subst h1 h2
    rw [hpe]
    exact designates_of_mem hwf.1 hBl hBf

/-! ## Invariants of reachable states -/

/-- Every state reached by calls for at most `2 ^ 63 - 40` bytes is well formed. -/
theorem reachable_wf (resize : Bool) (s : State) (h : ReachableInRange resize s) :
    ∃ l, WF s l := by
  induction h with
  | empty b limit h1 h2 h3 =>
    exact ⟨[], ⟨rfl, fun h => absurd rfl h, h1, le_refl _, h2, h3⟩⟩
  | @by_malloc s s1 fuel size p _ hsz hm ih =>
    obtain ⟨l, hwf⟩ := ih
    rcases malloc_wf fuel s size l p s1 hwf (alignUp_small size hsz).1 hm with
      ⟨_, e⟩ | ⟨b, l1, _, hwf1, _⟩
    · subst e; exact ⟨l, hwf⟩
    · exact ⟨l1, hwf1⟩
  | @by_calloc s s1 fuel num size p _ hsz hm ih =>
    obtain ⟨l, hwf⟩ := ih
    obtain ⟨l1, hwf1, _⟩ := calloc_wf fuel s num size l p s1 hwf hsz hm
    exact ⟨l1, hwf1⟩
  | @by_realloc s s1 fuel l0 ptr newSize p _ _ hc hpre hsz hr ih =>
    obtain ⟨l, hwf⟩ := ih
    have e := Chain_unique hc hwf.1
    subst e
    exact realloc_wf fuel s ptr newSize l0 p s1 hwf hpre hsz hr
  | @by_free s s1 fuel l0 ptr _ hc hpre hf ih =>
    obtain ⟨l, hwf⟩ := ih
    have e := Chain_unique hc hwf.1
    subst e
    obtain ⟨l1, hwf1, _⟩ := free_step_wf fuel s l0 ptr s1 hwf hpre hf
    exact ⟨l1, hwf1⟩
  | @by_write s l0 p i v _ hc hlive hi ih =>
    obtain ⟨l, hwf⟩ := ih
    have e := Chain_unique hc hwf.1
    subst e
    exact ⟨l0, (write_step_wf s l0 p i v hwf hlive hi).1⟩

/-- In a state reached without `realloc`, the chain is well formed and every
size in it is positive and a multiple of 8. -/
theorem reachable_sizes (s : State) (h : ReachableInRange false s) :
    ∃ l, WF s l ∧ ∀ x ∈ l, 0 < getSize s.mem x ∧ getSize s.mem x % 8 = 0 := by
  induction h with
  | empty b limit h1 h2 h3 =>
    exact ⟨[], ⟨rfl, fun h => absurd rfl h, h1, le_refl _, h2, h3⟩, fun x hx => by cases hx⟩
  | @by_malloc s s1 fuel size p _ hsz hm ih =>
    obtain ⟨l, hwf, hs⟩ := ih
    obtain ⟨a1, a2, a3⟩ := alignUp_small size hsz
    rcases malloc_wf fuel s size l p s1 hwf a1 hm with
      ⟨_, e⟩ | ⟨b, l1, _, hwf1, _, _, _, _, _, _, _, hP⟩
    · subst e; exact ⟨l, hwf, hs⟩
    · by_cases h0 : size = 0
      · rw [malloc, if_pos h0] at hm
        injection hm with hm; injection hm with _ e
        subst e; exact ⟨l, hwf, hs⟩
      · refine ⟨l1, hwf1, hP (fun t => 0 < t ∧ t % 8 = 0) ⟨by omega, by omega⟩ ?_ hs⟩
        intro t ht hlt
        unfold BLOCK_SIZE at hlt ⊢
        omega
  | @by_calloc s s1 fuel num size p _ hsz hm ih =>
    obtain ⟨l, hwf, hs⟩ := ih
    obtain ⟨a1, a2, a3⟩ := alignUp_small (num * size) hsz
    obtain ⟨l1, hwf1, hP⟩ := calloc_wf fuel s num size l p s1 hwf hsz hm
    by_cases h0 : num * size = 0
    · have hu : umul num size = 0 := by
        unfold umul; rw [h0]; rfl
      simp only [calloc, hu, malloc, if_true] at hm
      injection hm with hm; injection hm with _ e
      subst e; exact ⟨l, hwf, hs⟩
    · refine ⟨l1, hwf1, hP (fun t => 0 < t ∧ t % 8 = 0) ⟨by omega, by omega⟩ ?_ hs⟩
      intro t ht hlt
      unfold BLOCK_SIZE at hlt ⊢
      omega
  | @by_realloc s s1 fuel l0 ptr newSize p hres _ _ _ _ _ _ =>
    exact absurd hres (by decide)
  | @by_free s s1 fuel l0 ptr _ hc hpre hf ih =>
    obtain ⟨l, hwf, hs⟩ := ih
    have e := Chain_unique hc hwf.1
    subst e
    obtain ⟨l1, hwf1, hP⟩ := free_step_wf fuel s l0 ptr s1 hwf hpre hf
    refine ⟨l1, hwf1, hP (fun t => 0 < t ∧ t % 8 = 0) ?_ hs⟩
    intro a b ha hb
    unfold BLOCK_SIZE
    omega
  | @by_write s l0 p i v _ hc hlive hi ih =>
    obtain ⟨l, hwf, hs⟩ := ih
    have e := Chain_unique hc hwf.1
    subst e
    obtain ⟨hwf2, hsame⟩ := write_step_wf s l0 p i v hwf hlive hi
    refine ⟨l0, hwf2, ?_⟩
    intro x hx
    show 0 < getSize (store s.mem (p + i) 1 v) x ∧ getSize (store s.mem (p + i) 1 v) x % 8 = 0
    rw [hsame x hx]
    exact hs x hx

/-- In every state reached by calls for at most `2 ^ 63 - 40` bytes the chain
is finite, its blocks lie one behind the other up to the break (the successor
of a block starts where its payload ends, the payload of the last block ends
at the break), and the header addresses increase along the chain. -/
theorem reachable_contiguous (s : State) (h : ReachableInRange true s) :
    ∃ l, Chain s.mem s.free_list l ∧ (l ≠ [] → Contig s.mem s.free_list l s.brk) ∧
      l.Pairwise (fun x y => x < y) := by
  obtain ⟨l, hwf⟩ := reachable_wf true s h
  refine ⟨l, hwf.1, hwf.2.1, ?_⟩
  cases l with
  | nil => exact List.Pairwise.nil
  | cons x t =>
    have hsp := Contig_spaced (hwf.2.1 (by simp))
    exact List.Pairwise.imp (fun h => by unfold BLOCK_SIZE at h; omega) hsp

/-! ## A second run of the loop -/

/-- Running the loop of `merge_free_blocks` again on its own result returns
that result unchanged. -/
theorem merge_free_blocks_again (fuel : Nat) (m : Mem) (b : Nat) (r : Mem)
    (h : merge_free_blocks fuel m b = some r) : merge_free_blocks fuel r b = some r := by
  have hpost := merge_free_blocks_post fuel m b r h
  cases fuel with
  | zero => simp [merge_free_blocks] at h
  | succ f =>
    have hc : ¬ (getNext r b ≠ 0 ∧ getFree r (getNext r b) ≠ 0) := by
      rintro ⟨h1, h2⟩
      rcases hpost with h0 | h0
      · exact h1 h0
      · exact h2 h0
    rw [merge_free_blocks, if_neg hc]

/-- The loop of `merge_free_blocks` at `B` returns on every finite chain behind
`B` whose headers do not overlap the header of `B`, when it has fuel for the
blocks of that chain. -/
theorem merge_free_blocks_returns :
    ∀ (fuel : Nat) (m : Mem) (B : Nat) (post : List Nat),
      Seg m (getNext m B) post 0 → (∀ x ∈ post, x + BLOCK_SIZE ≤ B ∨ B + BLOCK_SIZE ≤ x) →
      post.length < fuel → ∃ r, merge_free_blocks fuel m B = some r := by
  intro fuel
  induction fuel with
  | zero => intro m B post _ _ h; exact absurd h (Nat.not_lt_zero _)
  | succ f ih =>
    intro m B post hs hsep hf
    by_cases hc : getNext m B ≠ 0 ∧ getFree m (getNext m B) ≠ 0
    · rw [merge_free_blocks, if_pos hc]
      cases post with
      | nil => exact absurd hs hc.1
      | cons n rest =>
        obtain ⟨e, hn0, hrest⟩ := hs
        have hnB := hsep n (List.mem_cons_self _ _)
        unfold BLOCK_SIZE at hnB hsep
        have hlt := getNext_lt m n
        have e1 : getNext (setSize m B (uadd (getSize m B)
            (uadd BLOCK_SIZE (getSize m (getNext m B))))) B = n := by
          rw [← e]
          simp (disch := omega) only [setSize, getNext_store]
        have e2 : getNext (setSize m B (uadd (getSize m B)
            (uadd BLOCK_SIZE (getSize m (getNext m B))))) n = getNext m n := by
          simp (disch := omega) only [setSize, getNext_store]
        simp only [e1, e2]
        refine ih _ B rest ?_ (fun x hx => hsep x (List.mem_cons_of_mem _ hx))
          (by simp at hf; omega)
        have e3 : getNext (setNext (setSize m B (uadd (getSize m B)
            (uadd BLOCK_SIZE (getSize m (getNext m B))))) B (getNext m n)) B = getNext m n := by
          simp only [setNext, getNext_store_same]
          exact Nat.mod_eq_of_lt hlt
        rw [e3]
        refine Seg_agree ?_ hrest
        intro x hx y hy1 hy2
        have := hsep x (List.mem_cons_of_mem _ hx)
        simp (disch := omega) only [setSize, setNext, store_outside]
    · rw [merge_free_blocks, if_neg hc]
      exact ⟨m, rfl⟩

/-! ## What the allocating and releasing calls keep -/

/-- The function `free` on a live pointer of a well-formed state returns, given fuel
for the chain; the chain loses a run `removed` of free blocks that directly
followed the released block, and every other block of the old chain, before
or behind the released one, keeps its three header fields. -/
theorem free_live_spec (fuel : Nat) (s : State) (l : List Nat) (p : Nat) (hwf : WF s l)
    (hlive : Live s l p) (hf : l.length < fuel) :
    ∃ s1 pre removed post1, free fuel s p = some s1 ∧
      l = pre ++ (p - BLOCK_SIZE) :: (removed ++ post1) ∧
      WF s1 (pre ++ (p - BLOCK_SIZE) :: post1) ∧
      getFree s1.mem (p - BLOCK_SIZE) ≠ 0 ∧
      (∀ x ∈ removed, getFree s.mem x ≠ 0 ∧ x ∉ pre ++ (p - BLOCK_SIZE) :: post1) ∧
      (∀ x ∈ pre ++ post1, getSize s1.mem x = getSize s.mem x ∧
        getNext s1.mem x = getNext s.mem x ∧ getFree s1.mem x = getFree s.mem x) := by
  obtain ⟨s1, h⟩ := free_total fuel s l p hwf (Or.inr hlive) hf
  obtain ⟨pre, post, post1, hl, ⟨removed, hsuf⟩, hwf1, hfree, hrem, hframe, _⟩ :=
    free_wf fuel s l p s1 hwf hlive h
  subst hsuf
  generalize p - BLOCK_SIZE = B at *
  have hsp : Spaced l := Contig_spaced (hwf.2.1 (by rw [hl]; simp))
  rw [hl] at hsp
  obtain ⟨hpre, hpost, hpp⟩ := Spaced_split hsp
  have hsp2 : Spaced (removed ++ post1) := by
    have := (List.pairwise_append.mp hsp).2.1
    exact (List.pairwise_cons.mp this).2
  have hrp : ∀ x ∈ removed, ∀ y ∈ post1, x + BLOCK_SIZE ≤ y := (List.pairwise_append.mp hsp2).2.2
  unfold BLOCK_SIZE at hpre hpost hpp hrp
  refine ⟨s1, pre, removed, post1, h, hl, hwf1, hfree, ?_, ?_⟩
  · intro x hx
    have hxpost : x ∈ removed ++ post1 := List.mem_append_left _ hx
    have hx1 : x ∉ pre ++ B :: post1 := by
      intro hmem
      simp only [List.mem_append, List.mem_cons] at hmem
      have h1 := hpost x hxpost
      rcases hmem with h0 | h0 | h0
      · have := hpre x h0; omega
      · omega
      · have := hrp x hx x h0; omega
    refine ⟨hrem x hxpost ?_, hx1⟩
    intro h0
    exact hx1 (by simp [h0])
  · intro x hx
    refine header_agree ?_
    intro y hy1 hy2
    refine hframe y ?_
    rcases List.mem_append.mp hx with h0 | h0
    · have := hpre x h0; omega
    · have := hpost x (List.mem_append_right _ h0); omega

/-- The fields that `malloc` leaves when it takes the first fit `b` of a
well-formed chain `pre ++ b :: post`, with and without a split. -/
theorem malloc_reuse_spec (fuel : Nat) (s : State) (n : Nat) (pre : List Nat) (b : Nat)
    (post : List Nat) (hwf : WF s (pre ++ b :: post)) (hn0 : 0 < n)
    (hpre : ∀ x ∈ pre, ¬ Fits s.mem (alignUp n) x) (hb : Fits s.mem (alignUp n) b)
    (hfuel : pre.length < fuel) :
    ∃ s1, malloc fuel s n = some (b + BLOCK_SIZE, s1) ∧
      s1.free_list = s.free_list ∧ s1.brk = s.brk ∧
      (getSize s.mem b > alignUp n + BLOCK_SIZE →
        getSize s1.mem b = alignUp n ∧ getFree s1.mem b = 0 ∧
        getNext s1.mem b = b + BLOCK_SIZE + alignUp n ∧
        getFree s1.mem (b + BLOCK_SIZE + alignUp n) = 1 ∧
        getSize s1.mem (b + BLOCK_SIZE + alignUp n) = getSize s.mem b - alignUp n - BLOCK_SIZE ∧
        getNext s1.mem (b + BLOCK_SIZE + alignUp n) = getNext s.mem b ∧
        Chain s1.mem s1.free_list (pre ++ b :: (b + BLOCK_SIZE + alignUp n) :: post)) ∧
      (getSize s.mem b ≤ alignUp n + BLOCK_SIZE →
        getSize s1.mem b = getSize s.mem b ∧ getNext s1.mem b = getNext s.mem b ∧
        getFree s1.mem b = 0 ∧ Chain s1.mem s1.free_list (pre ++ b :: post) ∧
        ∀ y, y < b + 16 ∨ b + 20 ≤ y → s1.mem y = s.mem y) := by
  have hwf0 := hwf
  obtain ⟨hch, hco, h1, h2, h3, h4⟩ := hwf
  have hco := hco (by simp)
  have he : s.brk < 2 ^ 64 := by unfold SIZE_T at h4; omega
  obtain ⟨hbb, _, _⟩ := Contig_block_bounds hco
  have hfit : alignUp n ≤ getSize s.mem b := hb.2
  have hu : uadd (alignUp n) BLOCK_SIZE = alignUp n + BLOCK_SIZE :=
    uadd_eq _ _ (by unfold BLOCK_SIZE at *; omega)
  obtain ⟨f0, f1, f2⟩ := reuseMem_fields s.mem b (alignUp n) s.brk hfit hbb he
  have hwf1 := reuse_wf s pre b post (alignUp n) hwf0 hfit
  refine ⟨_, malloc_reuse_eq fuel s n pre b post (by omega) hch hpre hb hfuel, rfl, rfl, ?_, ?_⟩
  · intro hc
    have hc1 : getSize s.mem b > uadd (alignUp n) BLOCK_SIZE := by rw [hu]; exact hc
    obtain ⟨_, g1, g2, g3, g4, g5⟩ := f1 hc1
    refine ⟨g1, f0, g2, g5, g3, g4, ?_⟩
    have := hwf1.1
    rw [reuseList, if_pos hc1] at this
    exact this
  · intro hc
    have hc1 : ¬ getSize s.mem b > uadd (alignUp n) BLOCK_SIZE := by rw [hu]; omega
    obtain ⟨_, g1, g2⟩ := f2 hc1
    refine ⟨g1, g2, f0, ?_, ?_⟩
    · have := hwf1.1
      rw [reuseList, if_neg hc1] at this
      exact this
    · intro y hy
      show reuseMem s.mem b (alignUp n) y = s.mem y
      rw [reuseMem, if_neg hc1, setFree, store_outside _ _ _ _ _ (by omega)]

/-! ## The exact result of coalescing -/

/-- The loop of `merge_free_blocks` at the block `B` of a contiguous chain
`pre ++ B :: post` removes the longest run `removed` of free blocks at the
front of `post` and adds `24 + size` of each of them to the size of `B`. -/
theorem merge_sum :
    ∀ (fuel : Nat) (m : Mem) (head : Nat) (pre : List Nat) (B : Nat) (post : List Nat)
      (e : Nat) (r : Mem), merge_free_blocks fuel m B = some r →
      Chain m head (pre ++ B :: post) → Contig m head (pre ++ B :: post) e → e < 2 ^ 64 →
      ∃ removed post1, post = removed ++ post1 ∧ Chain r head (pre ++ B :: post1) ∧
        Contig r head (pre ++ B :: post1) e ∧
        (∀ x ∈ removed, getFree m x ≠ 0) ∧
        (∀ x, post1.head? = some x → getFree m x = 0) ∧
        getSize r B
          = getSize m B + (removed.map (fun x => BLOCK_SIZE + getSize m x)).sum := by
  intro fuel
  induction fuel with
  | zero => intro m head pre B post e r h; simp [merge_free_blocks] at h
  | succ f ih =>
    intro m head pre B post e r h hch hco he
    rw [merge_free_blocks_succ] at h
    by_cases hc : getNext m B ≠ 0 ∧ getFree m (getNext m B) ≠ 0
    · rw [if_pos hc] at h
      cases post with
      | nil =>
        obtain ⟨c, _, k2, _, k4⟩ := Seg_append.mp hch
        subst k2
        exact absurd k4 hc.1
      | cons n rest =>
        obtain ⟨en, hch2, hco2, hsz, hfr, hge⟩ := mergeStep_wf m head pre B n rest e hch hco he
        obtain ⟨removed, post1, g1, g2, g3, g4, g5, g6⟩ :=
          ih _ head pre B rest e r h hch2 hco2 he
        have hrest_agree : ∀ x ∈ rest, ∀ y, x ≤ y → y < x + 24 → mergeStep m B y = m y := by
          intro x hx y hy1 hy2
          have := hge x hx
          unfold BLOCK_SIZE at this
          exact hfr y (by omega)
        have hrem : ∀ x ∈ removed, x ∈ rest := by
          intro x hx; rw [g1]; exact List.mem_append_left _ hx
        refine ⟨n :: removed, post1, by rw [g1]; rfl, g2, g3, ?_, ?_, ?_⟩
        · intro x hx
          rcases List.mem_cons.mp hx with h0 | h0
          · rw [h0, ← en]; exact hc.2
          · have := g4 x h0
            rwa [(header_agree (hrest_agree x (hrem x h0))).2.2] at this
        · intro x hx
          have hxr : x ∈ rest := by
            rw [g1]
            exact List.mem_append_right _ (List.mem_of_mem_head? hx)
          rw [← (header_agree (hrest_agree x hxr)).2.2]
          exact g5 x hx
        · rw [g6, hsz, List.map_cons, List.sum_cons]
          have hmap : removed.map (fun x => BLOCK_SIZE + getSize (mergeStep m B) x)
              = removed.map (fun x => BLOCK_SIZE + getSize m x) := by
            refine List.map_congr_left ?_
            intro x hx
            rw [(header_agree (hrest_agree x (hrem x hx))).1]
          rw [hmap]
          omega
    · rw [if_neg hc] at h
      injection h with h
      subst h
      refine ⟨[], post, rfl, hch, hco, (fun x hx => absurd hx (List.not_mem_nil x)), ?_, rfl⟩
      intro x hx
      cases post with
      | nil => cases hx
      | cons n rest =>
        simp only [List.head?_cons, Option.some.injEq] at hx
        subst hx
        obtain ⟨c, _, k2, _, k4⟩ := Seg_append.mp hch
        subst k2
        obtain ⟨en, hn0, _⟩ := k4
        rw [en] at hc
        by_contra h1
        exact hc ⟨hn0, h1⟩

/-- The function `free` on the payload of a live block `B` of a well-formed chain
`pre ++ B :: post` returns, given fuel for the chain: `B` becomes free, the
longest run `removed` of free blocks at the front of `post` leaves the chain,
the size of `B` grows by `24 + size` of each of them, and every other block
keeps its header. -/
theorem free_sum (fuel : Nat) (s : State) (pre : List Nat) (B : Nat) (post : List Nat)
    (hwf : WF s (pre ++ B :: post)) (hf : post.length < fuel) :
    ∃ s1 removed post1, free fuel s (B + BLOCK_SIZE) = some s1 ∧ post = removed ++ post1 ∧
      WF s1 (pre ++ B :: post1) ∧ s1.free_list = s.free_list ∧ s1.brk = s.brk ∧
      getFree s1.mem B = 1 ∧ getNext s1.mem B = post1.headD 0 ∧
      getSize s1.mem B
        = getSize s.mem B + (removed.map (fun x => BLOCK_SIZE + getSize s.mem x)).sum ∧
      (∀ x ∈ removed, getFree s.mem x ≠ 0) ∧
      (∀ x, post1.head? = some x → getFree s.mem x = 0) ∧
      (∀ x ∈ pre ++ post1, getSize s1.mem x = getSize s.mem x ∧
        getNext s1.mem x = getNext s.mem x ∧ getFree s1.mem x = getFree s.mem x) := by
  obtain ⟨hch, hco, h1, h2, h3, h4⟩ := hwf
  have hco := hco (by simp)
  have hbrk : s.brk < 2 ^ 64 := by unfold SIZE_T at h4; omega
  have hsp := Contig_spaced hco
  obtain ⟨hpre, hpost, _⟩ := Spaced_split hsp
  unfold BLOCK_SIZE at hpre hpost
  obtain ⟨k1, k2⟩ := setFree_wf s.mem s.free_list pre B post s.brk 1 hch hco
  obtain ⟨r, hr⟩ := merge_free_blocks_total fuel _ s.free_list pre B post s.brk k1 k2 hbrk hf
  obtain ⟨removed, post1, g1, g2, g3, g4, g5, g6⟩ :=
    merge_sum fuel _ s.free_list pre B post s.brk r hr k1 k2 hbrk
  have hfl : ∀ y, y < B + 16 ∨ B + 20 ≤ y → setFree s.mem B 1 y = s.mem y := by
    intro y hy
    rw [setFree, store_outside _ _ _ _ _ (by omega)]
  have hfr := merge_free_blocks_frame fuel _ B r hr
  have hframe : ∀ y, y < B ∨ B + 20 ≤ y → r y = s.mem y := by
    intro y hy
    rw [hfr y (by omega)]
    exact hfl y (by omega)
  have hold : ∀ x ∈ post, getSize (setFree s.mem B 1) x = getSize s.mem x ∧
      getNext (setFree s.mem B 1) x = getNext s.mem x ∧
      getFree (setFree s.mem B 1) x = getFree s.mem x := by
    intro x hx
    have := hpost x hx
    exact header_agree (fun y hy1 hy2 => hfl y (by omega))
  have hfree : free fuel s (B + BLOCK_SIZE) = some { s with mem := r } := by
    have hptr : B + BLOCK_SIZE ≠ 0 := by unfold BLOCK_SIZE; omega
    rw [free, if_neg hptr]
    simp only [Nat.add_sub_cancel, hr]
  refine ⟨{ s with mem := r }, removed, post1, hfree, g1, ⟨g2, fun _ => g3, h1, h2, h3, h4⟩,
    rfl, rfl, ?_, ?_, ?_, ?_, ?_, ?_⟩
  · show getFree r B = 1
    rw [merge_free_blocks_free fuel _ B r hr, getFree_setFree]
    rfl
  · show getNext r B = post1.headD 0
    obtain ⟨c, _, k2, _, k4⟩ := Seg_append.mp g2
    subst k2
    cases post1 with
    | nil => exact k4
    | cons n rest => exact k4.1
  · show getSize r B = _
    rw [g6]
    have e0 : getSize (setFree s.mem B 1) B = getSize s.mem B :=
      load_congr (fun i hi => hfl _ (by omega))
    rw [e0]
    congr 2
    refine List.map_congr_left ?_
    intro x hx
    rw [(hold x (by rw [g1]; exact List.mem_append_left _ hx)).1]
  · intro x hx
    rw [← (hold x (by rw [g1]; exact List.mem_append_left _ hx)).2.2]
    exact g4 x hx
  · intro x hx
    rw [← (hold x (by rw [g1]; exact List.mem_append_right _ (List.mem_of_mem_head? hx))).2.2]
    exact g5 x hx
  · intro x hx
    refine header_agree ?_
    intro y hy1 hy2
    refine hframe y ?_
    rcases List.mem_append.mp hx with h0 | h0
    · have := hpre x h0; omega
    · have := hpost x (by rw [g1]; exact List.mem_append_right _ h0); omega

/-- The function `free` on the payload of a block `B` that is followed by a free block
`C`: `C` and the free blocks `rest` that directly follow `C` leave the chain,
and `rest` is empty when the successor of `C` is null or not free. -/
theorem free_absorbs (fuel : Nat) (s : State) (pre : List Nat) (B C : Nat) (post : List Nat)
    (hwf : WF s (pre ++ B :: C :: post)) (hC : getFree s.mem C ≠ 0)
    (hf : post.length + 1 < fuel) :
    ∃ s1 rest post1, free fuel s (B + BLOCK_SIZE) = some s1 ∧ post = rest ++ post1 ∧
      WF s1 (pre ++ B :: post1) ∧
      getFree s1.mem B = 1 ∧ getNext s1.mem B = post1.headD 0 ∧
      getSize s1.mem B = getSize s.mem B + BLOCK_SIZE + getSize s.mem C
        + (rest.map (fun x => BLOCK_SIZE + getSize s.mem x)).sum ∧
      (∀ x ∈ rest, getFree s.mem x ≠ 0) ∧
      (∀ x, post1.head? = some x → getFree s.mem x = 0) ∧
      (∀ x ∈ pre ++ post1, getSize s1.mem x = getSize s.mem x ∧
        getNext s1.mem x = getNext s.mem x ∧ getFree s1.mem x = getFree s.mem x) ∧
      ((∀ x, post.head? = some x → getFree s.mem x = 0) → rest = [] ∧ post1 = post) := by
  obtain ⟨s1, removed, post1, h, g1, hwf1, _, _, g2, g3, g4, g5, g6, g7⟩ :=
    free_sum fuel s pre B (C :: post) hwf (by simp; omega)
  cases removed with
  | nil =>
    have e : post1 = C :: post := by simpa using g1.symm
    subst e
    exact absurd (g6 C rfl) hC
  | cons c rest =>
    have e : C = c ∧ post = rest ++ post1 := by simpa using g1
    obtain ⟨e1, e2⟩ := e
    subst e1
    refine ⟨s1, rest, post1, h, e2, hwf1, g2, g3, ?_, fun x hx => g5 x (List.mem_cons_of_mem _ hx),
      g6, g7, ?_⟩
    · rw [g4, List.map_cons, List.sum_cons]
      omega
    · intro hp
      cases rest with
      | nil => exact ⟨rfl, by simpa using e2.symm⟩
      | cons d rest2 =>
        have hd : getFree s.mem d = 0 := hp d (by rw [e2]; rfl)
        exact absurd hd (g5 d (by simp))

/-- The blocks `A`, `B`, `C` in a row, `C` free and its successor null or not
free: `free` on the payload of `B` merges `C` into `B` and leaves `A` as it was. -/
theorem free_middle_spec (fuel : Nat) (s : State) (pre : List Nat) (A B C : Nat)
    (post : List Nat) (hwf : WF s (pre ++ A :: B :: C :: post)) (hC : getFree s.mem C ≠ 0)
    (hpost : ∀ x, post.head? = some x → getFree s.mem x = 0) (hf : post.length + 1 < fuel) :
    ∃ s1, free fuel s (B + BLOCK_SIZE) = some s1 ∧
      getSize s1.mem A = getSize s.mem A ∧ getFree s1.mem A = getFree s.mem A ∧
      getNext s1.mem A = B ∧ A + BLOCK_SIZE + getSize s1.mem A = B ∧
      getFree s1.mem B = 1 ∧
      getSize s1.mem B = getSize s.mem B + BLOCK_SIZE + getSize s.mem C ∧
      getNext s1.mem B = getNext s.mem C ∧
      WF s1 (pre ++ A :: B :: post) ∧ C ∉ pre ++ A :: B :: post := by
  have hl : pre ++ A :: B :: C :: post = (pre ++ [A]) ++ B :: C :: post := by simp
  have hl2 : pre ++ A :: B :: C :: post = (pre ++ [A, B]) ++ C :: post := by simp
  have hwf0 := hwf
  obtain ⟨hch, hco, _⟩ := hwf0
  have hco := hco (by simp)
  rw [hl] at hwf
  obtain ⟨s1, rest, post1, h, g1, hwf1, g2, g3, g4, _, _, g7, g8⟩ :=
    free_absorbs fuel s (pre ++ [A]) B C post hwf hC hf
  obtain ⟨e1, e2⟩ := g8 hpost
  subst e1 e2
  obtain ⟨k1, k2, k3⟩ := g7 A (by simp)
  have hAB : getNext s.mem A = B ∧ A + BLOCK_SIZE + getSize s.mem A = B := by
    obtain ⟨c, _, q2, _, q4⟩ := Seg_append.mp hch
    obtain ⟨_, r2⟩ := Contig_split hco
    exact ⟨q4.1, r2.1⟩
  have hCn : getNext s.mem C = post1.headD 0 := by
    rw [hl2] at hch
    obtain ⟨c, _, q2, _, q4⟩ := Seg_append.mp hch
    cases post1 with
    | nil => exact q4
    | cons n rest => exact q4.1
  refine ⟨s1, h, k1, k3, by rw [k2]; exact hAB.1, by rw [k1]; exact hAB.2, g2, ?_, ?_, ?_, ?_⟩
  · simpa using g4
  · rw [g3, hCn]
  · simpa using hwf1
  · rw [hl2] at hco
    obtain ⟨q1, q2, _⟩ := Spaced_split (Contig_spaced hco)
    unfold BLOCK_SIZE at q1 q2
    intro hmem
    simp only [List.mem_append, List.mem_cons] at hmem
    rcases hmem with h0 | h0 | h0 | h0
    · have := q1 C (by simp [h0]); omega
    · have := q1 A (by simp); omega
    · have := q1 B (by simp); omega
    · have := q2 C h0; omega

/-! ## The in-place path of `realloc` -/

/-- The function `realloc` on the payload of a block `B` of a well-formed chain whose
size `s` is at least `newSize`: it returns the same pointer; below
`newSize + 40` the state is unchanged; from `newSize + 40` on, the block is
split at `B + 24 + newSize` and the remainder absorbs the free blocks `rest`
that directly follow it. -/
theorem realloc_in_place_spec (fuel : Nat) (s : State) (pre : List Nat) (B : Nat)
    (post : List Nat) (newSize : Nat) (hwf : WF s (pre ++ B :: post))
    (hge : newSize ≤ getSize s.mem B) (hno : newSize + 40 < 2 ^ 64) (hf : post.length < fuel) :
    (getSize s.mem B < newSize + 40 →
      realloc fuel s (B + BLOCK_SIZE) newSize = some (B + BLOCK_SIZE, s)) ∧
    (newSize + 40 ≤ getSize s.mem B →
      ∃ s1 rest post1, realloc fuel s (B + BLOCK_SIZE) newSize = some (B + BLOCK_SIZE, s1) ∧
        merge_free_blocks fuel (split_block s.mem B newSize) (B + BLOCK_SIZE + newSize)
          = some s1.mem ∧
        getSize (split_block s.mem B newSize) B = newSize ∧
        getSize (split_block s.mem B newSize) (B + BLOCK_SIZE + newSize)
          = getSize s.mem B - newSize - BLOCK_SIZE ∧
        post = rest ++ post1 ∧
        WF s1 (pre ++ B :: (B + BLOCK_SIZE + newSize) :: post1) ∧
        getSize s1.mem B = newSize ∧ getFree s1.mem B = getFree s.mem B ∧
        getNext s1.mem B = B + BLOCK_SIZE + newSize ∧
        getFree s1.mem (B + BLOCK_SIZE + newSize) = 1 ∧
        getSize s1.mem (B + BLOCK_SIZE + newSize)
          = getSize s.mem B - newSize - BLOCK_SIZE
            + (rest.map (fun x => BLOCK_SIZE + getSize s.mem x)).sum ∧
        (∀ x ∈ rest, getFree s.mem x ≠ 0) ∧
        (∀ x, post1.head? = some x → getFree s.mem x = 0)) := by
  have hptr : B + BLOCK_SIZE ≠ 0 := by unfold BLOCK_SIZE; omega
  have hu : uadd (uadd newSize BLOCK_SIZE) ALIGNMENT = newSize + 40 := by
    unfold BLOCK_SIZE ALIGNMENT
    rw [uadd_eq newSize 24 (by omega), uadd_eq _ 16 (by omega)]
  have hge1 : getSize s.mem B ≥ newSize := hge
  constructor
  · intro hlt
    have hc : ¬ getSize s.mem B ≥ uadd (uadd newSize BLOCK_SIZE) ALIGNMENT := by
      rw [hu]; omega
    rw [realloc, if_neg hptr]
    simp only [Nat.add_sub_cancel, if_pos hge1, if_neg hc]
  · intro hsp
    have hc : getSize s.mem B ≥ uadd (uadd newSize BLOCK_SIZE) ALIGNMENT := by
      rw [hu]; exact hsp
    obtain ⟨hch, hco, h1, h2, h3, h4⟩ := hwf
    have hco := hco (by simp)
    have hbrk : s.brk < 2 ^ 64 := by unfold SIZE_T at h4; omega
    obtain ⟨hbb, _, _⟩ := Contig_block_bounds hco
    obtain ⟨k1, k2, k3⟩ := split_wf s.mem s.free_list pre B post newSize s.brk hch hco
      hbrk (by unfold BLOCK_SIZE; omega)
    obtain ⟨f1, f2, f3, f4, f5, f6⟩ := split_block_fields s.mem B newSize
      (by unfold BLOCK_SIZE; omega) (by unfold BLOCK_SIZE at *; omega)
    have el : pre ++ B :: (B + BLOCK_SIZE + newSize) :: post
        = (pre ++ [B]) ++ (B + BLOCK_SIZE + newSize) :: post := by simp
    rw [el] at k1 k2
    obtain ⟨r, hr⟩ := merge_free_blocks_total fuel _ s.free_list (pre ++ [B])
      (B + BLOCK_SIZE + newSize) post s.brk k1 k2 hbrk hf
    obtain ⟨rest, post1, g1, g2, g3, g4, g5, g6⟩ :=
      merge_sum fuel _ s.free_list (pre ++ [B]) (B + BLOCK_SIZE + newSize) post s.brk r hr
        k1 k2 hbrk
    have hfr := merge_free_blocks_frame fuel _ (B + BLOCK_SIZE + newSize) r hr
    have hB : getSize r B = getSize (split_block s.mem B newSize) B ∧
        getNext r B = getNext (split_block s.mem B newSize) B ∧
        getFree r B = getFree (split_block s.mem B newSize) B := by
      refine header_agree ?_
      intro y hy1 hy2
      exact hfr y (by unfold BLOCK_SIZE; omega)
    have el2 : (pre ++ [B]) ++ (B + BLOCK_SIZE + newSize) :: post1
        = pre ++ B :: (B + BLOCK_SIZE + newSize) :: post1 := by simp
    rw [el2] at g2 g3
    have hreal : realloc fuel s (B + BLOCK_SIZE) newSize
        = some (B + BLOCK_SIZE, { s with mem := r }) := by
      rw [realloc, if_neg hptr]
      simp only [Nat.add_sub_cancel, if_pos hge1, if_pos hc, hr]
    refine ⟨{ s with mem := r }, rest, post1, hreal, hr, f1, f4, g1,
      ⟨g2, fun _ => g3, h1, h2, h3, h4⟩, ?_, ?_, ?_, ?_, ?_, ?_, ?_⟩
    · show getSize r B = newSize
      rw [hB.1, f1]
    · show getFree r B = getFree s.mem B
      rw [hB.2.2, f3]
    · show getNext r B = B + BLOCK_SIZE + newSize
      rw [hB.2.1, f2]
    · show getFree r (B + BLOCK_SIZE + newSize) = 1
      rw [merge_free_blocks_free fuel _ _ r hr, f6]
    · show getSize r (B + BLOCK_SIZE + newSize) = _
      rw [g6, f4]
      congr 2
      refine List.map_congr_left ?_
      intro x hx
      rw [(k3 x (by rw [g1]; simp [hx])).1]
    · intro x hx
      rw [← (k3 x (by rw [g1]; simp [hx])).2.2]
      exact g4 x hx
    · intro x hx
      rw [← (k3 x (by rw [g1]; simp [List.mem_of_mem_head? hx])).2.2]
      exact g5 x hx

/-- In a well-formed state, a block at an address of at least 16 is too small
for `newSize + 40` to wrap when `newSize` is at most its size. -/
theorem wf_resize_no_wrap {s : State} {l : List Nat} {B newSize : Nat} (hwf : WF s l)
    (hB : B ∈ l) (h16 : 16 ≤ B) (hge : newSize ≤ getSize s.mem B) : newSize + 40 < 2 ^ 64 := by
  obtain ⟨pre, post, rfl⟩ := List.append_of_mem hB
  obtain ⟨_, hco, _, _, _, h4⟩ := hwf
  obtain ⟨hbb, _, _⟩ := Contig_block_bounds (hco (by simp))
  unfold SIZE_T at h4
  unfold BLOCK_SIZE at hbb
  omega

/-! ## Exact growth for sizes in range -/

/-- When no block of a well-formed chain fits, `alignUp n + 24` is below
`2 ^ 63` and the heap has room, `malloc` raises the break by `alignUp n + 24`,
writes the new header at the old break, links it behind the old tail (or as
head), and leaves every other header field as it was. -/
theorem malloc_grow_spec (fuel : Nat) (s : State) (n : Nat) (l : List Nat) (hwf : WF s l)
    (hn0 : 0 < n) (ha : alignUp n + BLOCK_SIZE < 2 ^ 63)
    (hall : ∀ x ∈ l, ¬ Fits s.mem (alignUp n) x)
    (hl : s.brk + alignUp n + BLOCK_SIZE ≤ s.heap_limit) (hfuel : l.length < fuel) :
    malloc fuel s n = some (s.brk + BLOCK_SIZE, growState s l (alignUp n)) ∧
    (growState s l (alignUp n)).brk = s.brk + (alignUp n + BLOCK_SIZE) ∧
    (growState s l (alignUp n)).free_list = (if l = [] then s.brk else s.free_list) ∧
    getSize (growState s l (alignUp n)).mem s.brk = alignUp n ∧
    getNext (growState s l (alignUp n)).mem s.brk = 0 ∧
    getFree (growState s l (alignUp n)).mem s.brk = 0 ∧
    WF (growState s l (alignUp n)) (l ++ [s.brk]) ∧
    (l ≠ [] → getNext (growState s l (alignUp n)).mem (l.getLastD 0) = s.brk) ∧
    (∀ x ∈ l, getSize (growState s l (alignUp n)).mem x = getSize s.mem x ∧
      getFree (growState s l (alignUp n)).mem x = getFree s.mem x ∧
      (x ≠ l.getLastD 0 → getNext (growState s l (alignUp n)).mem x = getNext s.mem x)) := by
  have hwf0 := hwf
  obtain ⟨hch, hco, h1, h2, h3, h4⟩ := hwf
  have hbrk : s.brk < 2 ^ 64 := by unfold SIZE_T at h4; omega
  have hsp : Spaced l := by
    cases l with
    | nil => exact List.Pairwise.nil
    | cons x t => exact Contig_spaced (hco (by simp))
  have hlt : ∀ x ∈ l, x + BLOCK_SIZE ≤ s.brk := by
    intro x hx
    have hne : l ≠ [] := by intro h0; rw [h0] at hx; cases hx
    have := (Contig_bounds (hco hne)).2 x hx
    omega
  have hlast : l ≠ [] → l.getLastD 0 + BLOCK_SIZE ≤ s.brk ∧ l.getLastD 0 ∈ l ∧
      l.getLastD 0 ≠ 0 := by
    intro hne
    rcases List.eq_nil_or_concat l with rfl | ⟨init, t, rfl⟩
    · exact absurd rfl hne
    · rw [List.concat_eq_append, List.getLastD_concat]
      exact ⟨hlt t (by simp), by simp, Seg_ne_zero hch t (by simp)⟩
  have hlast0 : l.getLastD 0 ≠ 0 → l ≠ [] := by
    intro h0 hnil
    rw [hnil] at h0
    exact h0 rfl
  have hf := growMem_fields s.mem (l.getLastD 0) s.brk (alignUp n) (alignUp_lt n)
    (fun h0 => (hlast (hlast0 h0)).1)
  have hm : malloc fuel s n = some (s.brk + BLOCK_SIZE, growState s l (alignUp n)) := by
    rw [malloc_grow_eq _ s n l (by omega) hch hall hfuel, request_space_granted s _ _ ha h2 hl]
    simp only
    rw [if_neg (by omega)]
    by_cases hnil : l = []
    · simp only [growState, if_pos hnil]
    · simp only [growState, if_neg hnil]
  refine ⟨hm, by simp only [growState]; omega, rfl, hf.1, hf.2.1, hf.2.2,
    grow_wf s l (alignUp n) hwf0 ha hl, ?_, ?_⟩
  · intro hne
    obtain ⟨k1, _, k3⟩ := hlast hne
    exact growMem_next_last s.mem _ s.brk (alignUp n) k3 k1 hbrk
  · intro x hx
    obtain ⟨g1, g2⟩ := growMem_old s.mem l s.brk (alignUp n) x hsp hlt hx
    refine ⟨g1, g2, ?_⟩
    intro hxl
    have hne : l ≠ [] := by intro h0; rw [h0] at hx; cases hx
    obtain ⟨_, k2, _⟩ := hlast hne
    have hd := wf_disjoint hwf0 k2 x hx hxl
    have hxb := hlt x hx
    unfold BLOCK_SIZE at hd hxb
    refine (header_agree ?_).2.1
    intro y hy1 hy2
    exact growMem_frame s.mem _ s.brk (alignUp n) y (by omega) (fun _ => by omega)

/-! ## The fill of `calloc` for sizes in range -/

/-- For a product of at most `2 ^ 63 - 40` bytes, `calloc` returns what
`malloc` of the product returns, with the payload filled with zeros when the
pointer is not null; the fill changes no header of the chain. -/
theorem calloc_fill_spec (fuel : Nat) (s : State) (num size : Nat) (l : List Nat) (p : Nat)
    (s1 : State) (hwf : WF s l) (hsz : num * size ≤ 2 ^ 63 - 40)
    (h : malloc fuel s (num * size) = some (p, s1)) :
    calloc fuel s num size
      = some (p, if p ≠ 0 then { s1 with mem := memset s1.mem p 0 (num * size) } else s1) ∧
    (p ≠ 0 → ∃ l1, WF s1 l1 ∧
      (∀ i, i < num * size → memset s1.mem p 0 (num * size) (p + i) = 0) ∧
      WF { s1 with mem := memset s1.mem p 0 (num * size) } l1 ∧
      ∀ x ∈ l1, getSize (memset s1.mem p 0 (num * size)) x = getSize s1.mem x ∧
        getNext (memset s1.mem p 0 (num * size)) x = getNext s1.mem x ∧
        getFree (memset s1.mem p 0 (num * size)) x = getFree s1.mem x) := by
  have hu : umul num size = num * size := by
    unfold umul SIZE_T
    exact Nat.mod_eq_of_lt (by omega)
  obtain ⟨a1, a2, _⟩ := alignUp_small (num * size) hsz
  constructor
  · simp only [calloc, hu, h]
    by_cases hp : p ≠ 0
    · simp only [if_pos hp]
    · simp only [if_neg hp]
  · intro hp
    rcases malloc_wf fuel s (num * size) l p s1 hwf a1 h with ⟨h0, _⟩ | ⟨b, l1, hpb, hwf1, hb, _, hge, _⟩
    · exact absurd h0 hp
    · refine ⟨l1, hwf1, ?_, ?_⟩
      · intro i hi
        simp only [memset]
        rw [if_pos ⟨by omega, by omega⟩]
      · refine wf_payload_write s1 l1 b _ hwf1 hb ?_
        intro y hy
        simp only [memset]
        rw [if_neg]
        rw [hpb]
        omega

end Lemmas

/-! ## Settled claims -/

/-- The scenario `twoBlocksFirstFree` ends in a reachable, well-formed state. -/
theorem twoBlocksFirstFree_reachable :
    ∃ s, twoBlocksFirstFree = some s ∧ Reachable s ∧ WF s [4096, 4136] := by
  have h0 := Reachable.empty 4096 8192 (by decide) (by decide) (by decide)
  have h1 := Reachable.by_malloc 1 16 4120 h0 rfl
  have h2 := Reachable.by_malloc 2 16 4160 h1 rfl
  have h3 := Reachable.by_free 2 [4096, 4136] 4120 h2 (by decide) (Or.inr (by decide)) rfl
  exact ⟨_, rfl, h3, by decide⟩

/-- C1 (alignment of returned pointers) fails on the code: the payload lies
24 bytes behind its header and 24 is not a multiple of 16.  From an empty
chain with a 16-aligned break the first `malloc(16)` returns an address that
is 8 modulo 16; from a break that is 8 modulo 16 the first pointer is aligned
and the second `malloc(16)`, 40 bytes further, is not. -/
theorem malloc_pointer_misaligned :
    Reachable (emptyState 4096 8192) ∧
    (∃ s1, malloc 1 (emptyState 4096 8192) 16 = some (4120, s1)) ∧ 4120 % 16 = 8 ∧
    Reachable (emptyState 4104 8192) ∧
    (∃ s1 s2, malloc 1 (emptyState 4104 8192) 16 = some (4128, s1) ∧
      malloc 2 s1 16 = some (4168, s2)) ∧ 4128 % 16 = 0 ∧ 4168 % 16 = 8 :=
  ⟨Reachable.empty 4096 8192 (by decide) (by decide) (by decide), ⟨_, rfl⟩, rfl,
   Reachable.empty 4104 8192 (by decide) (by decide) (by decide), ⟨_, _, rfl, rfl⟩, rfl, rfl⟩

/-- C2 (capacity) fails on the code for requests above `2 ^ 64 - 16`, where the
round-up wraps to 0.  On an empty chain `malloc(2 ^ 64 - 1)` returns the payload
of a block of recorded size 0.  On the well-formed chain of a free block of 16
bytes followed by a live block, it returns the payload of the free block, whose
recorded size 16 is below the request, and the header of the live block, at
4136, lies inside the requested range `[4120, 4120 + n)`. -/
theorem malloc_capacity_wraps :
    (∃ s1, malloc 1 (emptyState 4096 8192) (2 ^ 64 - 1) = some (4120, s1) ∧
      getSize s1.mem (4120 - BLOCK_SIZE) = 0) ∧
    (∃ s, twoBlocksFirstFree = some s ∧ WF s [4096, 4136] ∧
      ∃ s1, malloc 3 s (2 ^ 64 - 1) = some (4120, s1) ∧
        getSize s1.mem (4120 - BLOCK_SIZE) = 16 ∧
        Chain s1.mem s1.free_list [4096, 4136] ∧ 4120 ≤ 4136 ∧ 4136 < 4120 + (2 ^ 64 - 1)) :=
  ⟨⟨_, rfl, by decide⟩,
   ⟨_, rfl, by decide, _, rfl, by decide, by decide, by decide, by decide⟩⟩

/-- C3 (failure atomicity of `malloc`): whenever `malloc` returns `NULL`, the
state after the call is the state before it (head pointer, memory and break).
The break of a process is never the null address. -/
theorem malloc_failure_atomic (fuel : Nat) (s : State) (n : Nat) (s1 : State)
    (hb : s.brk ≠ 0) (h : malloc fuel s n = some (0, s1)) : s1 = s :=
  malloc_null_unchanged fuel s n s1 hb h

/-- Witness of C3: with a free block of 16 bytes and 4016 bytes left below the
limit, `malloc(4096)` finds no fit, is refused by the environment and returns
`NULL`. -/
theorem malloc_failure_atomic_witness :
    ∃ s s1, twoBlocksFirstFree = some s ∧ s.brk ≠ 0 ∧ malloc 3 s 4096 = some (0, s1) ∧ s1 = s :=
  ⟨_, _, rfl, by decide, rfl, malloc_failure_atomic 3 _ 4096 _ (by decide) rfl⟩

/-- C4 (data preserved by `realloc`) fails on the code for `newSize` above
`2 ^ 64 - 16`.  A free block of 16 bytes is followed by the live block whose
payload, at 4160, holds 32 bytes of pattern.  `realloc(4160, 2 ^ 64 - 1)`
rounds the request to 0, takes the free block, copies 32 bytes to 4120 over the
header of the old block at 4136, and the following `free` of the old block
rewrites that header: the call returns 4120, and byte 16 of the result is 25
where the pattern has 1. -/
theorem realloc_overwrites_copied_data :
    WF patternInLive32 [4096, 4136] ∧ Live patternInLive32 [4096, 4136] 4160 ∧
    getSize patternInLive32.mem (4160 - BLOCK_SIZE) = 32 ∧
    (∀ i, i < 32 → patternInLive32.mem (4160 + i) = pattern32 i) ∧
    realloc 3 patternInLive32 4160 (2 ^ 64 - 1) = some (4120, after movedPattern) ∧
    16 < min 32 (2 ^ 64 - 1) ∧ (after movedPattern).mem (4120 + 16) = 25 ∧ pattern32 16 = 1 :=
  ⟨by decide, by decide, by decide, by decide, rfl, by decide, by decide, by decide⟩

/-- C5 (failure of the inner `malloc` in `realloc`): for a non-null pointer
whose block is smaller than `newSize`, if `malloc(newSize)` returns `NULL` then
`realloc` returns `NULL` and the state (chain, headers, payload bytes and
break) is the state before the call. -/
theorem realloc_failure_keeps_state (fuel : Nat) (s : State) (ptr newSize : Nat) (s1 : State)
    (hb : s.brk ≠ 0) (hp : ptr ≠ 0) (hlt : getSize s.mem (ptr - BLOCK_SIZE) < newSize)
    (h : malloc fuel s newSize = some (0, s1)) :
    realloc fuel s ptr newSize = some (0, s) := by
  have e := malloc_null_unchanged fuel s newSize s1 hb h
  subst e
  unfold realloc
  rw [if_neg hp, if_neg (by omega), h]
  simp

/-- Witness of C5: the live block at 4136 has 16 bytes, `realloc` to 4096 bytes
is refused and changes nothing. -/
theorem realloc_failure_keeps_state_witness :
    ∃ s s1, twoBlocksFirstFree = some s ∧ Live s [4096, 4136] 4160 ∧
      malloc 3 s 4096 = some (0, s1) ∧ realloc 3 s 4160 4096 = some (0, s) :=
  ⟨_, _, rfl, by decide, rfl,
    realloc_failure_keeps_state 3 _ 4160 4096 _ (by decide) (by decide) (by decide) rfl⟩

/-- C6 (contiguity, increasing addresses) fails on the code when the growth
request wraps.  From the empty chain `malloc(2 ^ 64 - 16)` asks `sbrk` for
`2 ^ 64 - 16 + 24 = 8` bytes modulo `2 ^ 64`: the tail block at 4096 records
`2 ^ 64 - 16` bytes while the break is at 4104.  The next `malloc(16)` puts its
header at 4104, inside the header at 4096, whose `next` field then reads 16:
the chain goes from 4096 to 16. -/
theorem growth_wrap_breaks_contiguity :
    malloc 1 (emptyState 4096 8192) (2 ^ 64 - 16) = some (4120, after hugeBlock) ∧
    Reachable (after hugeBlock) ∧
    Chain (after hugeBlock).mem (after hugeBlock).free_list [4096] ∧
    getSize (after hugeBlock).mem 4096 = 2 ^ 64 - 16 ∧ (after hugeBlock).brk = 4104 ∧
    4096 + BLOCK_SIZE + getSize (after hugeBlock).mem 4096 ≠ (after hugeBlock).brk ∧
    malloc 2 (after hugeBlock) 16 = some (4128, after hugeThenSmall) ∧
    Reachable (after hugeThenSmall) ∧
    Chain (after hugeThenSmall).mem (after hugeThenSmall).free_list [4096, 16] ∧
    getNext (after hugeThenSmall).mem 4096 = 16 ∧
    (4096 + BLOCK_SIZE + getSize (after hugeThenSmall).mem 4096) % 2 ^ 64 = 4104 ∧
    ¬ Contig (after hugeThenSmall).mem (after hugeThenSmall).free_list [4096, 16]
      (after hugeThenSmall).brk ∧
    ¬ [4096, 16].Pairwise (fun x y => x < y) := by
  have h0 := Reachable.empty 4096 8192 (by decide) (by decide) (by decide)
  have h1 : malloc 1 (emptyState 4096 8192) (2 ^ 64 - 16) = some (4120, after hugeBlock) := rfl
  have h2 : malloc 2 (after hugeBlock) 16 = some (4128, after hugeThenSmall) := rfl
  have h3 := Reachable.by_malloc 1 _ 4120 h0 h1
  exact ⟨h1, h3, by decide, by decide, by decide, by decide, h2,
    Reachable.by_malloc 2 16 4128 h3 h2, by decide, by decide, by decide, by decide,
    by decide⟩

/-- C7 as stated fails on the code, on the calls of `main` itself:
`malloc(160)`, `calloc(25, 4)`, `realloc(array, 80)`, `free(array)` and
`free(array_calloc)` on a fresh heap.  The last `free` releases the block at
4280 behind the free block at 4096 and returns with the chain of these two
free blocks. -/
theorem free_leaves_adjacent_free_blocks :
    Reachable (after mainAfterFree) ∧ Live (after mainAfterFree) [4096, 4280] 4304 ∧
    free 3 (after mainAfterFree) 4304 = some (after mainEnd) ∧ Reachable (after mainEnd) ∧
    Chain (after mainEnd).mem (after mainEnd).free_list [4096, 4280] ∧
    getFree (after mainEnd).mem 4096 ≠ 0 ∧ getNext (after mainEnd).mem 4096 = 4280 ∧
    getFree (after mainEnd).mem 4280 ≠ 0 := by
  have h0 := Reachable.empty 4096 8192 (by decide) (by decide) (by decide)
  have e1 : malloc 1 (emptyState 4096 8192) 160 = some (4120, after mainAfterMalloc) := rfl
  have h1 := Reachable.by_malloc 1 160 4120 h0 e1
  have e2 : calloc 2 (after mainAfterMalloc) 25 4 = some (4304, after mainAfterCalloc) := rfl
  have h2 := Reachable.by_calloc 2 25 4 4304 h1 e2
  have e3 : realloc 3 (after mainAfterCalloc) 4120 80 = some (4120, after mainAfterRealloc) :=
    rfl
  have h3 := Reachable.by_realloc 3 [4096, 4280] 4120 80 4120 h2 (by decide)
    (Or.inr (by decide)) e3
  have e4 : free 3 (after mainAfterRealloc) 4120 = some (after mainAfterFree) := rfl
  have h4 := Reachable.by_free 3 [4096, 4200, 4280] 4120 h3 (by decide) (Or.inr (by decide)) e4
  have e5 : free 3 (after mainAfterFree) 4304 = some (after mainEnd) := rfl
  have h5 := Reachable.by_free 3 [4096, 4280] 4304 h4 (by decide) (Or.inr (by decide)) e5
  exact ⟨h4, by decide, e5, h5, by decide, by decide, by decide, by decide⟩

/-- C7 as amended: when `free(p)` returns, the released block is marked free
and its successor is null or not free; when an in-place `realloc` that splits
returns, it returns `p` and the same holds for the remainder it split off.
On a well-formed state and a live pointer both calls do return, given fuel
for the blocks of the chain.  Nothing is said of the block before the released
one. -/
theorem free_no_free_successor (fuel : Nat) (s : State) (p newSize : Nat) (hp : p ≠ 0) :
    (∀ s1, free fuel s p = some s1 →
      getFree s1.mem (p - BLOCK_SIZE) ≠ 0 ∧
      (getNext s1.mem (p - BLOCK_SIZE) = 0 ∨
        getFree s1.mem (getNext s1.mem (p - BLOCK_SIZE)) = 0)) ∧
    (∀ q s1, getSize s.mem (p - BLOCK_SIZE) ≥ newSize →
      getSize s.mem (p - BLOCK_SIZE) ≥ uadd (uadd newSize BLOCK_SIZE) ALIGNMENT →
      realloc fuel s p newSize = some (q, s1) →
      q = p ∧ getFree s1.mem (p - BLOCK_SIZE + BLOCK_SIZE + newSize) ≠ 0 ∧
      (getNext s1.mem (p - BLOCK_SIZE + BLOCK_SIZE + newSize) = 0 ∨
        getFree s1.mem (getNext s1.mem (p - BLOCK_SIZE + BLOCK_SIZE + newSize)) = 0)) ∧
    (∀ l, WF s l → Live s l p → l.length < fuel →
      (∃ s1, free fuel s p = some s1) ∧
      (newSize ≤ 2 ^ 63 - 40 → getSize s.mem (p - BLOCK_SIZE) ≥ newSize →
        getSize s.mem (p - BLOCK_SIZE) ≥ uadd (uadd newSize BLOCK_SIZE) ALIGNMENT →
        ∃ s1, realloc fuel s p newSize = some (p, s1))) := by
  refine ⟨?_, ?_, ?_⟩
  · intro s1 h
    rw [free, if_neg hp] at h
    simp only at h
    cases hm : merge_free_blocks fuel (setFree s.mem (p - BLOCK_SIZE) 1) (p - BLOCK_SIZE) with
    | none => rw [hm] at h; simp at h
    | some r =>
      rw [hm] at h
      injection h with h
      subst h
      refine ⟨?_, merge_free_blocks_post _ _ _ _ hm⟩
      rw [merge_free_blocks_free _ _ _ _ hm, getFree_setFree]
      decide
  · intro q s1 h1 h2 h
    rw [realloc, if_neg hp] at h
    simp only [if_pos h1, if_pos h2] at h
    cases hm : merge_free_blocks fuel (split_block s.mem (p - BLOCK_SIZE) newSize)
        (p - BLOCK_SIZE + BLOCK_SIZE + newSize) with
    | none => rw [hm] at h; simp at h
    | some r =>
      rw [hm] at h
      injection h with h
      injection h with h3 h4
      subst h4
      refine ⟨h3.symm, ?_, merge_free_blocks_post _ _ _ _ hm⟩
      rw [merge_free_blocks_free _ _ _ _ hm]
      unfold BLOCK_SIZE
      simp (disch := omega) only [split_block, BLOCK_SIZE, setSize, setNext, setFree,
        getFree_store_same, getFree_store]
      decide
  · intro l hwf hlive hf
    exact ⟨free_total fuel s l p hwf (Or.inr hlive) hf,
      fun hsz hge hsp => realloc_split_total fuel s l p newSize hwf hlive hsz hge hsp hf⟩

/-- Witness of the amended C7: release of the second of two blocks, and the
in-place `realloc` from 320 to 80 bytes, whose remainder lies at 4200. -/
theorem free_no_free_successor_witness :
    (free 2 (after twoBlocksFirstFree) 4160 = some (after twoBlocksBothFree) ∧
      getFree (after twoBlocksBothFree).mem (4160 - BLOCK_SIZE) ≠ 0 ∧
      (getNext (after twoBlocksBothFree).mem (4160 - BLOCK_SIZE) = 0 ∨
        getFree (after twoBlocksBothFree).mem
          (getNext (after twoBlocksBothFree).mem (4160 - BLOCK_SIZE)) = 0)) ∧
    (realloc 2 (after oneBlock320) 4120 80 = some (4120, after shrunkTo80) ∧
      getFree (after shrunkTo80).mem (4120 - BLOCK_SIZE + BLOCK_SIZE + 80) ≠ 0 ∧
      (getNext (after shrunkTo80).mem (4120 - BLOCK_SIZE + BLOCK_SIZE + 80) = 0 ∨
        getFree (after shrunkTo80).mem
          (getNext (after shrunkTo80).mem (4120 - BLOCK_SIZE + BLOCK_SIZE + 80)) = 0)) ∧
    (WF (after oneBlock320) [4096] ∧ Live (after oneBlock320) [4096] 4120 ∧
      (∃ s1, free 2 (after oneBlock320) 4120 = some s1) ∧
      ∃ s1, realloc 2 (after oneBlock320) 4120 80 = some (4120, s1)) :=
  ⟨⟨rfl, (free_no_free_successor 2 (after twoBlocksFirstFree) 4160 0 (by decide)).1
      (after twoBlocksBothFree) rfl⟩,
   ⟨rfl, ((free_no_free_successor 2 (after oneBlock320) 4120 80 (by decide)).2.1 4120
      (after shrunkTo80) (by decide) (by decide) rfl).2⟩,
   ⟨by decide, by decide,
    ((free_no_free_successor 2 (after oneBlock320) 4120 80 (by decide)).2.2 [4096]
      (by decide) (by decide) (by decide)).1,
    ((free_no_free_successor 2 (after oneBlock320) 4120 80 (by decide)).2.2 [4096]
      (by decide) (by decide) (by decide)).2 (by decide) (by decide) (by decide)⟩⟩

/-- C8 (every size positive and a multiple of 16, blocks shrunk by `realloc`
included) fails on the code: `realloc` writes `newSize` as it is given, where
`malloc` rounds it.  After `malloc(48)`, `realloc(p, 1)` leaves a live block
of size 1 and a remainder of size 23, and `realloc(p, 0)` leaves a live block
of size 0.  After `malloc(100)`, `free`, `malloc(50)` the remainder of the
split has `112 - 64 - 24 = 24` bytes, the header being 24 bytes long. -/
theorem sizes_not_multiple_of_16 :
    (Reachable (after shrunk48To1) ∧
      realloc 2 (after oneBlock48) 4120 1 = some (4120, after shrunk48To1) ∧
      Chain (after shrunk48To1).mem (after shrunk48To1).free_list [4096, 4121] ∧
      getSize (after shrunk48To1).mem 4096 = 1 ∧ getFree (after shrunk48To1).mem 4096 = 0 ∧
      getSize (after shrunk48To1).mem 4121 = 23) ∧
    (Reachable (after shrunk48To0) ∧
      realloc 2 (after oneBlock48) 4120 0 = some (4120, after shrunk48To0) ∧
      Chain (after shrunk48To0).mem (after shrunk48To0).free_list [4096, 4120] ∧
      getSize (after shrunk48To0).mem 4096 = 0 ∧ getFree (after shrunk48To0).mem 4096 = 0 ∧
      getSize (after shrunk48To0).mem 4120 = 24) ∧
    (Reachable (after reusedWithSplit) ∧
      Chain (after reusedWithSplit).mem (after reusedWithSplit).free_list [4096, 4184] ∧
      getSize (after reusedWithSplit).mem 4096 = 64 ∧
      getSize (after reusedWithSplit).mem 4184 = 24 ∧ 24 % 16 = 8) := by
  have h0 := Reachable.empty 4096 8192 (by decide) (by decide) (by decide)
  have h48 : malloc 1 (emptyState 4096 8192) 48 = some (4120, after oneBlock48) := rfl
  have r48 : Reachable (after oneBlock48) := Reachable.by_malloc 1 48 4120 h0 h48
  have e1 : realloc 2 (after oneBlock48) 4120 1 = some (4120, after shrunk48To1) := rfl
  have e0 : realloc 2 (after oneBlock48) 4120 0 = some (4120, after shrunk48To0) := rfl
  have h1 : malloc 1 (emptyState 4096 8192) 100 = some (4120, _) := rfl
  have h2 := Reachable.by_free 2 [4096] 4120 (Reachable.by_malloc 1 100 4120 h0 h1)
    (by decide) (Or.inr (by decide)) rfl
  have h3 : malloc 2 (after oneFreeBlock) 50 = some (4120, after reusedWithSplit) := rfl
  exact ⟨⟨Reachable.by_realloc 2 [4096] 4120 1 4120 r48 (by decide) (Or.inr (by decide)) e1,
      e1, by decide, by decide, by decide, by decide⟩,
    ⟨Reachable.by_realloc 2 [4096] 4120 0 4120 r48 (by decide) (Or.inr (by decide)) e0,
      e0, by decide, by decide, by decide, by decide⟩,
    ⟨Reachable.by_malloc 2 50 4120 h2 h3, by decide, by decide, by decide, by decide⟩⟩

/-- What holds of the sizes when `realloc` is not called: in every state
reached from the empty chain by `malloc` and `calloc` calls for at most
`2 ^ 63 - 40` bytes, `free` calls on `NULL` or live pointers and client writes
into live payloads, the chain from `free_list` is finite and every header in
it has a size that is positive and a multiple of 8. -/
theorem sizes_positive_multiple_of_8 (s : State) (h : ReachableInRange false s) :
    ∃ l, Chain s.mem s.free_list l ∧
      ∀ x ∈ l, 0 < getSize s.mem x ∧ getSize s.mem x % 8 = 0 := by
  obtain ⟨l, hwf, hs⟩ := reachable_sizes s h
  exact ⟨l, hwf.1, hs⟩

/-- An instance of `sizes_positive_multiple_of_8`: the state after `malloc(100)`,
`free`, `malloc(50)`, with blocks of 64 and 24 bytes. -/
theorem sizes_positive_multiple_of_8_witness :
    ReachableInRange false (after reusedWithSplit) ∧
    ∃ l, Chain (after reusedWithSplit).mem (after reusedWithSplit).free_list l ∧
      ∀ x ∈ l, 0 < getSize (after reusedWithSplit).mem x ∧
        getSize (after reusedWithSplit).mem x % 8 = 0 := by
  have h0 : ReachableInRange false (emptyState 4096 8192) :=
    ReachableInRange.empty 4096 8192 (by decide) (by decide) (by decide)
  have h1 : malloc 1 (emptyState 4096 8192) 100 = some (4120, _) := rfl
  have h2 := ReachableInRange.by_free 2 [4096] 4120
    (ReachableInRange.by_malloc 1 100 4120 h0 (by decide) h1)
    (by decide) (Or.inr (by decide)) rfl
  have h3 : malloc 2 (after oneFreeBlock) 50 = some (4120, after reusedWithSplit) := rfl
  have h4 : ReachableInRange false (after reusedWithSplit) :=
    ReachableInRange.by_malloc 2 50 4120 h2 (by decide) h3
  exact ⟨h4, sizes_positive_multiple_of_8 (after reusedWithSplit) h4⟩

/-- C9 (returned pointers designate live chain blocks): in a well-formed
state, every non-null pointer returned by `malloc`, by `calloc`, or by `realloc`
called on `NULL` or on a live pointer, lies one header length behind a header
that is reached from `free_list` after the call and whose `free` flag is 0. -/
theorem returned_pointer_designates_live_block (fuel : Nat) (s : State) (l : List Nat)
    (hwf : WF s l) :
    (∀ n p s1, malloc fuel s n = some (p, s1) → p ≠ 0 → Designates s1 p) ∧
    (∀ num size p s1, calloc fuel s num size = some (p, s1) → p ≠ 0 → Designates s1 p) ∧
    (∀ ptr newSize p s1, (ptr = 0 ∨ Live s l ptr) →
      realloc fuel s ptr newSize = some (p, s1) → p ≠ 0 → Designates s1 p) := by
  refine ⟨fun n p s1 h hp => malloc_designates fuel s l n p s1 hwf h hp,
    fun num size p s1 h hp => calloc_designates fuel s l num size p s1 hwf h hp, ?_⟩
  intro ptr newSize p s1 hpre h hp
  rcases hpre with h0 | hlive
  · rw [realloc, if_pos h0] at h
    exact malloc_designates fuel s l newSize p s1 hwf h hp
  · by_cases hge : getSize s.mem (ptr - BLOCK_SIZE) ≥ newSize
    · exact realloc_in_place_designates fuel s l ptr newSize p s1 hwf hlive hge h
    · exact realloc_move_designates fuel s l ptr newSize p s1 hwf hlive (Nat.not_le.mp hge) h hp

/-- Witness of C9: in the chain of a free block and a live block, `malloc(16)`
and `calloc(2, 8)` return 4120, and `realloc(4160, 64)` returns 4200. -/
theorem returned_pointer_designates_live_block_witness :
    WF (after twoBlocksFirstFree) [4096, 4136] ∧
    malloc 3 (after twoBlocksFirstFree) 16 = some (4120, after firstBlockTakenAgain) ∧
    Designates (after firstBlockTakenAgain) 4120 ∧
    calloc 3 (after twoBlocksFirstFree) 2 8 = some (4120, after firstBlockZeroed) ∧
    Designates (after firstBlockZeroed) 4120 ∧
    Live (after twoBlocksFirstFree) [4096, 4136] 4160 ∧
    realloc 3 (after twoBlocksFirstFree) 4160 64 = some (4200, after secondBlockMoved) ∧
    Designates (after secondBlockMoved) 4200 := by
  have hwf : WF (after twoBlocksFirstFree) [4096, 4136] := by decide
  have h := returned_pointer_designates_live_block 3 (after twoBlocksFirstFree) [4096, 4136] hwf
  exact ⟨hwf, rfl, h.1 16 4120 _ rfl (by decide), rfl, h.2.1 2 8 4120 _ rfl (by decide),
    by decide, rfl, h.2.2 4160 64 4200 _ (Or.inr (by decide)) rfl (by decide)⟩

/-- C10 (first fit): if `b` is the first block of the chain that is free with
size at least the rounded request `a`, every block before it being live or
smaller than `a`, then `malloc(n)` returns the payload of `b`, clears the
`free` flag of `b` and leaves the break where it was; for `0 < n ≤ 2 ^ 64 - 16`
the rounded request `a` is the least multiple of 16 that is at least `n`. -/
theorem malloc_first_fit (fuel : Nat) (s : State) (n : Nat) (pre : List Nat) (b : Nat)
    (post : List Nat) (hn : 0 < n) (hn2 : n ≤ 2 ^ 64 - 16)
    (hc : Chain s.mem s.free_list (pre ++ b :: post))
    (hpre : ∀ x ∈ pre, getFree s.mem x = 0 ∨ getSize s.mem x < alignUp n)
    (hb : getFree s.mem b ≠ 0 ∧ alignUp n ≤ getSize s.mem b) (hfuel : pre.length < fuel) :
    (n ≤ alignUp n ∧ alignUp n < n + 16 ∧ alignUp n % 16 = 0) ∧
    ∃ s1, malloc fuel s n = some (b + BLOCK_SIZE, s1) ∧ getFree s1.mem b = 0 ∧
      s1.brk = s.brk := by
  obtain ⟨a1, a2, a3, _⟩ := alignUp_spec n hn2
  refine ⟨⟨a1, a2, a3⟩, ?_⟩
  obtain ⟨c, hs1, hs2⟩ := Seg_append.mp hc
  obtain ⟨hcb, hb0, _⟩ := hs2
  subst hcb
  have hnz := Seg_ne_zero hc
  have hhead : s.free_list ≠ 0 := by
    cases pre with
    | nil => cases hs1; exact hb0
    | cons x l => obtain ⟨h1, h2, _⟩ := hs1; rw [h1]; exact h2
  have hfind := find_free_block_loop_stops s.mem (alignUp n) pre s.free_list s.free_list fuel c hs1
    (fun x hx h => by rcases hpre x hx with h0 | h0 <;> omega) (Or.inr hb) hfuel
  unfold malloc
  rw [if_neg (by omega)]
  simp only [if_neg hhead, find_free_block, hfind, if_neg hb0]
  exact ⟨_, rfl, by simp [getFree_setFree], rfl⟩

/-- Witness of C10: `malloc(100)`, `free`, `malloc(50)` returns the same pointer
4120 and the break stays at 4232. -/
theorem malloc_first_fit_witness :
    ∃ s, oneFreeBlock = some s ∧ s.brk = 4232 ∧ Chain s.mem s.free_list [4096] ∧
      (50 ≤ alignUp 50 ∧ alignUp 50 < 50 + 16 ∧ alignUp 50 % 16 = 0) ∧
      ∃ s1, malloc 1 s 50 = some (4096 + BLOCK_SIZE, s1) ∧ getFree s1.mem 4096 = 0 ∧
        s1.brk = s.brk :=
  ⟨_, rfl, rfl, by decide,
    malloc_first_fit 1 _ 50 [] 4096 [] (by decide) (by decide) (by decide)
      (by intro x hx; cases hx) (by decide) (by decide)⟩

/-- C17: on every finite chain `pre ++ b :: post` whose headers behind `b` do
not overlap the header of `b`, `merge_free_blocks(b)` returns (given fuel for
the blocks behind `b`); afterwards the successor of `b` is null or not free,
and a second run of `merge_free_blocks(b)` returns the same memory. -/
theorem merge_free_blocks_idempotent (fuel : Nat) (m : Mem) (head : Nat) (pre : List Nat)
    (b : Nat) (post : List Nat) (hch : Chain m head (pre ++ b :: post))
    (hsep : ∀ x ∈ post, x + BLOCK_SIZE ≤ b ∨ b + BLOCK_SIZE ≤ x) (hf : post.length < fuel) :
    ∃ r, merge_free_blocks fuel m b = some r ∧
      (getNext r b = 0 ∨ getFree r (getNext r b) = 0) ∧
      merge_free_blocks fuel r b = some r ∧
      (merge_free_blocks fuel m b).bind (fun r1 => merge_free_blocks fuel r1 b)
        = merge_free_blocks fuel m b := by
  obtain ⟨c, _, k2, _, k4⟩ := Seg_append.mp hch
  subst k2
  obtain ⟨r, hr⟩ := merge_free_blocks_returns fuel m c post k4 hsep hf
  have h2 := merge_free_blocks_again fuel m c r hr
  refine ⟨r, hr, merge_free_blocks_post fuel m c r hr, h2, ?_⟩
  rw [hr]
  exact h2

/-- Witness of C17: the loop at the first of two adjacent free blocks of 16
bytes, at 4096 and 4136. -/
theorem merge_free_blocks_idempotent_witness :
    Chain (after twoBlocksBothFree).mem 4096 ([] ++ 4096 :: [4136]) ∧
    (∀ x ∈ [4136], x + BLOCK_SIZE ≤ 4096 ∨ 4096 + BLOCK_SIZE ≤ x) ∧
    ∃ r, merge_free_blocks 2 (after twoBlocksBothFree).mem 4096 = some r ∧
      (getNext r 4096 = 0 ∨ getFree r (getNext r 4096) = 0) ∧
      merge_free_blocks 2 r 4096 = some r ∧
      (merge_free_blocks 2 (after twoBlocksBothFree).mem 4096).bind
        (fun r1 => merge_free_blocks 2 r1 4096)
        = merge_free_blocks 2 (after twoBlocksBothFree).mem 4096 :=
  ⟨by decide, by decide,
   merge_free_blocks_idempotent 2 (after twoBlocksBothFree).mem 4096 [] 4096 [4136]
     (by decide) (by decide) (by decide)⟩

/-- C19: in a well-formed state `malloc(n)` returns for every `n` (given fuel
for the chain); when the result `p` is not null, `p` is not the payload
address of any block that was live before the call, and every block that was
live before the call is in the chain afterwards, at the same address, with the
same size and still not free. -/
theorem malloc_keeps_live_blocks (fuel : Nat) (s : State) (n : Nat) (l : List Nat)
    (hwf : WF s l) (hf : l.length < fuel) :
    ∃ p s1, malloc fuel s n = some (p, s1) ∧
      (p ≠ 0 →
        (∀ b ∈ l, getFree s.mem b = 0 → p ≠ b + BLOCK_SIZE) ∧
        ∃ l1, Chain s1.mem s1.free_list l1 ∧
          ∀ b ∈ l, getFree s.mem b = 0 →
            b ∈ l1 ∧ getSize s1.mem b = getSize s.mem b ∧ getFree s1.mem b = 0) := by
  obtain ⟨⟨p, s1⟩, h⟩ := malloc_total fuel s n l hwf.1 hf
  refine ⟨p, s1, h, ?_⟩
  intro hp
  obtain ⟨b1, l1, hpb, _, hch, _, _, _, hsub, hnew, hkeep⟩ := malloc_post fuel s n l p s1 hwf h hp
  have hne : ∀ b ∈ l, getFree s.mem b = 0 → b ≠ b1 := by
    intro b hb hfree hbb
    subst hbb
    exact hnew hb hfree
  refine ⟨?_, l1, hch, ?_⟩
  · intro b hb hfree hpe
    refine hne b hb hfree ?_
    omega
  · intro b hb hfree
    obtain ⟨k1, k2⟩ := hkeep b hb (hne b hb hfree)
    exact ⟨hsub b hb, k1, k2.trans hfree⟩

/-- Witness of C19: `malloc(16)` in a state with a free block at 4096 and a
live block at 4136 returns 4120. -/
theorem malloc_keeps_live_blocks_witness :
    WF (after twoBlocksFirstFree) [4096, 4136] ∧
    ∃ p s1, malloc 3 (after twoBlocksFirstFree) 16 = some (p, s1) ∧
      (p ≠ 0 →
        (∀ b ∈ [4096, 4136], getFree (after twoBlocksFirstFree).mem b = 0 →
          p ≠ b + BLOCK_SIZE) ∧
        ∃ l1, Chain s1.mem s1.free_list l1 ∧
          ∀ b ∈ [4096, 4136], getFree (after twoBlocksFirstFree).mem b = 0 →
            b ∈ l1 ∧ getSize s1.mem b = getSize (after twoBlocksFirstFree).mem b ∧
              getFree s1.mem b = 0) :=
  ⟨by decide,
   malloc_keeps_live_blocks 3 (after twoBlocksFirstFree) 16 [4096, 4136] (by decide)
     (by decide)⟩

/-- C20: `free(NULL)` returns the state unchanged.  In a well-formed state
`free(p)` of a live pointer returns (given fuel for the chain); the chain
`pre ++ B :: removed ++ post1` becomes `pre ++ B :: post1`, where `B` is the
block of `p` and every block of `removed` was free; the blocks before `B` keep
their three header fields; and every other block that was live before the call
is in the chain afterwards with the same size and still not free. -/
theorem free_keeps_live_blocks (fuel : Nat) (s : State) (l : List Nat) (p : Nat)
    (hwf : WF s l) (hlive : Live s l p) (hf : l.length < fuel) :
    free fuel s 0 = some s ∧
    ∃ s1 pre removed post1, free fuel s p = some s1 ∧
      l = pre ++ (p - BLOCK_SIZE) :: (removed ++ post1) ∧
      Chain s1.mem s1.free_list (pre ++ (p - BLOCK_SIZE) :: post1) ∧
      (∀ x ∈ removed, getFree s.mem x ≠ 0) ∧
      (∀ x ∈ pre, getSize s1.mem x = getSize s.mem x ∧ getNext s1.mem x = getNext s.mem x ∧
        getFree s1.mem x = getFree s.mem x) ∧
      (∀ x ∈ l, x ≠ p - BLOCK_SIZE → getFree s.mem x = 0 →
        x ∈ pre ++ (p - BLOCK_SIZE) :: post1 ∧ getSize s1.mem x = getSize s.mem x ∧
          getFree s1.mem x = 0) := by
  refine ⟨by rw [free, if_pos rfl], ?_⟩
  obtain ⟨s1, pre, removed, post1, h, hl, hwf1, _, hrem, hkeep⟩ :=
    free_live_spec fuel s l p hwf hlive hf
  refine ⟨s1, pre, removed, post1, h, hl, hwf1.1, fun x hx => (hrem x hx).1,
    fun x hx => hkeep x (List.mem_append_left _ hx), ?_⟩
  intro x hx hxB hfree
  rw [hl] at hx
  simp only [List.mem_append, List.mem_cons] at hx
  have hmem : x ∈ pre ++ post1 := by
    rcases hx with h0 | h0 | h0 | h0
    · exact List.mem_append_left _ h0
    · exact absurd h0 hxB
    · exact absurd hfree (hrem x h0).1
    · exact List.mem_append_right _ h0
  obtain ⟨k1, _, k3⟩ := hkeep x hmem
  refine ⟨?_, k1, k3.trans hfree⟩
  rcases List.mem_append.mp hmem with h0 | h0
  · exact List.mem_append_left _ h0
  · exact List.mem_append_right _ (List.mem_cons_of_mem _ h0)

/-- Witness of C20: `free(array)` in `main`, where the block at 4096 is followed
by a free block at 4200 and a live block at 4280. -/
theorem free_keeps_live_blocks_witness :
    WF (after mainAfterRealloc) [4096, 4200, 4280] ∧
    Live (after mainAfterRealloc) [4096, 4200, 4280] 4120 ∧
    free 4 (after mainAfterRealloc) 0 = some (after mainAfterRealloc) ∧
    ∃ s1 pre removed post1, free 4 (after mainAfterRealloc) 4120 = some s1 ∧
      [4096, 4200, 4280] = pre ++ (4120 - BLOCK_SIZE) :: (removed ++ post1) ∧
      Chain s1.mem s1.free_list (pre ++ (4120 - BLOCK_SIZE) :: post1) ∧
      (∀ x ∈ removed, getFree (after mainAfterRealloc).mem x ≠ 0) ∧
      (∀ x ∈ pre, getSize s1.mem x = getSize (after mainAfterRealloc).mem x ∧
        getNext s1.mem x = getNext (after mainAfterRealloc).mem x ∧
        getFree s1.mem x = getFree (after mainAfterRealloc).mem x) ∧
      (∀ x ∈ [4096, 4200, 4280], x ≠ 4120 - BLOCK_SIZE →
        getFree (after mainAfterRealloc).mem x = 0 →
        x ∈ pre ++ (4120 - BLOCK_SIZE) :: post1 ∧
          getSize s1.mem x = getSize (after mainAfterRealloc).mem x ∧
          getFree s1.mem x = 0) :=
  ⟨by decide, by decide,
   free_keeps_live_blocks 4 (after mainAfterRealloc) [4096, 4200, 4280] 4120 (by decide)
     (by decide) (by decide)⟩

/-- C18: in a well-formed state, for `0 < n ≤ 2^64 - 16` and `a = alignUp n`
(the least multiple of 16 that is at least `n`), when `malloc(n)` takes the
first fit `b` of size `s`: if `s > a + 24` then afterwards `b` has size `a`, is
not free and is followed by a new block at `b + 24 + a` that is free, has size
`s - a - 24` and the old successor of `b`; if `s ≤ a + 24` then the size and
the successor of `b` are kept and only the bytes of its `free` field change. -/
theorem malloc_split_rule (fuel : Nat) (s : State) (n : Nat) (pre : List Nat) (b : Nat)
    (post : List Nat) (hwf : WF s (pre ++ b :: post)) (hn0 : 0 < n) (hn : n ≤ 2 ^ 64 - 16)
    (hpre : ∀ x ∈ pre, ¬ Fits s.mem (alignUp n) x) (hb : Fits s.mem (alignUp n) b)
    (hfuel : pre.length < fuel) :
    (n ≤ alignUp n ∧ alignUp n < n + 16 ∧ alignUp n % 16 = 0) ∧
    ∃ s1, malloc fuel s n = some (b + BLOCK_SIZE, s1) ∧
      s1.free_list = s.free_list ∧ s1.brk = s.brk ∧
      (getSize s.mem b > alignUp n + BLOCK_SIZE →
        getSize s1.mem b = alignUp n ∧ getFree s1.mem b = 0 ∧
        getNext s1.mem b = b + BLOCK_SIZE + alignUp n ∧
        getFree s1.mem (b + BLOCK_SIZE + alignUp n) = 1 ∧
        getSize s1.mem (b + BLOCK_SIZE + alignUp n) = getSize s.mem b - alignUp n - BLOCK_SIZE ∧
        getNext s1.mem (b + BLOCK_SIZE + alignUp n) = getNext s.mem b ∧
        Chain s1.mem s1.free_list (pre ++ b :: (b + BLOCK_SIZE + alignUp n) :: post)) ∧
      (getSize s.mem b ≤ alignUp n + BLOCK_SIZE →
        getSize s1.mem b = getSize s.mem b ∧ getNext s1.mem b = getNext s.mem b ∧
        getFree s1.mem b = 0 ∧ Chain s1.mem s1.free_list (pre ++ b :: post) ∧
        ∀ y, y < b + 16 ∨ b + 20 ≤ y → s1.mem y = s.mem y) := by
  obtain ⟨a1, a2, a3, _⟩ := alignUp_spec n hn
  exact ⟨⟨a1, a2, a3⟩, malloc_reuse_spec fuel s n pre b post hwf hn0 hpre hb hfuel⟩

/-- Witness of C18: `malloc(50)` takes the free block of 112 bytes at 4096 and
splits it, since `112 > 64 + 24`. -/
theorem malloc_split_rule_witness :
    WF (after oneFreeBlock) ([] ++ 4096 :: []) ∧
    Fits (after oneFreeBlock).mem (alignUp 50) 4096 ∧
    getSize (after oneFreeBlock).mem 4096 = 112 ∧
    (50 ≤ alignUp 50 ∧ alignUp 50 < 50 + 16 ∧ alignUp 50 % 16 = 0) ∧
    ∃ s1, malloc 1 (after oneFreeBlock) 50 = some (4096 + BLOCK_SIZE, s1) ∧
      s1.free_list = (after oneFreeBlock).free_list ∧ s1.brk = (after oneFreeBlock).brk ∧
      (getSize (after oneFreeBlock).mem 4096 > alignUp 50 + BLOCK_SIZE →
        getSize s1.mem 4096 = alignUp 50 ∧ getFree s1.mem 4096 = 0 ∧
        getNext s1.mem 4096 = 4096 + BLOCK_SIZE + alignUp 50 ∧
        getFree s1.mem (4096 + BLOCK_SIZE + alignUp 50) = 1 ∧
        getSize s1.mem (4096 + BLOCK_SIZE + alignUp 50)
          = getSize (after oneFreeBlock).mem 4096 - alignUp 50 - BLOCK_SIZE ∧
        getNext s1.mem (4096 + BLOCK_SIZE + alignUp 50) = getNext (after oneFreeBlock).mem 4096 ∧
        Chain s1.mem s1.free_list ([] ++ 4096 :: (4096 + BLOCK_SIZE + alignUp 50) :: [])) ∧
      (getSize (after oneFreeBlock).mem 4096 ≤ alignUp 50 + BLOCK_SIZE →
        getSize s1.mem 4096 = getSize (after oneFreeBlock).mem 4096 ∧
        getNext s1.mem 4096 = getNext (after oneFreeBlock).mem 4096 ∧
        getFree s1.mem 4096 = 0 ∧ Chain s1.mem s1.free_list ([] ++ 4096 :: []) ∧
        ∀ y, y < 4096 + 16 ∨ 4096 + 20 ≤ y → s1.mem y = (after oneFreeBlock).mem y) :=
  ⟨by decide, by decide, by decide,
   malloc_split_rule 1 (after oneFreeBlock) 50 [] 4096 [] (by decide) (by decide) (by decide)
     (by intro x hx; cases hx) (by decide) (by decide)⟩

/-- Forward-only coalescing on well-formed chains: with three consecutive
blocks `A` (free), `B` (live), `C` (free) of a well-formed chain, where `C` is
the tail or is followed by a live block, `free` on the payload of `B` returns (given fuel for the blocks behind `B`) and
leaves `A` unchanged (same size, still free, successor `B`, ending where `B`
starts); `B` becomes free with size `B.size + 24 + C.size` and the old
successor of `C`; `C` is no longer in the chain. -/
theorem free_coalesces_forward_only (fuel : Nat) (s : State) (pre : List Nat) (A B C : Nat)
    (post : List Nat) (hwf : WF s (pre ++ A :: B :: C :: post)) (hA : getFree s.mem A ≠ 0)
    (hB : getFree s.mem B = 0) (hC : getFree s.mem C ≠ 0)
    (hpost : ∀ x, post.head? = some x → getFree s.mem x = 0) (hf : post.length + 1 < fuel) :
    ∃ s1, free fuel s (B + BLOCK_SIZE) = some s1 ∧
      getSize s1.mem A = getSize s.mem A ∧ getFree s1.mem A ≠ 0 ∧
      getNext s1.mem A = B ∧ A + BLOCK_SIZE + getSize s1.mem A = B ∧
      getFree s1.mem B = 1 ∧ getFree s1.mem B ≠ getFree s.mem B ∧
      getSize s1.mem B = getSize s.mem B + BLOCK_SIZE + getSize s.mem C ∧
      getNext s1.mem B = getNext s.mem C ∧
      Chain s1.mem s1.free_list (pre ++ A :: B :: post) ∧ C ∉ pre ++ A :: B :: post := by
  obtain ⟨s1, h, k1, k2, k3, k4, k5, k6, k7, k8, k9⟩ :=
    free_middle_spec fuel s pre A B C post hwf hC hpost hf
  refine ⟨s1, h, k1, by rw [k2]; exact hA, k3, k4, k5, ?_, k6, k7, k8.1, k9⟩
  rw [k5, hB]
  decide

/-- An instance of `free_coalesces_forward_only`: blocks of 16 bytes at 4096
(free), 4136 (live) and 4176 (free, the tail); `free(4160)` gives the block at 4136 the size 56. -/
theorem free_coalesces_forward_only_witness :
    WF (after freeLiveFree) ([] ++ 4096 :: 4136 :: 4176 :: []) ∧
    getSize (after freeLiveFree).mem 4136 = 16 ∧ getSize (after freeLiveFree).mem 4176 = 16 ∧
    ∃ s1, free 4 (after freeLiveFree) (4136 + BLOCK_SIZE) = some s1 ∧
      getSize s1.mem 4096 = getSize (after freeLiveFree).mem 4096 ∧ getFree s1.mem 4096 ≠ 0 ∧
      getNext s1.mem 4096 = 4136 ∧ 4096 + BLOCK_SIZE + getSize s1.mem 4096 = 4136 ∧
      getFree s1.mem 4136 = 1 ∧ getFree s1.mem 4136 ≠ getFree (after freeLiveFree).mem 4136 ∧
      getSize s1.mem 4136
        = getSize (after freeLiveFree).mem 4136 + BLOCK_SIZE
          + getSize (after freeLiveFree).mem 4176 ∧
      getNext s1.mem 4136 = getNext (after freeLiveFree).mem 4176 ∧
      Chain s1.mem s1.free_list ([] ++ 4096 :: 4136 :: []) ∧
      4176 ∉ [] ++ 4096 :: 4136 :: [] :=
  ⟨by decide, by decide, by decide,
   free_coalesces_forward_only 4 (after freeLiveFree) [] 4096 4136 4176 [] (by decide)
     (by decide) (by decide) (by decide) (by intro x hx; cases hx) (by decide)⟩

/-- C12 (release of `B` before a free `C` always leaves one block of size
`B.size + 24 + C.size`) fails on the code: with three blocks of 16 bytes, the
second and then the third released, `free` of the first leaves one block of
96 bytes, since the loop also absorbs the free block behind `C`. -/
theorem free_absorbs_more_than_one :
    WF (after liveFreeFree) [4096, 4136, 4176] ∧
    Live (after liveFreeFree) [4096, 4136, 4176] 4120 ∧
    getNext (after liveFreeFree).mem 4096 = 4136 ∧
    getFree (after liveFreeFree).mem 4136 ≠ 0 ∧
    getSize (after liveFreeFree).mem 4096 = 16 ∧ getSize (after liveFreeFree).mem 4136 = 16 ∧
    free 4 (after liveFreeFree) 4120 = some (after firstReleased) ∧
    Chain (after firstReleased).mem (after firstReleased).free_list [4096] ∧
    getSize (after firstReleased).mem 4096 = 96 ∧ 96 ≠ 16 + BLOCK_SIZE + 16 := by
  refine ⟨by decide, by decide, by decide, by decide, by decide, by decide, rfl, by decide,
    by decide, by decide⟩

/-- C12 as amended: in a well-formed chain where the live block `B` is
directly followed by the free block `C`, `free` on the payload of `B` returns
(given fuel for the blocks behind `B`) and leaves one free block at `B` in
place of `B`, `C` and the free blocks `rest` that directly follow `C`; its size
is `B.size + 24 + C.size` plus `24 + size` for each block of `rest`; the block
now behind `B`, if any, was not free before the call and is not free after
it; and when the successor of `C` is null or not free, `rest` is empty and the
size is `B.size + 24 + C.size`. -/
theorem free_merges_free_run (fuel : Nat) (s : State) (pre : List Nat) (B C : Nat)
    (post : List Nat) (hwf : WF s (pre ++ B :: C :: post)) (hB : getFree s.mem B = 0)
    (hC : getFree s.mem C ≠ 0) (hf : post.length + 1 < fuel) :
    ∃ s1 rest post1, free fuel s (B + BLOCK_SIZE) = some s1 ∧ post = rest ++ post1 ∧
      Chain s1.mem s1.free_list (pre ++ B :: post1) ∧
      getFree s1.mem B = 1 ∧ getFree s1.mem B ≠ getFree s.mem B ∧
      getSize s1.mem B = getSize s.mem B + BLOCK_SIZE + getSize s.mem C
        + (rest.map (fun x => BLOCK_SIZE + getSize s.mem x)).sum ∧
      (∀ x ∈ rest, getFree s.mem x ≠ 0) ∧
      (∀ x, post1.head? = some x → getFree s.mem x = 0) ∧
      (∀ x, post1.head? = some x → getFree s1.mem x = 0) ∧
      ((∀ x, post.head? = some x → getFree s.mem x = 0) →
        rest = [] ∧ post1 = post ∧
        getSize s1.mem B = getSize s.mem B + BLOCK_SIZE + getSize s.mem C) := by
  obtain ⟨s1, rest, post1, h, g1, hwf1, g2, g3, g4, g5, g6, g7, g8⟩ :=
    free_absorbs fuel s pre B C post hwf hC hf
  refine ⟨s1, rest, post1, h, g1, hwf1.1, g2, by rw [g2, hB]; decide, g4, g5, g6, ?_, ?_⟩
  · intro x hx
    rw [(g7 x (List.mem_append_right _ (List.mem_of_mem_head? hx))).2.2]
    exact g6 x hx
  · intro hp
    obtain ⟨e1, e2⟩ := g8 hp
    refine ⟨e1, e2, ?_⟩
    subst e1
    simp only [List.map_nil, List.sum_nil, Nat.add_zero] at g4
    exact g4

/-- Witness of the amended C12: in `liveFreeFree` the block at 4096 is live
and the blocks at 4136 and 4176 are free. -/
theorem free_merges_free_run_witness :
    WF (after liveFreeFree) ([] ++ 4096 :: 4136 :: [4176]) ∧
    ∃ s1 rest post1, free 4 (after liveFreeFree) (4096 + BLOCK_SIZE) = some s1 ∧
      [4176] = rest ++ post1 ∧
      Chain s1.mem s1.free_list ([] ++ 4096 :: post1) ∧
      getFree s1.mem 4096 = 1 ∧ getFree s1.mem 4096 ≠ getFree (after liveFreeFree).mem 4096 ∧
      getSize s1.mem 4096 = getSize (after liveFreeFree).mem 4096 + BLOCK_SIZE
        + getSize (after liveFreeFree).mem 4136
        + (rest.map (fun x => BLOCK_SIZE + getSize (after liveFreeFree).mem x)).sum ∧
      (∀ x ∈ rest, getFree (after liveFreeFree).mem x ≠ 0) ∧
      (∀ x, post1.head? = some x → getFree (after liveFreeFree).mem x = 0) ∧
      (∀ x, post1.head? = some x → getFree s1.mem x = 0) ∧
      ((∀ x, [4176].head? = some x → getFree (after liveFreeFree).mem x = 0) →
        rest = [] ∧ post1 = [4176] ∧
        getSize s1.mem 4096 = getSize (after liveFreeFree).mem 4096 + BLOCK_SIZE
          + getSize (after liveFreeFree).mem 4136) :=
  ⟨by decide,
   free_merges_free_run 4 (after liveFreeFree) [] 4096 4136 [4176] (by decide) (by decide)
     (by decide) (by decide)⟩

/-- C13 (an in-place `realloc` splits only when the surplus strictly exceeds
`24 + 16`) fails on the code: after `malloc(48)`, `realloc(p, 8)` has a surplus
of exactly 40 and splits the block into 8 bytes and a free remainder of 16
bytes at 4128, where the claim keeps the size 48 and the chain unchanged. -/
theorem realloc_splits_at_surplus_40 :
    WF (after oneBlock48) [4096] ∧ Live (after oneBlock48) [4096] 4120 ∧
    getSize (after oneBlock48).mem 4096 = 48 ∧ 8 ≤ 48 ∧
    ¬ (48 - 8 > BLOCK_SIZE + 16) ∧
    realloc 2 (after oneBlock48) 4120 8 = some (4120, after shrunk48To8) ∧
    getSize (after shrunk48To8).mem 4096 = 8 ∧
    Chain (after shrunk48To8).mem (after shrunk48To8).free_list [4096, 4128] ∧
    getSize (after shrunk48To8).mem 4128 = 16 ∧ getFree (after shrunk48To8).mem 4128 = 1 := by
  refine ⟨by decide, by decide, by decide, by decide, by decide, rfl, by decide, by decide,
    by decide, by decide⟩

/-- C13 as amended: in a well-formed state, for a live block `B` of size `s`
(at an address of at least 16) and `newSize ≤ s`, `realloc` returns the same
pointer (given fuel for the blocks behind `B`).  It splits exactly when the
surplus `s - newSize` is at least `24 + 16`: then the split writes the size
`newSize` into `B` and `s - newSize - 24` into a free remainder at
`B + 24 + newSize`, and the remainder then absorbs the free blocks `rest` that
directly follow it.  When the surplus is below `24 + 16` the state is
unchanged. -/
theorem realloc_in_place_rule (fuel : Nat) (s : State) (pre : List Nat) (B : Nat)
    (post : List Nat) (newSize : Nat) (hwf : WF s (pre ++ B :: post))
    (hB : getFree s.mem B = 0) (h16 : 16 ≤ B) (hge : newSize ≤ getSize s.mem B)
    (hf : post.length < fuel) :
    (getSize s.mem B - newSize < BLOCK_SIZE + ALIGNMENT →
      realloc fuel s (B + BLOCK_SIZE) newSize = some (B + BLOCK_SIZE, s)) ∧
    (BLOCK_SIZE + ALIGNMENT ≤ getSize s.mem B - newSize →
      ∃ s1 rest post1, realloc fuel s (B + BLOCK_SIZE) newSize = some (B + BLOCK_SIZE, s1) ∧
        merge_free_blocks fuel (split_block s.mem B newSize) (B + BLOCK_SIZE + newSize)
          = some s1.mem ∧
        getSize (split_block s.mem B newSize) B = newSize ∧
        getSize (split_block s.mem B newSize) (B + BLOCK_SIZE + newSize)
          = getSize s.mem B - newSize - BLOCK_SIZE ∧
        post = rest ++ post1 ∧
        Chain s1.mem s1.free_list (pre ++ B :: (B + BLOCK_SIZE + newSize) :: post1) ∧
        getSize s1.mem B = newSize ∧ getFree s1.mem B = 0 ∧
        getNext s1.mem B = B + BLOCK_SIZE + newSize ∧
        getFree s1.mem (B + BLOCK_SIZE + newSize) = 1 ∧
        getSize s1.mem (B + BLOCK_SIZE + newSize)
          = getSize s.mem B - newSize - BLOCK_SIZE
            + (rest.map (fun x => BLOCK_SIZE + getSize s.mem x)).sum ∧
        (∀ x ∈ rest, getFree s.mem x ≠ 0) ∧
        (∀ x, post1.head? = some x → getFree s.mem x = 0)) := by
  have hno := wf_resize_no_wrap hwf (by simp) h16 hge
  obtain ⟨k1, k2⟩ := realloc_in_place_spec fuel s pre B post newSize hwf hge hno hf
  constructor
  · intro h
    refine k1 ?_
    unfold BLOCK_SIZE ALIGNMENT at h
    omega
  · intro h
    obtain ⟨s1, rest, post1, g1, g2, g3, g4, g5, g6, g7, g8, g9, g10, g11, g12, g13⟩ :=
      k2 (by unfold BLOCK_SIZE ALIGNMENT at h; omega)
    exact ⟨s1, rest, post1, g1, g2, g3, g4, g5, g6.1, g7, g8.trans hB, g9, g10, g11, g12, g13⟩

/-- Witness of the amended C13: `malloc(320)` then `realloc(p, 80)` returns `p`
and splits off a remainder of `320 - 80 - 24` bytes at 4200. -/
theorem realloc_in_place_rule_witness :
    WF (after oneBlock320) ([] ++ 4096 :: []) ∧ getSize (after oneBlock320).mem 4096 = 320 ∧
    (getSize (after oneBlock320).mem 4096 - 80 < BLOCK_SIZE + ALIGNMENT →
      realloc 2 (after oneBlock320) (4096 + BLOCK_SIZE) 80
        = some (4096 + BLOCK_SIZE, after oneBlock320)) ∧
    (BLOCK_SIZE + ALIGNMENT ≤ getSize (after oneBlock320).mem 4096 - 80 →
      ∃ s1 rest post1, realloc 2 (after oneBlock320) (4096 + BLOCK_SIZE) 80
          = some (4096 + BLOCK_SIZE, s1) ∧
        merge_free_blocks 2 (split_block (after oneBlock320).mem 4096 80)
          (4096 + BLOCK_SIZE + 80) = some s1.mem ∧
        getSize (split_block (after oneBlock320).mem 4096 80) 4096 = 80 ∧
        getSize (split_block (after oneBlock320).mem 4096 80) (4096 + BLOCK_SIZE + 80)
          = getSize (after oneBlock320).mem 4096 - 80 - BLOCK_SIZE ∧
        [] = rest ++ post1 ∧
        Chain s1.mem s1.free_list ([] ++ 4096 :: (4096 + BLOCK_SIZE + 80) :: post1) ∧
        getSize s1.mem 4096 = 80 ∧ getFree s1.mem 4096 = 0 ∧
        getNext s1.mem 4096 = 4096 + BLOCK_SIZE + 80 ∧
        getFree s1.mem (4096 + BLOCK_SIZE + 80) = 1 ∧
        getSize s1.mem (4096 + BLOCK_SIZE + 80)
          = getSize (after oneBlock320).mem 4096 - 80 - BLOCK_SIZE
            + (rest.map (fun x => BLOCK_SIZE + getSize (after oneBlock320).mem x)).sum ∧
        (∀ x ∈ rest, getFree (after oneBlock320).mem x ≠ 0) ∧
        (∀ x, post1.head? = some x → getFree (after oneBlock320).mem x = 0)) :=
  ⟨by decide, by decide,
   realloc_in_place_rule 2 (after oneBlock320) [] 4096 [] 80 (by decide) (by decide)
     (by decide) (by decide) (by decide)⟩

/-- C16 (a split never underflows in computing the remainder) fails on the
code, because both split tests add in `size_t`.  After `malloc(2^64 - 16)` and
`free`, `malloc(2^64 - 16)` finds the block of recorded size `2^64 - 16`; its
test `size > a + 24` reads `size > 8`, the split runs and computes
`0 - 24 = 2^64 - 24`.  After `malloc(2^64 - 16)`, `realloc(p, 2^64 - 20)`
passes `size ≥ newSize + 24 + 16`, which reads `size ≥ 20`, and computes
`4 - 24 = 2^64 - 20`. -/
theorem split_subtraction_underflows :
    (Reachable (after hugeFreed) ∧
      Fits (after hugeFreed).mem (alignUp (2 ^ 64 - 16)) 4096 ∧
      uadd (alignUp (2 ^ 64 - 16)) BLOCK_SIZE = 8 ∧
      getSize (after hugeFreed).mem 4096 > uadd (alignUp (2 ^ 64 - 16)) BLOCK_SIZE ∧
      malloc 2 (after hugeFreed) (2 ^ 64 - 16)
        = some (4120, { after hugeFreed with
            mem := setFree (split_block (after hugeFreed).mem 4096 (alignUp (2 ^ 64 - 16)))
              4096 0 }) ∧
      getSize (after hugeFreed).mem 4096 - alignUp (2 ^ 64 - 16) = 0 ∧
      usub (usub (getSize (after hugeFreed).mem 4096) (alignUp (2 ^ 64 - 16))) BLOCK_SIZE
        = 2 ^ 64 - 24 ∧
      (BLOCK_SIZE + alignUp (2 ^ 64 - 16)) + (BLOCK_SIZE + (2 ^ 64 - 24))
        ≠ BLOCK_SIZE + getSize (after hugeFreed).mem 4096) ∧
    (Reachable (after hugeBlock) ∧ Live (after hugeBlock) [4096] 4120 ∧
      getSize (after hugeBlock).mem 4096 ≥ 2 ^ 64 - 20 ∧
      uadd (uadd (2 ^ 64 - 20) BLOCK_SIZE) ALIGNMENT = 20 ∧
      getSize (after hugeBlock).mem 4096 ≥ uadd (uadd (2 ^ 64 - 20) BLOCK_SIZE) ALIGNMENT ∧
      (realloc 2 (after hugeBlock) 4120 (2 ^ 64 - 20)).map Prod.fst = some 4120 ∧
      getSize (after hugeBlock).mem 4096 - (2 ^ 64 - 20) = 4 ∧
      usub (usub (getSize (after hugeBlock).mem 4096) (2 ^ 64 - 20)) BLOCK_SIZE
        = 2 ^ 64 - 20 ∧
      (BLOCK_SIZE + (2 ^ 64 - 20)) + (BLOCK_SIZE + (2 ^ 64 - 20))
        ≠ BLOCK_SIZE + getSize (after hugeBlock).mem 4096) := by
  have h0 := Reachable.empty 4096 8192 (by decide) (by decide) (by decide)
  have e1 : malloc 1 (emptyState 4096 8192) (2 ^ 64 - 16) = some (4120, after hugeBlock) := rfl
  have r1 : Reachable (after hugeBlock) := Reachable.by_malloc 1 (2 ^ 64 - 16) 4120 h0 e1
  have e2 : free 2 (after hugeBlock) 4120 = some (after hugeFreed) := rfl
  have r2 : Reachable (after hugeFreed) :=
    Reachable.by_free 2 [4096] 4120 r1 (by decide) (Or.inr (by decide)) e2
  exact ⟨⟨r2, by decide, by decide, by decide, rfl, by decide, by decide, by decide⟩,
    ⟨r1, by decide, by decide, by decide, by decide, by decide, by decide, by decide,
      by decide⟩⟩

/-- The splits on well-formed states: whenever `malloc` splits the block `B`
of a well-formed chain that it takes (its test `B.size > a + 24` holds), and
whenever an in-place `realloc` splits the block `B` (its tests
`B.size ≥ newSize` and
`B.size ≥ newSize + 24 + 16` hold, `B` at an address of at least 16), the
subtraction `B.size - s1 - 24` does not underflow, the split writes the sizes
`s1` and `s2 = B.size - s1 - 24`, and `(24 + s1) + (24 + s2) = 24 + B.size`.
For `malloc` the sizes are read in the state it returns, for `realloc` in the
memory written by the split, which the coalescing loop then starts from. -/
theorem split_keeps_total (fuel : Nat) (s : State) (pre : List Nat) (B : Nat)
    (post : List Nat) (hwf : WF s (pre ++ B :: post)) :
    (∀ n, 0 < n → (∀ y ∈ pre, ¬ Fits s.mem (alignUp n) y) → Fits s.mem (alignUp n) B →
      getSize s.mem B > uadd (alignUp n) BLOCK_SIZE → pre.length < fuel →
      ∃ s1, malloc fuel s n = some (B + BLOCK_SIZE, s1) ∧
        alignUp n + BLOCK_SIZE ≤ getSize s.mem B ∧
        usub (usub (getSize s.mem B) (alignUp n)) BLOCK_SIZE
          = getSize s.mem B - alignUp n - BLOCK_SIZE ∧
        getSize s1.mem B = alignUp n ∧
        getSize s1.mem (B + BLOCK_SIZE + alignUp n) = getSize s.mem B - alignUp n - BLOCK_SIZE ∧
        (BLOCK_SIZE + getSize s1.mem B) + (BLOCK_SIZE + getSize s1.mem (B + BLOCK_SIZE + alignUp n))
          = BLOCK_SIZE + getSize s.mem B) ∧
    (∀ newSize, 16 ≤ B → getSize s.mem B ≥ newSize →
      getSize s.mem B ≥ uadd (uadd newSize BLOCK_SIZE) ALIGNMENT → post.length < fuel →
      ∃ s1, realloc fuel s (B + BLOCK_SIZE) newSize = some (B + BLOCK_SIZE, s1) ∧
        merge_free_blocks fuel (split_block s.mem B newSize) (B + BLOCK_SIZE + newSize)
          = some s1.mem ∧
        newSize + BLOCK_SIZE ≤ getSize s.mem B ∧
        usub (usub (getSize s.mem B) newSize) BLOCK_SIZE
          = getSize s.mem B - newSize - BLOCK_SIZE ∧
        getSize (split_block s.mem B newSize) B = newSize ∧
        getSize (split_block s.mem B newSize) (B + BLOCK_SIZE + newSize)
          = getSize s.mem B - newSize - BLOCK_SIZE ∧
        (BLOCK_SIZE + getSize (split_block s.mem B newSize) B)
          + (BLOCK_SIZE + getSize (split_block s.mem B newSize) (B + BLOCK_SIZE + newSize))
          = BLOCK_SIZE + getSize s.mem B) := by
  have hlt := getSize_lt s.mem B
  constructor
  · intro n hn0 hpre hfit hsplit hfuel
    have hbb := (Contig_block_bounds (hwf.2.1 (by simp))).1
    have hbrk := hwf.2.2.2.2.2
    have hbl := hwf.2.2.2.2.1
    have ha : alignUp n ≤ getSize s.mem B := hfit.2
    have hu : uadd (alignUp n) BLOCK_SIZE = alignUp n + BLOCK_SIZE :=
      uadd_eq _ _ (by unfold BLOCK_SIZE SIZE_T at *; omega)
    rw [hu] at hsplit
    obtain ⟨s1, h, _, _, k, _⟩ := malloc_reuse_spec fuel s n pre B post hwf hn0 hpre hfit hfuel
    obtain ⟨k1, _, _, _, k5, _⟩ := k hsplit
    refine ⟨s1, h, by omega, ?_, k1, k5, ?_⟩
    · rw [usub_eq _ _ hlt ha, usub_eq _ _ (by omega) (by unfold BLOCK_SIZE at *; omega)]
    · rw [k1, k5]
      unfold BLOCK_SIZE at *
      omega
  · intro newSize h16 hge hsplit hfuel
    have hno := wf_resize_no_wrap hwf (by simp) h16 hge
    have hu : uadd (uadd newSize BLOCK_SIZE) ALIGNMENT = newSize + 40 := by
      unfold BLOCK_SIZE ALIGNMENT
      rw [uadd_eq newSize 24 (by omega), uadd_eq _ 16 (by omega)]
    rw [hu] at hsplit
    obtain ⟨s1, _, _, h, hm, k1, k2, _⟩ :=
      (realloc_in_place_spec fuel s pre B post newSize hwf hge hno hfuel).2 hsplit
    refine ⟨s1, h, hm, by unfold BLOCK_SIZE; omega, ?_, k1, k2, ?_⟩
    · rw [usub_eq _ _ hlt hge, usub_eq _ _ (by omega) (by unfold BLOCK_SIZE at *; omega)]
    · rw [k1, k2]
      unfold BLOCK_SIZE at *
      omega

/-- An instance of `split_keeps_total`: `malloc(50)` splits the free block of
112 bytes into 64 and 24 bytes, and `realloc(p, 80)` splits the block of 320 bytes into 80 and 216
bytes. -/
theorem split_keeps_total_witness :
    (WF (after oneFreeBlock) ([] ++ 4096 :: []) ∧
      ∃ s1, malloc 1 (after oneFreeBlock) 50 = some (4096 + BLOCK_SIZE, s1) ∧
        alignUp 50 + BLOCK_SIZE ≤ getSize (after oneFreeBlock).mem 4096 ∧
        usub (usub (getSize (after oneFreeBlock).mem 4096) (alignUp 50)) BLOCK_SIZE
          = getSize (after oneFreeBlock).mem 4096 - alignUp 50 - BLOCK_SIZE ∧
        getSize s1.mem 4096 = alignUp 50 ∧
        getSize s1.mem (4096 + BLOCK_SIZE + alignUp 50)
          = getSize (after oneFreeBlock).mem 4096 - alignUp 50 - BLOCK_SIZE ∧
        (BLOCK_SIZE + getSize s1.mem 4096)
          + (BLOCK_SIZE + getSize s1.mem (4096 + BLOCK_SIZE + alignUp 50))
          = BLOCK_SIZE + getSize (after oneFreeBlock).mem 4096) ∧
    (WF (after oneBlock320) ([] ++ 4096 :: []) ∧
      ∃ s1, realloc 2 (after oneBlock320) (4096 + BLOCK_SIZE) 80
          = some (4096 + BLOCK_SIZE, s1) ∧
        merge_free_blocks 2 (split_block (after oneBlock320).mem 4096 80)
          (4096 + BLOCK_SIZE + 80) = some s1.mem ∧
        80 + BLOCK_SIZE ≤ getSize (after oneBlock320).mem 4096 ∧
        usub (usub (getSize (after oneBlock320).mem 4096) 80) BLOCK_SIZE
          = getSize (after oneBlock320).mem 4096 - 80 - BLOCK_SIZE ∧
        getSize (split_block (after oneBlock320).mem 4096 80) 4096 = 80 ∧
        getSize (split_block (after oneBlock320).mem 4096 80) (4096 + BLOCK_SIZE + 80)
          = getSize (after oneBlock320).mem 4096 - 80 - BLOCK_SIZE ∧
        (BLOCK_SIZE + getSize (split_block (after oneBlock320).mem 4096 80) 4096)
          + (BLOCK_SIZE
            + getSize (split_block (after oneBlock320).mem 4096 80) (4096 + BLOCK_SIZE + 80))
          = BLOCK_SIZE + getSize (after oneBlock320).mem 4096) :=
  ⟨⟨by decide,
    (split_keeps_total 1 (after oneFreeBlock) [] 4096 [] (by decide)).1 50 (by decide)
      (by intro y hy; cases hy) (by decide) (by decide) (by decide)⟩,
   ⟨by decide,
    (split_keeps_total 2 (after oneBlock320) [] 4096 [] (by decide)).2 80 (by decide)
      (by decide) (by decide) (by decide)⟩⟩

/-- C14 (the fill of `calloc` changes no header) fails on the code: in the
chain of a free block of 16 bytes at 4096 and a live block of 16 bytes at 4136,
`calloc(1, 2^64 - 1)` has the product `2^64 - 1`, which does not overflow;
`malloc` rounds it to 0, takes the block at 4096 and returns 4120, and the fill
of `2^64 - 1` bytes from 4120 zeroes the header of the live block at 4136,
whose size `malloc` of the same total leaves at 16. -/
theorem calloc_fill_overruns_headers :
    WF (after twoBlocksFirstFree) [4096, 4136] ∧
    1 * (2 ^ 64 - 1) < SIZE_T ∧ umul 1 (2 ^ 64 - 1) = 1 * (2 ^ 64 - 1) ∧
    malloc 3 (after twoBlocksFirstFree) (1 * (2 ^ 64 - 1)) = some (4120, after tookFirstForHuge) ∧
    calloc 3 (after twoBlocksFirstFree) 1 (2 ^ 64 - 1) = some (4120, after zeroedPastBlock) ∧
    Chain (after tookFirstForHuge).mem (after tookFirstForHuge).free_list [4096, 4136] ∧
    Chain (after zeroedPastBlock).mem (after zeroedPastBlock).free_list [4096, 4136] ∧
    getSize (after twoBlocksFirstFree).mem 4136 = 16 ∧
    getSize (after tookFirstForHuge).mem 4136 = 16 ∧
    getSize (after zeroedPastBlock).mem 4136 = 0 ∧
    getSize (after zeroedPastBlock).mem 4096 = 16 ∧ 4120 + 16 ≤ 4136 ∧
    4136 < 4120 + (2 ^ 64 - 1) := by
  refine ⟨by decide, by decide, by decide, rfl, rfl, by decide, by decide, by decide, by decide,
    by decide, by decide, by decide, by decide⟩

/-- C15 (growth raises the break by exactly `a + 24`) fails on the code for
sizes within the stated range `0 < n ≤ 2^64 - 16`: after `malloc(16)` the break
is 4136 and `malloc(2^64 - 32)` has `a = 2^64 - 32`; `a + 24` is `-8` as the
`intptr_t` argument of `sbrk`, the request is granted, the break is lowered
to 4128 and the pointer 4160 is returned for a block of recorded size
`2^64 - 32`.  On the empty chain `malloc(2^64 - 16)` raises the break by 8. -/
theorem growth_moves_break_by_wrapped_amount :
    WF (after oneBlock16) [4096] ∧ (after oneBlock16).brk = 4136 ∧
    (0 < 2 ^ 64 - 32 ∧ 2 ^ 64 - 32 ≤ 2 ^ 64 - 16) ∧ alignUp (2 ^ 64 - 32) = 2 ^ 64 - 32 ∧
    ¬ Fits (after oneBlock16).mem (alignUp (2 ^ 64 - 32)) 4096 ∧
    toIntptr (uadd (alignUp (2 ^ 64 - 32)) BLOCK_SIZE) = -8 ∧
    malloc 2 (after oneBlock16) (2 ^ 64 - 32) = some (4160, after breakLowered) ∧
    (after breakLowered).brk = 4128 ∧
    getSize (after breakLowered).mem 4136 = 2 ^ 64 - 32 ∧
    (alignUp (2 ^ 64 - 16) = 2 ^ 64 - 16 ∧
      malloc 1 (emptyState 4096 8192) (2 ^ 64 - 16) = some (4120, after hugeBlock) ∧
      (emptyState 4096 8192).brk = 4096 ∧ (after hugeBlock).brk = 4104 ∧
      4104 ≠ 4096 + (2 ^ 64 - 16 + BLOCK_SIZE)) := by
  refine ⟨by decide, by decide, by decide, by decide, by decide, by decide, rfl, by decide,
    by decide, by decide, rfl, by decide, by decide, by decide⟩

end Heap2
